import Mathlib

/-!
# Cuckoo filter: a shallow embedding of `cuckoofilter.go` and `util.go`

Go's `uint` and `uint64` are natural numbers reduced modulo `2 ^ 64`, a `byte`
is a natural number (the fingerprint derivation reduces modulo `2 ^ 8`).
A run-time panic of the Go program (an index out of range) is `none`.
Memory is not bounded: `make` always succeeds, so the only limits are those of
the 64-bit arithmetic.

The hash `metro.Hash64(data, 1337)` belongs to an external library; every
definition that needs it takes it as the argument `metro`, a function from
byte sequences to numbers, read modulo `2 ^ 64`.
-/

namespace Cuckoo

/-! ## Machine words -/

/-- The number of values of a Go `uint` / `uint64` on a 64-bit platform. -/
def uintSize : Nat := 2 ^ 64

/-- The function `bits.TrailingZeros` of the Go standard library, on a 64-bit
`uint`: the number of trailing zero bits, `64` for `0`. The helper counts at
most `fuel` bits. -/
def trailingZerosAux : Nat → Nat → Nat
  | 0, _ => 0
  | fuel + 1, x => if x % 2 = 1 then 0 else 1 + trailingZerosAux fuel (x / 2)

/-- The function `bits.TrailingZeros(x)` for a 64-bit `uint`. -/
def TrailingZeros (x : Nat) : Nat :=
  if x % uintSize = 0 then 64 else trailingZerosAux 64 (x % uintSize)

/-! ## Buckets -/

/-- Modelled from the spec: the constant `bucketSize` (the file declaring it is
not part of the sources); a bucket is "a fixed-size array of exactly 4
fingerprint slots". -/
def bucketSize : Nat := 4

/-- Modelled from the spec: the type `bucket`, an array of `bucketSize = 4`
fingerprint bytes; `0` marks an empty slot. -/
structure Bucket where
  s0 : Nat
  s1 : Nat
  s2 : Nat
  s3 : Nat
  deriving DecidableEq, Repr

namespace Bucket

/-- The zero value of a bucket, as `make([]bucket, n)` creates it. -/
def empty : Bucket := ⟨0, 0, 0, 0⟩

/-- The read `b[j]` of slot `j`; a slot index is always below `bucketSize`. -/
def get (b : Bucket) (j : Nat) : Nat :=
  match j with
  | 0 => b.s0
  | 1 => b.s1
  | 2 => b.s2
  | _ => b.s3

/-- The write `b[j] = v` of slot `j`. -/
def set (b : Bucket) (j : Nat) (v : Nat) : Bucket :=
  match j with
  | 0 => { b with s0 := v }
  | 1 => { b with s1 := v }
  | 2 => { b with s2 := v }
  | _ => { b with s3 := v }

/-- Modelled from the spec: `bucket.insert`, "scan slots left to right; place
`fp` in the first zero slot and report success; report failure if none free".
The result is the updated bucket, `none` when no slot is free. -/
def insert (b : Bucket) (fp : Nat) : Option Bucket :=
  if b.s0 = 0 then some { b with s0 := fp }
  else if b.s1 = 0 then some { b with s1 := fp }
  else if b.s2 = 0 then some { b with s2 := fp }
  else if b.s3 = 0 then some { b with s3 := fp }
  else none

/-- Modelled from the spec: `bucket.getFingerprintIndex`, "return the slot index
of the first slot equal to `fp`, or not found" (`-1`, as the comparison
`> -1` in `Lookup` shows). -/
def getFingerprintIndex (b : Bucket) (fp : Nat) : Int :=
  if b.s0 = fp then 0
  else if b.s1 = fp then 1
  else if b.s2 = fp then 2
  else if b.s3 = fp then 3
  else -1

/-- Modelled from the spec: `bucket.delete`, "if find succeeds, zero that slot
and report success; otherwise report failure". The result is the updated
bucket, `none` when the fingerprint is not in the bucket. -/
def delete (b : Bucket) (fp : Nat) : Option Bucket :=
  if b.s0 = fp then some { b with s0 := 0 }
  else if b.s1 = fp then some { b with s1 := 0 }
  else if b.s2 = fp then some { b with s2 := 0 }
  else if b.s3 = fp then some { b with s3 := 0 }
  else none

/-- Modelled from the spec: `bucket.reset`, "zero all slots". -/
def reset (_b : Bucket) : Bucket := empty

/-- The number of non-zero slots of a bucket. -/
def nonZero (b : Bucket) : Nat :=
  (if b.s0 = 0 then 0 else 1) + (if b.s1 = 0 then 0 else 1)
    + (if b.s2 = 0 then 0 else 1) + (if b.s3 = 0 then 0 else 1)

/-- A bucket is full when all its slots are non-zero. -/
def Full (b : Bucket) : Prop := b.s0 ≠ 0 ∧ b.s1 ≠ 0 ∧ b.s2 ≠ 0 ∧ b.s3 ≠ 0

end Bucket

/-! ## util.go -/

/-- The table `masks` built by `init`: `masks[i] = (1 << i) - 1` in `uint`
arithmetic for `i ≤ 64` (so `masks[64]` is all ones); the array has 65 entries
and an index above 64 panics. -/
def masks (i : Nat) : Option Nat :=
  if i ≤ 64 then some (((1 <<< i) % uintSize + (uintSize - 1)) % uintSize) else none

/-- The table `altHash` built by `init`: `altHash[i] = uint(metro.Hash64([]byte{byte(i)}, 1337))`. -/
def altHash (metro : List Nat → Nat) (fp : Nat) : Nat :=
  metro [fp] % uintSize

/-- The function `getAltIndex(fp, i, bucketPow)`. -/
def getAltIndex (metro : List Nat → Nat) (fp i bucketPow : Nat) : Option Nat :=
  match masks bucketPow with
  | none => none
  | some mask =>
    let hash := altHash metro fp &&& mask
    some ((i &&& mask) ^^^ hash)

/-- The function `getFingerprint(hash)`: `byte(hash%255 + 1)`. -/
def getFingerprint (hash : Nat) : Nat :=
  (hash % 255 + 1) % 256

/-- The function `getIndicesAndFingerprint(data, bucketPow)`: the result is
`(i1, i2, f)`. -/
def getIndicesAndFingerprint (metro : List Nat → Nat) (data : List Nat) (bucketPow : Nat) :
    Option (Nat × Nat × Nat) :=
  let hash := metro data % uintSize
  let f := getFingerprint hash
  match masks bucketPow with
  | none => none
  | some mask =>
    let i1 := (hash >>> 32) &&& mask
    match getAltIndex metro f i1 bucketPow with
    | none => none
    | some i2 => some (i1, i2, f)

/-- The function `getNextPow2(n)` on a `uint64`. -/
def getNextPow2 (n : Nat) : Nat :=
  let n := (n % uintSize + (uintSize - 1)) % uintSize
  let n := n ||| (n >>> 1)
  let n := n ||| (n >>> 2)
  let n := n ||| (n >>> 4)
  let n := n ||| (n >>> 8)
  let n := n ||| (n >>> 16)
  let n := n ||| (n >>> 32)
  (n + 1) % uintSize

/-- The constant `a` of the linear congruential generator. -/
def lcgA : Nat := 2862933555777941757

/-- The constant `b` of the linear congruential generator. -/
def lcgB : Nat := 3037000493

/-- The method `LCG.Intn(n)` called from a single thread (the compare-and-swap
succeeds at the first attempt), for `n ≥ 1`: the result and the new state. -/
def Intn (state : Nat) (n : Nat) : Nat × Nat :=
  let newState := (lcgA * state + lcgB) % uintSize
  (newState % n, newState)

/-- The function `UintIn(n)`: `binary.Write` with `binary.BigEndian` (Go standard
library) appends the 8 bytes of the `uint64`, most significant first. -/
def UintIn (n : Nat) : List Nat :=
  let data := n % uintSize
  [(data >>> 56) % 256, (data >>> 48) % 256, (data >>> 40) % 256, (data >>> 32) % 256,
    (data >>> 24) % 256, (data >>> 16) % 256, (data >>> 8) % 256, data % 256]

/-- The function `UintOut(bye)`: `binary.Read` with `binary.BigEndian` (Go
standard library) reads the first 8 bytes as a `uint64`, most significant
first; on a shorter buffer it fails, the error is dropped and `data` stays 0. -/
def UintOut (bye : List Nat) : Nat :=
  match bye with
  | b0 :: b1 :: b2 :: b3 :: b4 :: b5 :: b6 :: b7 :: _ =>
    (b0 * 2 ^ 56 + b1 * 2 ^ 48 + b2 * 2 ^ 40 + b3 * 2 ^ 32 + b4 * 2 ^ 24 + b5 * 2 ^ 16
      + b6 * 2 ^ 8 + b7) % uintSize
  | _ => 0

/-! ## cuckoofilter.go -/

/-- The constant `maxCuckooCount`. -/
def maxCuckooCount : Nat := 500

/-- The type `Filter`; `gen` is the state of the generator `LCG`. -/
structure Filter where
  buckets : List Bucket
  count : Nat
  bucketPow : Nat
  FilePath : String
  gen : Nat
  deriving DecidableEq, Repr

/-- The number of non-zero slots summed over all buckets. -/
def nonZeroSlots (bs : List Bucket) : Nat :=
  (bs.map Bucket.nonZero).sum

/-- The method `Lookup(data)`. -/
def Lookup (metro : List Nat → Nat) (cf : Filter) (data : List Nat) : Option Bool :=
  match getIndicesAndFingerprint metro data cf.bucketPow with
  | none => none
  | some (i1, i2, fp) =>
    match cf.buckets[i1]?, cf.buckets[i2]? with
    | some b1, some b2 =>
      some (decide (b1.getFingerprintIndex fp > -1) || decide (b2.getFingerprintIndex fp > -1))
    | _, _ => none

/-- The method `Expand()`: `copy` moves `min(len(new), len(old))` buckets. -/
def Expand (cf : Filter) : Filter :=
  let capacity := (1 <<< ((cf.bucketPow + 1) % uintSize)) % uintSize
  let buckets := cf.buckets.take capacity
    ++ List.replicate (capacity - (cf.buckets.take capacity).length) Bucket.empty
  { cf with buckets := buckets, bucketPow := TrailingZeros capacity }

/-- The method `Reset()`. -/
def Reset (cf : Filter) : Filter :=
  { cf with buckets := cf.buckets.map Bucket.reset, count := 0 }

/-- The method `randi(i1, i2)`: the chosen index and the filter with the
advanced generator. -/
def randi (cf : Filter) (i1 i2 : Nat) : Nat × Filter :=
  let r := Intn cf.gen 2
  (if r.1 = 0 then i1 else i2, { cf with gen := r.2 })

/-- The method `insert(fp, i)` of the filter. -/
def insert (cf : Filter) (fp i : Nat) : Option (Bool × Filter) :=
  match cf.buckets[i]? with
  | none => none
  | some b =>
    match b.insert fp with
    | some b1 =>
      some (true, { cf with buckets := cf.buckets.set i b1, count := (cf.count + 1) % uintSize })
    | none => some (false, cf)

/-- The outcome of one round of the eviction loop of `reinsert`: either an
insertion succeeded, or the `maxCuckooCount` kicks are used up and the loop
variables `fp` and `i` are carried on. -/
inductive KickResult where
  | done (cf : Filter)
  | exhausted (cf : Filter) (fp i : Nat)
  deriving DecidableEq, Repr

/-- The loop `for k := 0; k < maxCuckooCount; k++` of `reinsert`, with `n`
iterations left. -/
def kicks (metro : List Nat → Nat) : Nat → Filter → Nat → Nat → Option KickResult
  | 0, cf, fp, i => some (KickResult.exhausted cf fp i)
  | n + 1, cf, fp, i =>
    let r := Intn cf.gen bucketSize
    let j := r.1
    match cf.buckets[i]? with
    | none => none
    | some b =>
      let oldfp := fp
      let fp1 := b.get j
      let cf1 := { cf with gen := r.2, buckets := cf.buckets.set i (b.set j oldfp) }
      match getAltIndex metro fp1 i cf1.bucketPow with
      | none => none
      | some i1 =>
        match insert cf1 fp1 i1 with
        | none => none
        | some (true, cf2) => some (KickResult.done cf2)
        | some (false, cf2) => kicks metro n cf2 fp1 i1

/-- The label `reinsert:` with `3 - count` rounds left: a round of kicks, and
when it is exhausted `Expand()`, `count++` and the jump back while
`count < 3`. -/
def reinsertRounds (metro : List Nat → Nat) : Nat → Filter → Nat → Nat → Option (Bool × Filter)
  | 0, cf, _, _ => some (false, cf)
  | r + 1, cf, fp, i =>
    match kicks metro maxCuckooCount cf fp i with
    | none => none
    | some (KickResult.done cf1) => some (true, cf1)
    | some (KickResult.exhausted cf1 fp1 i1) => reinsertRounds metro r (Expand cf1) fp1 i1

/-- The method `reinsert(fp, i)`. -/
def reinsert (metro : List Nat → Nat) (cf : Filter) (fp i : Nat) : Option (Bool × Filter) :=
  reinsertRounds metro 3 cf fp i

/-- The method `Insert(data)`: the returned boolean and the filter after the
call. -/
def Insert (metro : List Nat → Nat) (cf : Filter) (data : List Nat) : Option (Bool × Filter) :=
  match getIndicesAndFingerprint metro data cf.bucketPow with
  | none => none
  | some (i1, i2, fp) =>
    match insert cf fp i1 with
    | none => none
    | some (true, cf1) => some (true, cf1)
    | some (false, cf1) =>
      match insert cf1 fp i2 with
      | none => none
      | some (true, cf2) => some (true, cf2)
      | some (false, cf2) =>
        let r := randi cf2 i1 i2
        reinsert metro r.2 fp r.1

/-- The method `InsertUnique(data)`. -/
def InsertUnique (metro : List Nat → Nat) (cf : Filter) (data : List Nat) :
    Option (Bool × Filter) :=
  match Lookup metro cf data with
  | none => none
  | some true => some (false, cf)
  | some false => Insert metro cf data

/-- The method `delete(fp, i)` of the filter. -/
def delete (cf : Filter) (fp i : Nat) : Option (Bool × Filter) :=
  match cf.buckets[i]? with
  | none => none
  | some b =>
    match b.delete fp with
    | some b1 =>
      some (true,
        { cf with buckets := cf.buckets.set i b1, count := (cf.count + (uintSize - 1)) % uintSize })
    | none => some (false, cf)

/-- The method `Delete(data)`. -/
def Delete (metro : List Nat → Nat) (cf : Filter) (data : List Nat) : Option (Bool × Filter) :=
  match getIndicesAndFingerprint metro data cf.bucketPow with
  | none => none
  | some (i1, i2, fp) =>
    match delete cf fp i1 with
    | none => none
    | some (true, cf1) => some (true, cf1)
    | some (false, cf1) => delete cf1 fp i2

/-- The method `Count()`. -/
def Count (cf : Filter) : Nat := cf.count

/-- The inner loop `for j, f := range b` of `Encode` for bucket `i`: the writes
`bytes[i*len(b) + j] = f`. -/
def encodeBucket (bytes : List Nat) (i : Nat) (b : Bucket) : List Nat :=
  (((bytes.set (i * bucketSize + 0) b.s0).set (i * bucketSize + 1) b.s1).set
    (i * bucketSize + 2) b.s2).set (i * bucketSize + 3) b.s3

/-- The outer loop `for i, b := range cf.buckets` of `Encode`, from index `i`. -/
def encodeLoop : List Bucket → Nat → List Nat → List Nat
  | [], _, bytes => bytes
  | b :: bs, i, bytes => encodeLoop bs (i + 1) (encodeBucket bytes i b)

/-- The method `Encode()`. -/
def Encode (cf : Filter) : List Nat :=
  encodeLoop cf.buckets 0 (List.replicate (cf.buckets.length * bucketSize) 0)

/-- The error `Decode` returns: the text "expected bytes to be multiple of
`size`, got `got`". -/
inductive FormatError where
  | notMultiple (size got : Nat)
  deriving DecidableEq, Repr

/-- One iteration `j` of the inner loop of `Decode` for bucket `i`, on the
bucket under construction and the running `count`. The index read is below
`4 * (len(bytes)/4)`, hence in range. -/
def decodeSlot (bytes : List Nat) (i j : Nat) (st : Bucket × Nat) : Bucket × Nat :=
  let index := i * bucketSize + j
  if bytes.getD index 0 ≠ 0 then
    (st.1.set j (bytes.getD index 0), (st.2 + 1) % uintSize)
  else st

/-- The outer loop `for i, b := range buckets` of `Decode` with `n` buckets
left, from index `i`: the buckets built and the final `count`. -/
def decodeLoop (bytes : List Nat) : Nat → Nat → Nat → List Bucket × Nat
  | 0, _, count => ([], count)
  | n + 1, i, count =>
    let r := decodeSlot bytes i 3 (decodeSlot bytes i 2 (decodeSlot bytes i 1
      (decodeSlot bytes i 0 (Bucket.empty, count))))
    let rest := decodeLoop bytes n (i + 1) r.2
    (r.1 :: rest.1, rest.2)

/-- The function `Decode(bytes)`. -/
def Decode (bytes : List Nat) : Except FormatError Filter :=
  if bytes.length % bucketSize ≠ 0 then
    Except.error (FormatError.notMultiple bucketSize bytes.length)
  else
    let r := decodeLoop bytes (bytes.length / 4) 0 0
    Except.ok
      { buckets := r.1, count := r.2, bucketPow := TrailingZeros (r.1.length % uintSize),
        FilePath := "", gen := 0 }

/-- The function `ReadFile(path)`: `file` is the content of the file at `path`,
`none` when it cannot be opened or read. The result is `none` on any error. -/
def ReadFile (file : Option (List Nat)) : Option Filter :=
  match file with
  | none => none
  | some bytes =>
    match Decode bytes with
    | Except.error _ => none
    | Except.ok cf => some cf

/-- The function `NewFilter(capacity, path)`; `file` is the content of the file
at `path`, `none` when it cannot be read. -/
def NewFilter (capacity : Nat) (path : String) (file : Option (List Nat)) : Filter :=
  match ReadFile file with
  | some cf => cf
  | none =>
    let capacity := getNextPow2 capacity / bucketSize
    let capacity := if capacity = 0 then 1 else capacity
    { buckets := List.replicate capacity Bucket.empty, count := 0,
      bucketPow := TrailingZeros capacity, FilePath := path, gen := 0 }

/-! ## Sequences of calls -/

/-- A mutating call on a filter, with its key. -/
inductive Op where
  | insert (data : List Nat)
  | insertUnique (data : List Nat)
  | delete (data : List Nat)
  deriving DecidableEq, Repr

/-- One call: the returned boolean and the filter after it. -/
def step (metro : List Nat → Nat) (cf : Filter) : Op → Option (Bool × Filter)
  | Op.insert data => Insert metro cf data
  | Op.insertUnique data => InsertUnique metro cf data
  | Op.delete data => Delete metro cf data

/-- A sequence of calls, whatever each returns; `none` when a call panics. -/
def run (metro : List Nat → Nat) : Filter → List Op → Option Filter
  | cf, [] => some cf
  | cf, op :: ops =>
    match step metro cf op with
    | none => none
    | some r => run metro r.2 ops

/-! ## Invariants of the data model -/

/-- The power-of-two invariant: `len(buckets) == 2^bucketPow`. -/
def PowerOfTwo (cf : Filter) : Prop :=
  cf.buckets.length = 2 ^ cf.bucketPow

/-- The count invariant: `count` is the number of non-zero slots. -/
def CountAccurate (cf : Filter) : Prop :=
  cf.count = nonZeroSlots cf.buckets

/-! ## A concrete hash for evaluating the code

The hash function is external, so the code is evaluated with a stand-in: a
two-byte key `[x, y]` hashes to `x * 2^32 + y`, which gives it the index bits
`x` and the fingerprint `(x + y) % 255 + 1`; the one-byte sequence `[fp]`, which
only `altHash` hashes, gets an even hash for the fingerprint `6` and an odd one
otherwise. -/

/-- A stand-in for `metro.Hash64(data, 1337)`. -/
def sampleHash : List Nat → Nat
  | [b] => if b = 6 then 0 else 1
  | [x, y] => x * 2 ^ 32 + y
  | _ => 0

/-- The one-bucket filter `NewFilter(4, "")` builds, after the keys `[0,0]`,
`[0,1]`, `[0,2]`, `[0,3]` (fingerprints 1, 2, 3, 4) were inserted. -/
def sampleFull : Filter := ⟨[⟨1, 2, 3, 4⟩], 4, 0, "", 0⟩

/-- The filter `sampleFull` after `Insert` of the key `[1,4]` (fingerprint 6):
the first round of kicks is exhausted, `Expand` doubles the table, and the
next kick moves the fingerprint 3 to bucket 1. -/
def sampleExpanded : Filter :=
  ⟨[⟨1, 2, 6, 4⟩, ⟨3, 0, 0, 0⟩], 5, 1, "", 5336034380423031314⟩

/-- The filter `sampleExpanded` after a second `InsertUnique` of the key
`[1,4]`. -/
def sampleTwice : Filter :=
  ⟨[⟨1, 2, 6, 4⟩, ⟨3, 6, 0, 0⟩], 6, 1, "", 5336034380423031314⟩

/-- A run on the fresh filter `NewFilter(4, "")`: four inserts fill the bucket,
the fifth key is inserted twice through `InsertUnique` (the first call expands
the table), then one stored key and one absent key are deleted. -/
def sampleOps : List Op :=
  [Op.insert [0, 0], Op.insert [0, 1], Op.insert [0, 2], Op.insert [0, 3],
    Op.insertUnique [1, 4], Op.insertUnique [1, 4], Op.delete [0, 1], Op.delete [7, 7]]

/-- The filter after the run `sampleOps`. -/
def sampleFinal : Filter :=
  ⟨[⟨1, 0, 6, 4⟩, ⟨3, 6, 0, 0⟩], 5, 1, "", 5336034380423031314⟩

/-- A second stand-in for `metro.Hash64(data, 1337)`: a two-byte key hashes as
under `sampleHash`, and the one-byte sequence `[fp]` hashes to the parity of
`fp`, so that no fingerprint ever leaves the buckets 0 and 1. -/
def parityHash : List Nat → Nat
  | [b] => b % 2
  | [x, y] => x * 2 ^ 32 + y
  | _ => 0

/-- Inserts of the keys `[0,0]` to `[0,7]` (fingerprints 1 to 8). -/
def crowdOps : List Op :=
  [Op.insert [0, 0], Op.insert [0, 1], Op.insert [0, 2], Op.insert [0, 3],
    Op.insert [0, 4], Op.insert [0, 5], Op.insert [0, 6], Op.insert [0, 7]]

/-- The two-bucket filter `NewFilter(8, "")` builds, after the first seven keys
of `crowdOps` were inserted under `parityHash`. -/
def sampleSeven : Filter :=
  ⟨[⟨1, 2, 6, 4⟩, ⟨5, 3, 7, 0⟩], 7, 1, "", 7130919190303094438⟩

/-- The filter `sampleSeven` after the `Insert` of the key `[0,7]`: the
fingerprint 8 takes the place of the fingerprint 1, which moves to bucket 1.
Both buckets are full. -/
def sampleCrowded : Filter :=
  ⟨[⟨8, 2, 6, 4⟩, ⟨5, 3, 7, 1⟩], 8, 1, "", 8921595095711710844⟩

/-- The filter `sampleCrowded` after the failed `Insert` of the key `[0,8]`
(fingerprint 9) under `parityHash`. -/
def sampleOverflowed : Filter :=
  ⟨[⟨6, 4, 8, 2⟩, ⟨9, 3, 5, 1⟩] ++ List.replicate 14 Bucket.empty, 8, 4, "",
    14546404837269747661⟩

/-! ## Specification-level views -/

/-- The layout of a bucket table as bytes: bucket-major, slot-minor. -/
def slotsOf : List Bucket → List Nat
  | [] => []
  | b :: bs => b.s0 :: b.s1 :: b.s2 :: b.s3 :: slotsOf bs

instance (b : Bucket) : Decidable b.Full := by
  unfold Bucket.Full; infer_instance

instance (cf : Filter) : Decidable (PowerOfTwo cf) := by
  unfold PowerOfTwo; infer_instance

instance (cf : Filter) : Decidable (CountAccurate cf) := by
  unfold CountAccurate; infer_instance

/-- The bits of `x` are those of `n` smeared down by at most `m` places. -/
def Smeared (m x n : Nat) : Prop :=
  ∀ i, x.testBit i = true ↔ ∃ d, d ≤ m ∧ n.testBit (i + d) = true

/-- The filter a round of kicks ends with. -/
def KickResult.filter : KickResult → Filter
  | KickResult.done cf => cf
  | KickResult.exhausted cf _ _ => cf

/-- Some slot of the bucket holds `fp`. -/
def Bucket.Has (b : Bucket) (fp : Nat) : Prop :=
  b.s0 = fp ∨ b.s1 = fp ∨ b.s2 = fp ∨ b.s3 = fp

/-- No bucket at an odd index holds `fp`. -/
def OddFree (fp : Nat) (bs : List Bucket) : Prop :=
  ∀ i b, bs[i]? = some b → i % 2 = 1 → ¬ b.Has fp

/-- Every bucket but the first is empty. -/
def RestEmpty (bs : List Bucket) : Prop :=
  ∀ i b, bs[i]? = some b → 1 ≤ i → b = Bucket.empty

/-- Every bucket but the first has a free slot. -/
def RestRoom (bs : List Bucket) : Prop :=
  ∀ i b, bs[i]? = some b → 1 ≤ i → ¬ b.Full

/-- The value of a byte sequence read as a big-endian number. -/
def bigEndian (bs : List Nat) : Nat :=
  bs.foldl (fun acc b => acc * 256 + b) 0

/-- The number `n` is the smallest power of two that is at least `m`. -/
def LeastPowerOfTwoGe (m n : Nat) : Prop :=
  (∃ k, n = 2 ^ k) ∧ m ≤ n ∧ ∀ k, m ≤ 2 ^ k → n ≤ 2 ^ k

/-- The fingerprints a bucket stores: its non-zero slots. -/
def Bucket.stored (b : Bucket) : Multiset Nat :=
  Multiset.filter (fun f => f ≠ 0) (b.s0 ::ₘ b.s1 ::ₘ b.s2 ::ₘ b.s3 ::ₘ 0)

/-- The multiset of the fingerprints stored in a bucket table. -/
def storedFingerprints (bs : List Bucket) : Multiset Nat :=
  (bs.map Bucket.stored).sum

/-- One of the buckets `a` and `b` of the table holds `fp`. -/
def Held (fp a b : Nat) (bs : List Bucket) : Prop :=
  (∃ x, bs[a]? = some x ∧ x.Has fp) ∨ (∃ x, bs[b]? = some x ∧ x.Has fp)

/-! ## Counting the work of an insertion -/

/-- What a call of `Insert` spends: the number of loop iterations (kicks) of
each round of `reinsert`, in order, and the number of calls of `Expand`. -/
structure Effort where
  kicks : List Nat
  expands : Nat
  deriving DecidableEq, Repr

/-- The loop `for k := 0; k < maxCuckooCount; k++` of `reinsert` as in `kicks`,
with `n` iterations left, together with the number of iterations it runs. -/
def kicksCounted (metro : List Nat → Nat) : Nat → Filter → Nat → Nat → Option (KickResult × Nat)
  | 0, cf, fp, i => some (KickResult.exhausted cf fp i, 0)
  | n + 1, cf, fp, i =>
    let r := Intn cf.gen bucketSize
    let j := r.1
    match cf.buckets[i]? with
    | none => none
    | some b =>
      let oldfp := fp
      let fp1 := b.get j
      let cf1 := { cf with gen := r.2, buckets := cf.buckets.set i (b.set j oldfp) }
      match getAltIndex metro fp1 i cf1.bucketPow with
      | none => none
      | some i1 =>
        match insert cf1 fp1 i1 with
        | none => none
        | some (true, cf2) => some (KickResult.done cf2, 1)
        | some (false, cf2) =>
          match kicksCounted metro n cf2 fp1 i1 with
          | none => none
          | some (res, k) => some (res, k + 1)

/-- The label `reinsert:` as in `reinsertRounds`, with `3 - count` rounds left,
together with the kicks of each round it runs and the number of times it calls
`Expand()`. -/
def reinsertRoundsCounted (metro : List Nat → Nat) :
    Nat → Filter → Nat → Nat → Option ((Bool × Filter) × Effort)
  | 0, cf, _, _ => some ((false, cf), ⟨[], 0⟩)
  | r + 1, cf, fp, i =>
    match kicksCounted metro maxCuckooCount cf fp i with
    | none => none
    | some (KickResult.done cf1, k) => some ((true, cf1), ⟨[k], 0⟩)
    | some (KickResult.exhausted cf1 fp1 i1, k) =>
      match reinsertRoundsCounted metro r (Expand cf1) fp1 i1 with
      | none => none
      | some (res, e) => some (res, ⟨k :: e.kicks, e.expands + 1⟩)

/-- The method `Insert(data)` as in `Insert`, together with what the call
spends. -/
def InsertCounted (metro : List Nat → Nat) (cf : Filter) (data : List Nat) :
    Option ((Bool × Filter) × Effort) :=
  match getIndicesAndFingerprint metro data cf.bucketPow with
  | none => none
  | some (i1, i2, fp) =>
    match insert cf fp i1 with
    | none => none
    | some (true, cf1) => some ((true, cf1), ⟨[], 0⟩)
    | some (false, cf1) =>
      match insert cf1 fp i2 with
      | none => none
      | some (true, cf2) => some ((true, cf2), ⟨[], 0⟩)
      | some (false, cf2) =>
        let r := randi cf2 i1 i2
        reinsertRoundsCounted metro 3 r.2 fp r.1

/-! ## Machine-word facts -/

theorem trailingZerosAux_two_pow (k fuel : Nat) (h : k < fuel) :
    trailingZerosAux fuel (2 ^ k) = k := by
  induction k generalizing fuel with
  | zero =>
    cases fuel with
    | zero => omega
    | succ f => simp [trailingZerosAux]
  | succ k ih =>
    cases fuel with
    | zero => omega
    | succ f =>
      have h2 : 2 ^ (k + 1) % 2 = 0 := by rw [pow_succ]; omega
      have h3 : 2 ^ (k + 1) / 2 = 2 ^ k := by rw [pow_succ]; omega
      simp [trailingZerosAux, h2, h3, ih f (by omega)]
      omega

theorem two_pow_lt_uintSize {k : Nat} (h : k < 64) : 2 ^ k < uintSize := by
  unfold uintSize
  exact Nat.pow_lt_pow_right (by norm_num) h

theorem TrailingZeros_two_pow (k : Nat) (h : k < 64) : TrailingZeros (2 ^ k) = k := by
  have hlt := two_pow_lt_uintSize h
  have hpos : 0 < 2 ^ k := Nat.two_pow_pos k
  unfold TrailingZeros
  rw [Nat.mod_eq_of_lt hlt, if_neg (by omega)]
  exact trailingZerosAux_two_pow k 64 h

theorem Expand_capacity (p : Nat) (h : p < 63) :
    (1 <<< ((p + 1) % uintSize)) % uintSize = 2 ^ (p + 1) := by
  have h1 : (p + 1) % uintSize = p + 1 := Nat.mod_eq_of_lt (by unfold uintSize; omega)
  rw [h1, Nat.one_shiftLeft, Nat.mod_eq_of_lt (two_pow_lt_uintSize (by omega))]

theorem getFingerprint_pos (h : Nat) : 0 < getFingerprint h := by
  unfold getFingerprint; omega

theorem getFingerprint_lt (h : Nat) : getFingerprint h < 256 := by
  unfold getFingerprint; omega

theorem masks_zero : masks 0 = some 0 := by decide
theorem masks_one : masks 1 = some 1 := by decide


/-! ## Evaluation of the sample runs -/

set_option maxRecDepth 1000000 in
theorem sample_fill :
    run sampleHash (NewFilter 4 "" none)
        [Op.insert [0, 0], Op.insert [0, 1], Op.insert [0, 2], Op.insert [0, 3]]
      = some sampleFull := by
  decide

set_option maxRecDepth 1000000 in
theorem sample_insert_fifth :
    Insert sampleHash sampleFull [1, 4] = some (true, sampleExpanded) := by
  decide

theorem sample_lookup_before : Lookup sampleHash sampleFull [1, 4] = some false := by
  decide

/-! ## Expand -/

/-- C9: for a filter with `len(buckets) = 2^bucketPow` and `bucketPow < 63`,
`Expand()` doubles the number of buckets, sets `bucketPow` to the old value
plus one, keeps the old buckets at their indices, leaves every bucket at an
index from the old length on all-zero, and does not change `count`. -/
theorem Expand_postcondition (cf : Filter) (hpow : cf.buckets.length = 2 ^ cf.bucketPow)
    (hlt : cf.bucketPow < 63) :
    (Expand cf).buckets.length = 2 * cf.buckets.length
    ∧ (Expand cf).bucketPow = cf.bucketPow + 1
    ∧ (∀ i, i < cf.buckets.length → (Expand cf).buckets[i]? = cf.buckets[i]?)
    ∧ (∀ i, cf.buckets.length ≤ i → i < (Expand cf).buckets.length →
        (Expand cf).buckets[i]? = some Bucket.empty)
    ∧ (Expand cf).count = cf.count := by
  have hcap := Expand_capacity cf.bucketPow hlt
  have hle : cf.buckets.length ≤ 2 ^ (cf.bucketPow + 1) := by rw [hpow, pow_succ]; omega
  have htake : cf.buckets.take (2 ^ (cf.bucketPow + 1)) = cf.buckets := List.take_of_length_le hle
  have hb : (Expand cf).buckets = cf.buckets ++
      List.replicate (2 ^ (cf.bucketPow + 1) - cf.buckets.length) Bucket.empty := by
    simp only [Expand, hcap, htake]
  have hlen : (Expand cf).buckets.length = 2 * cf.buckets.length := by
    rw [hb, List.length_append, List.length_replicate, hpow, pow_succ]; omega
  refine ⟨hlen, ?_, ?_, ?_, rfl⟩
  · simp only [Expand, hcap]
    exact TrailingZeros_two_pow _ (by omega)
  · intro i hi
    rw [hb, List.getElem?_append_left hi]
  · intro i hi hi2
    rw [hlen] at hi2
    rw [hb, List.getElem?_append_right hi]
    rw [List.getElem?_replicate, if_pos]
    rw [hpow, pow_succ] at *
    omega

theorem Expand_postcondition_witness :
    sampleFull.buckets.length = 2 ^ sampleFull.bucketPow ∧ sampleFull.bucketPow < 63
    ∧ (Expand sampleFull).buckets.length = 2 * sampleFull.buckets.length
    ∧ (Expand sampleFull).bucketPow = sampleFull.bucketPow + 1
    ∧ (∀ i, i < sampleFull.buckets.length →
        (Expand sampleFull).buckets[i]? = sampleFull.buckets[i]?)
    ∧ (∀ i, sampleFull.buckets.length ≤ i → i < (Expand sampleFull).buckets.length →
        (Expand sampleFull).buckets[i]? = some Bucket.empty)
    ∧ (Expand sampleFull).count = sampleFull.count :=
  ⟨by decide, by decide, Expand_postcondition sampleFull (by decide) (by decide)⟩

/-- C7 (the code drops the key): under any hash function, a key whose hash has
bit 32 set and whose fingerprint has an even `altHash` entry is inserted into
the fresh one-bucket filter `NewFilter(4, "")` and found by `Lookup`; after
`Expand()` the same `Lookup` returns false: the fingerprint stays in bucket 0
while both candidate indices, now one bit wider, are 1. -/
theorem Expand_drops_key (metro : List Nat → Nat) (data : List Nat)
    (hbit : ((metro data % uintSize) >>> 32) % 2 = 1)
    (halt : altHash metro (getFingerprint (metro data % uintSize)) % 2 = 0) :
    ∃ cf, Insert metro (NewFilter 4 "" none) data = some (true, cf)
      ∧ Lookup metro cf data = some true
      ∧ Lookup metro (Expand cf) data = some false := by
  have hfp := getFingerprint_pos (metro data % uintSize)
  have hnew : NewFilter 4 "" none = ⟨[Bucket.empty], 0, 0, "", 0⟩ := by decide
  refine ⟨⟨[⟨getFingerprint (metro data % uintSize), 0, 0, 0⟩], 1, 0, "", 0⟩, ?_, ?_, ?_⟩
  · simp [hnew, Insert, getIndicesAndFingerprint, getAltIndex, masks_zero, insert,
      Bucket.insert, Bucket.empty, uintSize]
  · simp [Lookup, getIndicesAndFingerprint, getAltIndex, masks_zero,
      Bucket.getFingerprintIndex]
  · have hexp : Expand ⟨[⟨getFingerprint (metro data % uintSize), 0, 0, 0⟩], 1, 0, "", 0⟩
        = ⟨[⟨getFingerprint (metro data % uintSize), 0, 0, 0⟩, Bucket.empty], 1, 1, "", 0⟩ := by
      simp [Expand, uintSize, TrailingZeros, trailingZerosAux]
    rw [hexp]
    simp [Lookup, getIndicesAndFingerprint, getAltIndex, masks_one, Nat.and_one_is_mod,
      hbit, halt, Bucket.getFingerprintIndex, Bucket.empty]
    omega

theorem Expand_drops_key_witness :
    ((sampleHash [1, 4] % uintSize) >>> 32) % 2 = 1
    ∧ altHash sampleHash (getFingerprint (sampleHash [1, 4] % uintSize)) % 2 = 0
    ∧ ∃ cf, Insert sampleHash (NewFilter 4 "" none) [1, 4] = some (true, cf)
      ∧ Lookup sampleHash cf [1, 4] = some true
      ∧ Lookup sampleHash (Expand cf) [1, 4] = some false :=
  ⟨by decide, by decide, Expand_drops_key sampleHash [1, 4] (by decide) (by decide)⟩

/-! ## Encode and Decode -/

theorem slotsOf_length (bs : List Bucket) : (slotsOf bs).length = bs.length * 4 := by
  induction bs with
  | nil => rfl
  | cons b bs ih => simp [slotsOf, ih]; omega

theorem encodeLoop_layout (bs : List Bucket) (i : Nat) (pre : List Nat)
    (hpre : pre.length = i * bucketSize) :
    encodeLoop bs i (pre ++ List.replicate (bs.length * bucketSize) 0) = pre ++ slotsOf bs := by
  induction bs generalizing i pre with
  | nil => simp [encodeLoop, slotsOf]
  | cons b bs ih =>
    have hrep : List.replicate ((b :: bs).length * bucketSize) 0
        = 0 :: 0 :: 0 :: 0 :: List.replicate (bs.length * bucketSize) 0 := by
      simp [bucketSize, Nat.add_mul, List.replicate_succ]
    have hstep : encodeBucket (pre ++ 0 :: 0 :: 0 :: 0 :: List.replicate (bs.length * bucketSize) 0) i b
        = (pre ++ [b.s0, b.s1, b.s2, b.s3]) ++ List.replicate (bs.length * bucketSize) 0 := by
      unfold encodeBucket
      rw [← hpre]
      simp
    rw [hrep, encodeLoop, hstep, ih (i + 1) (pre ++ [b.s0, b.s1, b.s2, b.s3])]
    · simp [slotsOf]
    · simp [hpre, bucketSize]; omega

theorem Encode_eq_slotsOf (cf : Filter) : Encode cf = slotsOf cf.buckets := by
  have h := encodeLoop_layout cf.buckets 0 [] (by simp)
  simpa [Encode] using h

theorem decodeSlots_bucket (pre rest : List Nat) (b : Bucket) (i c : Nat)
    (hpre : pre.length = i * bucketSize) (hc : c < uintSize) :
    decodeSlot (pre ++ b.s0 :: b.s1 :: b.s2 :: b.s3 :: rest) i 3
      (decodeSlot (pre ++ b.s0 :: b.s1 :: b.s2 :: b.s3 :: rest) i 2
        (decodeSlot (pre ++ b.s0 :: b.s1 :: b.s2 :: b.s3 :: rest) i 1
          (decodeSlot (pre ++ b.s0 :: b.s1 :: b.s2 :: b.s3 :: rest) i 0 (Bucket.empty, c))))
      = (b, (c + b.nonZero) % uintSize) := by
  obtain ⟨s0, s1, s2, s3⟩ := b
  have g : ∀ j, (pre ++ s0 :: s1 :: s2 :: s3 :: rest).getD (i * bucketSize + j) 0
      = (s0 :: s1 :: s2 :: s3 :: rest).getD j 0 := by
    intro j
    rw [← hpre, List.getD_eq_getElem?_getD, List.getD_eq_getElem?_getD,
      List.getElem?_append_right (by omega)]
    simp
  simp only [decodeSlot, g, Bucket.nonZero, Bucket.empty, Bucket.set]
  simp only [List.getD_cons_zero, List.getD_cons_succ]
  unfold uintSize at *
  by_cases h0 : s0 = 0 <;> by_cases h1 : s1 = 0 <;> by_cases h2 : s2 = 0 <;>
    by_cases h3 : s3 = 0 <;> (simp [h0, h1, h2, h3]; try omega)

theorem decodeLoop_slotsOf (bs : List Bucket) (pre : List Nat) (i c : Nat)
    (hpre : pre.length = i * bucketSize) (hc : c < uintSize) :
    decodeLoop (pre ++ slotsOf bs) bs.length i c = (bs, (c + nonZeroSlots bs) % uintSize) := by
  induction bs generalizing pre i c with
  | nil => simp [decodeLoop, nonZeroSlots, Nat.mod_eq_of_lt hc]
  | cons b bs ih =>
    have hb := decodeSlots_bucket pre (slotsOf bs) b i c hpre hc
    have hpre2 : (pre ++ [b.s0, b.s1, b.s2, b.s3]).length = (i + 1) * bucketSize := by
      simp [hpre, bucketSize]; omega
    have hc2 : (c + b.nonZero) % uintSize < uintSize := Nat.mod_lt _ (by unfold uintSize; norm_num)
    have ih2 := ih (pre ++ [b.s0, b.s1, b.s2, b.s3]) (i + 1) _ hpre2 hc2
    simp only [List.append_assoc, List.cons_append, List.nil_append] at ih2
    simp only [slotsOf, List.length_cons, decodeLoop, hb, ih2]
    simp [nonZeroSlots, Nat.add_assoc]

theorem exists_slotsOf (n : Nat) (bytes : List Nat) (h : bytes.length = 4 * n) :
    ∃ bs : List Bucket, bs.length = n ∧ slotsOf bs = bytes := by
  induction n generalizing bytes with
  | zero =>
    refine ⟨[], rfl, ?_⟩
    have : bytes = [] := List.length_eq_zero.mp (by omega)
    simp [slotsOf, this]
  | succ n ih =>
    match bytes, h with
    | a :: b :: c :: d :: rest, h =>
      obtain ⟨bs, hlen, hbs⟩ := ih rest (by simp at h; omega)
      exact ⟨⟨a, b, c, d⟩ :: bs, by simp [hlen], by simp [slotsOf, hbs]⟩
    | [], h => simp at h
    | [_], h => simp at h; omega
    | [_, _], h => simp at h; omega
    | [_, _, _], h => simp at h; omega

theorem nonZeroSlots_eq_countP (bs : List Bucket) :
    nonZeroSlots bs = (slotsOf bs).countP (fun x => x != 0) := by
  induction bs with
  | nil => rfl
  | cons b bs ih =>
    have hc : nonZeroSlots (b :: bs) = b.nonZero + nonZeroSlots bs := by
      simp [nonZeroSlots]
    rw [hc, ih]
    simp only [slotsOf, List.countP_cons, Bucket.nonZero]
    by_cases h0 : b.s0 = 0 <;> by_cases h1 : b.s1 = 0 <;> by_cases h2 : b.s2 = 0 <;>
      by_cases h3 : b.s3 = 0 <;> simp [h0, h1, h2, h3] <;> omega

theorem slotsOf_getElem? (bs : List Bucket) (i j : Nat) (b : Bucket) (hj : j < 4)
    (hb : bs[i]? = some b) : (slotsOf bs)[4 * i + j]? = some (b.get j) := by
  induction bs generalizing i with
  | nil => simp at hb
  | cons x xs ih =>
    cases i with
    | zero =>
      simp at hb
      subst hb
      interval_cases j <;> simp [slotsOf, Bucket.get]
    | succ i =>
      simp at hb
      have e : 4 * (i + 1) + j = (4 * i + j) + 1 + 1 + 1 + 1 := by omega
      rw [e]
      simp only [slotsOf, List.getElem?_cons_succ]
      exact ih i hb

theorem nonZero_le (b : Bucket) : b.nonZero ≤ 4 := by
  unfold Bucket.nonZero
  split_ifs <;> omega

theorem nonZeroSlots_le (bs : List Bucket) : nonZeroSlots bs ≤ 4 * bs.length := by
  induction bs with
  | nil => simp [nonZeroSlots]
  | cons b bs ih =>
    have hc : nonZeroSlots (b :: bs) = b.nonZero + nonZeroSlots bs := by
      simp [nonZeroSlots]
    have := nonZero_le b
    simp only [hc, List.length_cons]
    omega


theorem Decode_slotsOf (bs : List Bucket) (hnz : nonZeroSlots bs < uintSize) :
    Decode (slotsOf bs) = Except.ok
      { buckets := bs, count := nonZeroSlots bs,
        bucketPow := TrailingZeros (bs.length % uintSize), FilePath := "", gen := 0 } := by
  have hlen := slotsOf_length bs
  have hloop := decodeLoop_slotsOf bs [] 0 0 (by simp) (by unfold uintSize; norm_num)
  simp only [List.nil_append, Nat.zero_add, Nat.mod_eq_of_lt hnz] at hloop
  have hdiv : (slotsOf bs).length / 4 = bs.length := by omega
  have hmod : (slotsOf bs).length % bucketSize = 0 := by unfold bucketSize; omega
  simp [Decode, hmod, hdiv, hloop]

/-- C5: `Decode` returns an error exactly when the length of the buffer is not
a multiple of 4; a buffer whose length is a multiple of 4 decodes to a filter
with `len/4` buckets, slot `j` of bucket `i` being byte `4*i + j`, and with
`count` the number of non-zero bytes. The length of a Go slice is an `int`,
hence below `2^63`. -/
theorem Decode_contract (bytes : List Nat) (hlen : bytes.length < 2 ^ 63) :
    ((∃ e, Decode bytes = Except.error e) ↔ bytes.length % 4 ≠ 0)
    ∧ (bytes.length % 4 = 0 →
        ∃ cf, Decode bytes = Except.ok cf
          ∧ cf.buckets.length = bytes.length / 4
          ∧ (∀ i j b, j < 4 → cf.buckets[i]? = some b → bytes[4 * i + j]? = some (b.get j))
          ∧ cf.count = bytes.countP (fun x => x != 0)) := by
  constructor
  · constructor
    · rintro ⟨e, he⟩ hmod
      simp [Decode, bucketSize, hmod] at he
    · intro hmod
      exact ⟨FormatError.notMultiple bucketSize bytes.length, by simp [Decode, bucketSize, hmod]⟩
  · intro hmod
    obtain ⟨bs, hbs, hbytes⟩ := exists_slotsOf (bytes.length / 4) bytes (by omega)
    have hnz : nonZeroSlots bs < uintSize := by
      have := nonZeroSlots_le bs
      unfold uintSize
      omega
    subst hbytes
    refine ⟨_, Decode_slotsOf bs hnz, ?_, ?_, ?_⟩
    · exact hbs
    · intro i j b hj hb
      exact slotsOf_getElem? bs i j b hj hb
    · exact nonZeroSlots_eq_countP bs

theorem Decode_contract_witness :
    [1, 0, 3, 4, 0, 0, 7, 0].length < 2 ^ 63
    ∧ ((∃ e, Decode [1, 0, 3, 4, 0, 0, 7, 0] = Except.error e)
        ↔ [1, 0, 3, 4, 0, 0, 7, 0].length % 4 ≠ 0)
    ∧ ([1, 0, 3, 4, 0, 0, 7, 0].length % 4 = 0 →
        ∃ cf, Decode [1, 0, 3, 4, 0, 0, 7, 0] = Except.ok cf
          ∧ cf.buckets.length = [1, 0, 3, 4, 0, 0, 7, 0].length / 4
          ∧ (∀ i j b, j < 4 → cf.buckets[i]? = some b →
              [1, 0, 3, 4, 0, 0, 7, 0][4 * i + j]? = some (b.get j))
          ∧ cf.count = [1, 0, 3, 4, 0, 0, 7, 0].countP (fun x => x != 0)) :=
  ⟨by decide, Decode_contract [1, 0, 3, 4, 0, 0, 7, 0] (by decide)⟩

/-- C4: for a filter with `len(buckets) = 2^bucketPow` and `count` the number of
non-zero slots, `Decode(Encode(f))` succeeds and returns the same bucket table,
the same `count` and the same `bucketPow`. The fields are in the range of their
Go types: the length of a slice is an `int`, `count` is a `uint`. -/
theorem Decode_Encode_roundtrip (cf : Filter) (hpow : PowerOfTwo cf) (hcount : CountAccurate cf)
    (hlen : cf.buckets.length < 2 ^ 63) (hcnt : cf.count < uintSize) :
    ∃ cf2, Decode (Encode cf) = Except.ok cf2
      ∧ cf2.buckets = cf.buckets ∧ cf2.count = cf.count ∧ cf2.bucketPow = cf.bucketPow := by
  unfold PowerOfTwo at hpow
  unfold CountAccurate at hcount
  have hp : cf.bucketPow < 64 := by
    by_contra hge
    have : 2 ^ 64 ≤ 2 ^ cf.bucketPow := Nat.pow_le_pow_right (by norm_num) (by omega)
    omega
  have hmod : cf.buckets.length % uintSize = 2 ^ cf.bucketPow := by
    rw [Nat.mod_eq_of_lt (by unfold uintSize; omega), hpow]
  have hnz : nonZeroSlots cf.buckets < uintSize := hcount ▸ hcnt
  refine ⟨Filter.mk cf.buckets (nonZeroSlots cf.buckets)
      (TrailingZeros (cf.buckets.length % uintSize)) "" 0,
    by rw [Encode_eq_slotsOf]; exact Decode_slotsOf cf.buckets hnz, rfl,
    hcount.symm, ?_⟩
  show TrailingZeros (cf.buckets.length % uintSize) = cf.bucketPow
  rw [hmod]
  exact TrailingZeros_two_pow _ hp

theorem Decode_Encode_roundtrip_witness :
    PowerOfTwo sampleExpanded ∧ CountAccurate sampleExpanded
    ∧ sampleExpanded.buckets.length < 2 ^ 63 ∧ sampleExpanded.count < uintSize
    ∧ ∃ cf2, Decode (Encode sampleExpanded) = Except.ok cf2
      ∧ cf2.buckets = sampleExpanded.buckets ∧ cf2.count = sampleExpanded.count
      ∧ cf2.bucketPow = sampleExpanded.bucketPow :=
  ⟨by decide, by decide, by decide, by decide,
    Decode_Encode_roundtrip sampleExpanded (by decide) (by decide) (by decide) (by decide)⟩

/-! ## The empty table -/

/-- C8 (the code panics): `Decode` accepts the empty buffer and returns a filter
with no bucket and `bucketPow = 64`; `NewFilter` returns that filter when the
file at the path is empty. On it `Lookup`, `Insert` and `Delete` index out of
range for every key, under any hash function. -/
theorem Decode_empty_then_index_out_of_range (metro : List Nat → Nat) (data : List Nat)
    (capacity : Nat) (path : String) :
    Decode [] = Except.ok ⟨[], 0, 64, "", 0⟩
    ∧ NewFilter capacity path (some []) = ⟨[], 0, 64, "", 0⟩
    ∧ Lookup metro ⟨[], 0, 64, "", 0⟩ data = none
    ∧ Insert metro ⟨[], 0, 64, "", 0⟩ data = none
    ∧ Delete metro ⟨[], 0, 64, "", 0⟩ data = none := by
  refine ⟨rfl, rfl, ?_, ?_, ?_⟩
  · simp [Lookup, getIndicesAndFingerprint, masks, getAltIndex]
  · simp [Insert, insert, getIndicesAndFingerprint, masks, getAltIndex]
  · simp [Delete, delete, getIndicesAndFingerprint, masks, getAltIndex]

/-! ## getNextPow2 and the fresh filter -/

theorem Smeared_zero (n : Nat) : Smeared 0 n n := by
  intro i
  constructor
  · intro h; exact ⟨0, le_refl 0, by simpa using h⟩
  · rintro ⟨d, hd, h⟩
    have : d = 0 := by omega
    subst this
    simpa using h

theorem Smeared_step {m x n : Nat} (k : Nat) (hk : k ≤ m + 1) (h : Smeared m x n) :
    Smeared (m + k) (x ||| (x >>> k)) n := by
  intro i
  rw [Nat.testBit_or, Nat.testBit_shiftRight, Bool.or_eq_true, h i, h (k + i)]
  constructor
  · rintro (⟨d, hd, hb⟩ | ⟨d, hd, hb⟩)
    · exact ⟨d, by omega, hb⟩
    · exact ⟨k + d, by omega, by rw [← hb]; congr 1; omega⟩
  · rintro ⟨d, hd, hb⟩
    by_cases hdm : d ≤ m
    · exact Or.inl ⟨d, hdm, hb⟩
    · exact Or.inr ⟨d - k, by omega, by rw [← hb]; congr 1; omega⟩

theorem Smeared_full {x n : Nat} (hn : n < 2 ^ 64) (h : Smeared 63 x n) :
    x = 2 ^ Nat.size n - 1 := by
  apply Nat.eq_of_testBit_eq
  intro i
  rw [Nat.testBit_two_pow_sub_one]
  have hsz : Nat.size n ≤ 64 := Nat.size_le.mpr hn
  by_cases hi : i < Nat.size n
  · rw [decide_eq_true hi]
    rw [h i]
    have hge : 2 ^ (Nat.size n - 1) ≤ n := Nat.lt_size.mp (by omega)
    obtain ⟨j, hj, hbit⟩ := Nat.ge_two_pow_implies_high_bit_true hge
    have hjlt : j < Nat.size n := by
      have h1 := Nat.testBit_implies_ge hbit
      exact Nat.lt_size.mpr h1
    exact ⟨j - i, by omega, by rw [← hbit]; congr 1; omega⟩
  · rw [decide_eq_false hi]
    rw [Bool.eq_false_iff]
    intro hx
    obtain ⟨d, _, hb⟩ := (h i).mp hx
    have h1 := Nat.testBit_implies_ge hb
    have : i + d < Nat.size n := Nat.lt_size.mpr h1
    omega

theorem getNextPow2_eq (n : Nat) :
    getNextPow2 n
      = 2 ^ Nat.size ((n % uintSize + (uintSize - 1)) % uintSize) % uintSize := by
  have hlt : (n % uintSize + (uintSize - 1)) % uintSize < 2 ^ 64 :=
    Nat.mod_lt _ (by unfold uintSize; norm_num)
  have h0 := Smeared_zero ((n % uintSize + (uintSize - 1)) % uintSize)
  have h1 := Smeared_step 1 (by omega) h0
  have h2 := Smeared_step 2 (by omega) h1
  have h3 := Smeared_step 4 (by omega) h2
  have h4 := Smeared_step 8 (by omega) h3
  have h5 := Smeared_step 16 (by omega) h4
  have h6 := Smeared_step 32 (by omega) h5
  have hfull := Smeared_full hlt h6
  have hpos : 0 < 2 ^ Nat.size ((n % uintSize + (uintSize - 1)) % uintSize) :=
    Nat.two_pow_pos _
  unfold getNextPow2
  simp only []
  rw [hfull, Nat.sub_add_cancel hpos]

theorem NewFilter_capacity (n : Nat) :
    ∃ t, t ≤ 61 ∧
      (if getNextPow2 n / bucketSize = 0 then 1 else getNextPow2 n / bucketSize) = 2 ^ t := by
  rw [getNextPow2_eq]
  generalize hs : Nat.size ((n % uintSize + (uintSize - 1)) % uintSize) = s
  have hlt : (n % uintSize + (uintSize - 1)) % uintSize < 2 ^ 64 :=
    Nat.mod_lt _ (by unfold uintSize; norm_num)
  have hsz : s ≤ 64 := hs ▸ Nat.size_le.mpr hlt
  unfold bucketSize
  by_cases h64 : s = 64
  · subst h64
    exact ⟨0, by omega, by simp [uintSize]⟩
  · have hmod : 2 ^ s % uintSize = 2 ^ s :=
      Nat.mod_eq_of_lt (two_pow_lt_uintSize (by omega))
    rw [hmod]
    by_cases h2 : s < 2
    · refine ⟨0, by omega, ?_⟩
      have : 2 ^ s / 4 = 0 := by
        interval_cases s <;> simp
      simp [this]
    · have hdiv : 2 ^ s / 4 = 2 ^ (s - 2) := by
        have e : 2 ^ s = 2 ^ (s - 2) * 4 := by
          rw [show (4 : Nat) = 2 ^ 2 from rfl, ← pow_add]
          congr 1; omega
        rw [e]; simp
      have hpos : 0 < 2 ^ (s - 2) := Nat.two_pow_pos _
      refine ⟨s - 2, by omega, ?_⟩
      rw [hdiv, if_neg (by omega)]

theorem NewFilter_fresh (capacity : Nat) (path : String) (file : Option (List Nat))
    (hfile : ReadFile file = none) :
    ∃ t, t ≤ 61 ∧ NewFilter capacity path file
      = ⟨List.replicate (2 ^ t) Bucket.empty, 0, t, path, 0⟩ := by
  obtain ⟨t, ht, hcap⟩ := NewFilter_capacity capacity
  refine ⟨t, ht, ?_⟩
  unfold NewFilter
  simp only [hfile, hcap]
  rw [TrailingZeros_two_pow t (by omega)]

theorem NewFilter_PowerOfTwo (capacity : Nat) (path : String) (file : Option (List Nat))
    (hfile : ReadFile file = none) : PowerOfTwo (NewFilter capacity path file) := by
  obtain ⟨t, _, h⟩ := NewFilter_fresh capacity path file hfile
  rw [h]
  simp [PowerOfTwo]

/-! ## Buckets and slot counts -/

theorem Bucket.insert_eq_none_iff (b : Bucket) (fp : Nat) : b.insert fp = none ↔ b.Full := by
  unfold Bucket.insert Bucket.Full
  split_ifs <;> simp_all

theorem Bucket.nonZero_insert {b b1 : Bucket} {fp : Nat} (h : b.insert fp = some b1)
    (hfp : fp ≠ 0) : b1.nonZero = b.nonZero + 1 := by
  unfold Bucket.insert at h
  unfold Bucket.nonZero
  split_ifs at h <;> (simp only [Option.some.injEq] at h; subst h; simp_all) <;> omega

theorem Bucket.nonZero_delete {b b1 : Bucket} {fp : Nat} (h : b.delete fp = some b1)
    (hfp : fp ≠ 0) : b1.nonZero + 1 = b.nonZero := by
  unfold Bucket.delete at h
  unfold Bucket.nonZero
  split_ifs at h <;> (simp only [Option.some.injEq] at h; subst h; simp_all) <;> omega

theorem Bucket.full_set {b : Bucket} (hb : b.Full) (j : Nat) {fp : Nat} (hfp : fp ≠ 0) :
    (b.set j fp).Full ∧ (b.set j fp).nonZero = b.nonZero ∧ b.get j ≠ 0 := by
  obtain ⟨h0, h1, h2, h3⟩ := hb
  unfold Bucket.set Bucket.get Bucket.Full Bucket.nonZero
  split <;> simp_all

theorem nonZeroSlots_cons (b : Bucket) (bs : List Bucket) :
    nonZeroSlots (b :: bs) = b.nonZero + nonZeroSlots bs := by
  simp [nonZeroSlots]

theorem nonZeroSlots_append (xs ys : List Bucket) :
    nonZeroSlots (xs ++ ys) = nonZeroSlots xs + nonZeroSlots ys := by
  simp [nonZeroSlots]

theorem nonZeroSlots_replicate_empty (n : Nat) :
    nonZeroSlots (List.replicate n Bucket.empty) = 0 := by
  induction n with
  | zero => rfl
  | succ n ih => rw [List.replicate_succ, nonZeroSlots_cons, ih]; rfl

theorem nonZeroSlots_set (bs : List Bucket) (i : Nat) (b b1 : Bucket) (h : bs[i]? = some b) :
    nonZeroSlots (bs.set i b1) + b.nonZero = nonZeroSlots bs + b1.nonZero := by
  induction bs generalizing i with
  | nil => simp at h
  | cons x xs ih =>
    cases i with
    | zero =>
      simp at h
      subst h
      simp only [List.set_cons_zero, nonZeroSlots_cons]
      omega
    | succ i =>
      simp at h
      have := ih i h
      simp only [List.set_cons_succ, nonZeroSlots_cons]
      omega

/-! ## The filter-level insert and delete -/

theorem insert_total (cf : Filter) (fp i : Nat) (hi : i < cf.buckets.length) :
    ∃ r, insert cf fp i = some r := by
  unfold insert
  rw [List.getElem?_eq_getElem hi]
  dsimp only
  cases cf.buckets[i].insert fp <;> simp

theorem insert_spec {cf cf1 : Filter} {fp i : Nat} {ok : Bool}
    (h : insert cf fp i = some (ok, cf1)) :
    cf1.buckets.length = cf.buckets.length ∧ cf1.bucketPow = cf.bucketPow
    ∧ cf1.gen = cf.gen ∧ cf1.FilePath = cf.FilePath
    ∧ (ok = false → cf1 = cf ∧ ∃ b, cf.buckets[i]? = some b ∧ b.Full)
    ∧ (ok = true → fp ≠ 0 →
        nonZeroSlots cf1.buckets = nonZeroSlots cf.buckets + 1
        ∧ cf1.count = (cf.count + 1) % uintSize) := by
  unfold insert at h
  cases hb : cf.buckets[i]? with
  | none => simp [hb] at h
  | some b =>
    cases hins : b.insert fp with
    | none =>
      simp [hb, hins] at h
      obtain ⟨rfl, rfl⟩ := h
      refine ⟨rfl, rfl, rfl, rfl, ?_, by simp⟩
      intro _
      exact ⟨rfl, b, rfl, (Bucket.insert_eq_none_iff b fp).mp hins⟩
    | some b1 =>
      simp [hb, hins] at h
      obtain ⟨rfl, rfl⟩ := h
      refine ⟨by simp, rfl, rfl, rfl, by simp, ?_⟩
      intro _ hfp
      have h1 := nonZeroSlots_set cf.buckets i b b1 hb
      have h2 := Bucket.nonZero_insert hins hfp
      exact ⟨by simp only; omega, rfl⟩

theorem delete_total (cf : Filter) (fp i : Nat) (hi : i < cf.buckets.length) :
    ∃ r, delete cf fp i = some r := by
  unfold delete
  rw [List.getElem?_eq_getElem hi]
  dsimp only
  cases cf.buckets[i].delete fp <;> simp

theorem delete_spec {cf cf1 : Filter} {fp i : Nat} {ok : Bool}
    (h : delete cf fp i = some (ok, cf1)) :
    cf1.buckets.length = cf.buckets.length ∧ cf1.bucketPow = cf.bucketPow
    ∧ (ok = false → cf1 = cf)
    ∧ (ok = true → fp ≠ 0 →
        nonZeroSlots cf1.buckets + 1 = nonZeroSlots cf.buckets
        ∧ cf1.count = (cf.count + (uintSize - 1)) % uintSize) := by
  unfold delete at h
  cases hb : cf.buckets[i]? with
  | none => simp [hb] at h
  | some b =>
    cases hdel : b.delete fp with
    | none =>
      simp [hb, hdel] at h
      obtain ⟨rfl, rfl⟩ := h
      exact ⟨rfl, rfl, fun _ => rfl, by simp⟩
    | some b1 =>
      simp [hb, hdel] at h
      obtain ⟨rfl, rfl⟩ := h
      refine ⟨by simp, rfl, by simp, ?_⟩
      intro _ hfp
      have h1 := nonZeroSlots_set cf.buckets i b b1 hb
      have h2 := Bucket.nonZero_delete hdel hfp
      exact ⟨by simp only; omega, rfl⟩

/-! ## Indices -/

theorem masks_eq {p : Nat} (hp : p ≤ 64) : masks p = some (2 ^ p - 1) := by
  have h1 : masks p = some (((1 <<< p) % uintSize + (uintSize - 1)) % uintSize) := by
    unfold masks
    exact if_pos hp
  have hval : (2 ^ p % uintSize + (uintSize - 1)) % uintSize = 2 ^ p - 1 := by
    by_cases h64 : p = 64
    · subst h64; norm_num [uintSize]
    · have hlt := two_pow_lt_uintSize (show p < 64 by omega)
      have hpos : 0 < 2 ^ p := Nat.two_pow_pos p
      rw [Nat.mod_eq_of_lt hlt]
      have e : 2 ^ p + (uintSize - 1) = (2 ^ p - 1) + uintSize := by
        unfold uintSize at *; omega
      rw [e, Nat.add_mod_right, Nat.mod_eq_of_lt (by omega)]
  rw [h1, Nat.one_shiftLeft, hval]

theorem masks_some {p m : Nat} (h : masks p = some m) : p ≤ 64 := by
  unfold masks at h
  by_contra hp
  rw [if_neg hp] at h
  exact Option.noConfusion h

theorem getAltIndex_eq (metro : List Nat → Nat) (fp i : Nat) {p : Nat} (hp : p ≤ 64) :
    getAltIndex metro fp i p = some ((i % 2 ^ p) ^^^ (altHash metro fp % 2 ^ p)) := by
  unfold getAltIndex
  rw [masks_eq hp]
  simp only [Nat.and_pow_two_sub_one_eq_mod]

theorem getAltIndex_lt {metro : List Nat → Nat} {fp i p j : Nat}
    (h : getAltIndex metro fp i p = some j) : j < 2 ^ p := by
  have hp : p ≤ 64 := by
    unfold getAltIndex at h
    cases hm : masks p with
    | none => simp [hm] at h
    | some m => exact masks_some hm
  rw [getAltIndex_eq metro fp i hp] at h
  simp only [Option.some.injEq] at h
  subst h
  exact Nat.xor_lt_two_pow (Nat.mod_lt _ (Nat.two_pow_pos p)) (Nat.mod_lt _ (Nat.two_pow_pos p))

theorem getIndicesAndFingerprint_eq (metro : List Nat → Nat) (data : List Nat) {p : Nat}
    (hp : p ≤ 64) :
    getIndicesAndFingerprint metro data p
      = some (((metro data % uintSize) >>> 32) % 2 ^ p,
          ((((metro data % uintSize) >>> 32) % 2 ^ p) % 2 ^ p)
            ^^^ (altHash metro (getFingerprint (metro data % uintSize)) % 2 ^ p),
          getFingerprint (metro data % uintSize)) := by
  unfold getIndicesAndFingerprint
  simp only [masks_eq hp, getAltIndex_eq metro _ _ hp, Nat.and_pow_two_sub_one_eq_mod]

theorem getIndicesAndFingerprint_spec {metro : List Nat → Nat} {data : List Nat}
    {p i1 i2 fp : Nat} (h : getIndicesAndFingerprint metro data p = some (i1, i2, fp)) :
    p ≤ 64 ∧ i1 < 2 ^ p ∧ i2 < 2 ^ p ∧ fp ≠ 0
    ∧ fp = getFingerprint (metro data % uintSize)
    ∧ getAltIndex metro fp i1 p = some i2 := by
  have hp : p ≤ 64 := by
    unfold getIndicesAndFingerprint at h
    cases hm : masks p with
    | none => simp [hm] at h
    | some m => exact masks_some hm
  have h2 := getIndicesAndFingerprint_eq metro data hp
  rw [h2] at h
  simp only [Option.some.injEq, Prod.mk.injEq] at h
  obtain ⟨h1, h2, h3⟩ := h
  have hfp := getFingerprint_pos (metro data % uintSize)
  subst h1 h3
  refine ⟨hp, Nat.mod_lt _ (Nat.two_pow_pos p), ?_, by omega, rfl, ?_⟩
  · subst h2
    exact Nat.xor_lt_two_pow (Nat.mod_lt _ (Nat.two_pow_pos p)) (Nat.mod_lt _ (Nat.two_pow_pos p))
  · rw [getAltIndex_eq metro _ _ hp, h2]

/-! ## A round of kicks -/

theorem kicks_shape (metro : List Nat → Nat) (n : Nat) (cf : Filter) (fp i : Nat)
    (r : KickResult) (h : kicks metro n cf fp i = some r) :
    r.filter.buckets.length = cf.buckets.length ∧ r.filter.bucketPow = cf.bucketPow := by
  induction n generalizing cf fp i with
  | zero =>
    simp only [kicks, Option.some.injEq] at h
    subst h
    exact ⟨rfl, rfl⟩
  | succ n ih =>
    rw [kicks] at h
    split at h
    · exact Option.noConfusion h
    · dsimp only at h
      split at h
      · exact Option.noConfusion h
      · split at h
        · exact Option.noConfusion h
        · rename_i hins
          have hs := insert_spec hins
          simp only [Option.some.injEq] at h
          subst h
          exact ⟨by simpa [KickResult.filter] using hs.1,
            by simpa [KickResult.filter] using hs.2.1⟩
        · rename_i hins
          have hs := insert_spec hins
          have := ih _ _ _ h
          exact ⟨by rw [this.1, hs.1]; simp, by rw [this.2, hs.2.1]⟩

theorem kicks_total (metro : List Nat → Nat) (n : Nat) (cf : Filter) (fp i : Nat)
    (hpow : PowerOfTwo cf) (hp : cf.bucketPow ≤ 64) (hi : i < cf.buckets.length) :
    ∃ r, kicks metro n cf fp i = some r
      ∧ ∀ cf1 fp1 i1, r = KickResult.exhausted cf1 fp1 i1 → i1 < cf.buckets.length := by
  induction n generalizing cf fp i with
  | zero =>
    refine ⟨KickResult.exhausted cf fp i, rfl, ?_⟩
    intro cf1 fp1 i1 h
    cases h
    exact hi
  | succ n ih =>
    rw [kicks]
    have hb : cf.buckets[i]? = some cf.buckets[i] := List.getElem?_eq_getElem hi
    simp only [hb]
    have ha := getAltIndex_eq metro (cf.buckets[i].get (Intn cf.gen bucketSize).1) i hp
    have hlt := getAltIndex_lt ha
    simp only [ha]
    unfold PowerOfTwo at hpow
    generalize hj : (i % 2 ^ cf.bucketPow) ^^^
      (altHash metro (cf.buckets[i].get (Intn cf.gen bucketSize).1) % 2 ^ cf.bucketPow) = i2
      at hlt ⊢
    generalize hcf1 : ({ cf with gen := (Intn cf.gen bucketSize).2, buckets := cf.buckets.set i (cf.buckets[i].set (Intn cf.gen bucketSize).1 fp) } : Filter) = cfa
    have hlen1 : cfa.buckets.length = cf.buckets.length := by rw [← hcf1]; simp
    have hpow1 : cfa.bucketPow = cf.bucketPow := by rw [← hcf1]
    obtain ⟨res, hins⟩ := insert_total cfa (cf.buckets[i].get (Intn cf.gen bucketSize).1) i2
      (by omega)
    obtain ⟨ok, cf2⟩ := res
    have hs := insert_spec hins
    simp only [hins]
    cases ok with
    | true => exact ⟨_, rfl, by intro _ _ _ h; cases h⟩
    | false =>
      have hlen2 : cf2.buckets.length = cf.buckets.length := by rw [hs.1, hlen1]
      have hpow2 : PowerOfTwo cf2 := by
        unfold PowerOfTwo; rw [hlen2, hs.2.1, hpow1]; exact hpow
      obtain ⟨r, hr, hex⟩ := ih cf2 (cf.buckets[i].get (Intn cf.gen bucketSize).1) i2
        hpow2 (by rw [hs.2.1, hpow1]; exact hp) (by omega)
      exact ⟨r, hr, fun cf1 fp1 i1 h => hlen2 ▸ hex cf1 fp1 i1 h⟩

theorem kicks_count (metro : List Nat → Nat) (n : Nat) (cf : Filter) (fp i : Nat)
    (r : KickResult) (h : kicks metro n cf fp i = some r)
    (hcount : CountAccurate cf) (hroom : nonZeroSlots cf.buckets + 1 < uintSize)
    (hfp : fp ≠ 0) (hfull : ∃ b, cf.buckets[i]? = some b ∧ b.Full) :
    match r with
    | KickResult.done cf1 =>
      CountAccurate cf1 ∧ nonZeroSlots cf1.buckets = nonZeroSlots cf.buckets + 1
    | KickResult.exhausted cf1 fp1 i1 =>
      CountAccurate cf1 ∧ nonZeroSlots cf1.buckets = nonZeroSlots cf.buckets
        ∧ fp1 ≠ 0 ∧ ∃ b, cf1.buckets[i1]? = some b ∧ b.Full := by
  induction n generalizing cf fp i with
  | zero =>
    simp only [kicks, Option.some.injEq] at h
    subst h
    exact ⟨hcount, rfl, hfp, hfull⟩
  | succ n ih =>
    rw [kicks] at h
    obtain ⟨b, hb, hbfull⟩ := hfull
    simp only [hb] at h
    obtain ⟨hsetfull, hsetnz, hget⟩ := Bucket.full_set hbfull (Intn cf.gen bucketSize).1 hfp
    have hnz1 := nonZeroSlots_set cf.buckets i b (b.set (Intn cf.gen bucketSize).1 fp) hb
    unfold CountAccurate at hcount
    split at h
    · exact Option.noConfusion h
    · split at h
      · exact Option.noConfusion h
      · rename_i hins
        have hs := (insert_spec hins).2.2.2.2.2 rfl hget
        simp only [Option.some.injEq] at h
        subst h
        simp only at hs ⊢
        refine ⟨?_, by omega⟩
        unfold CountAccurate
        rw [hs.2, hs.1, hcount, Nat.mod_eq_of_lt (by omega)]
        omega
      · rename_i hins
        obtain ⟨hcf2, b2, hb2, hb2full⟩ := (insert_spec hins).2.2.2.2.1 rfl
        subst hcf2
        have hres := ih _ _ _ h (by unfold CountAccurate; simp only; omega)
          (by simp only; omega) hget ⟨b2, hb2, hb2full⟩
        cases r with
        | done cf1 =>
          simp only at hres ⊢
          exact ⟨hres.1, by omega⟩
        | exhausted cf1 fp1 i1 =>
          simp only at hres ⊢
          exact ⟨hres.1, by omega, hres.2.2⟩

theorem Expand_eq (cf : Filter) (hpow : PowerOfTwo cf) (hlt : cf.bucketPow < 63) :
    Expand cf = { cf with buckets := cf.buckets ++ List.replicate cf.buckets.length Bucket.empty, bucketPow := cf.bucketPow + 1 } := by
  unfold PowerOfTwo at hpow
  have hcap := Expand_capacity cf.bucketPow hlt
  have hle : cf.buckets.length ≤ 2 ^ (cf.bucketPow + 1) := by rw [hpow, pow_succ]; omega
  have htake : cf.buckets.take (2 ^ (cf.bucketPow + 1)) = cf.buckets := List.take_of_length_le hle
  have hsub : 2 ^ (cf.bucketPow + 1) - cf.buckets.length = cf.buckets.length := by
    rw [hpow, pow_succ]; omega
  simp only [Expand, hcap, htake, hsub, TrailingZeros_two_pow _ (show cf.bucketPow + 1 < 64 by omega)]

theorem Expand_PowerOfTwo (cf : Filter) (hpow : PowerOfTwo cf) (hlt : cf.bucketPow < 63) :
    PowerOfTwo (Expand cf) := by
  rw [Expand_eq cf hpow hlt]
  unfold PowerOfTwo at *
  simp only [List.length_append, List.length_replicate, hpow, pow_succ]
  omega

theorem Expand_bucketPow_mono (cf : Filter) (hp : cf.bucketPow ≤ 64) :
    cf.bucketPow ≤ (Expand cf).bucketPow ∧ (Expand cf).bucketPow ≤ 64 := by
  unfold Expand
  simp only
  generalize cf.bucketPow = p at hp
  interval_cases p <;> decide


/-! ## reinsert -/

theorem reinsertRounds_mono (metro : List Nat → Nat) (r : Nat) (cf : Filter) (fp i : Nat)
    (ok : Bool) (cf1 : Filter) (h : reinsertRounds metro r cf fp i = some (ok, cf1))
    (hp : cf.bucketPow ≤ 64) : cf.bucketPow ≤ cf1.bucketPow ∧ cf1.bucketPow ≤ 64 := by
  induction r generalizing cf fp i with
  | zero =>
    simp only [reinsertRounds, Option.some.injEq, Prod.mk.injEq] at h
    obtain ⟨_, rfl⟩ := h
    exact ⟨le_refl _, hp⟩
  | succ r ih =>
    rw [reinsertRounds] at h
    split at h
    · exact Option.noConfusion h
    · rename_i hk
      have hs := kicks_shape metro _ _ _ _ _ hk
      simp only [Option.some.injEq, Prod.mk.injEq] at h
      obtain ⟨_, rfl⟩ := h
      simp only [KickResult.filter] at hs
      omega
    · rename_i cfk fpk ik hk
      have hs := kicks_shape metro _ _ _ _ _ hk
      simp only [KickResult.filter] at hs
      have he := Expand_bucketPow_mono cfk (by omega)
      have := ih _ _ _ h he.2
      omega

theorem reinsertRounds_spec (metro : List Nat → Nat) (r : Nat) (cf : Filter) (fp i : Nat)
    (hpow : PowerOfTwo cf) (hp : cf.bucketPow + r ≤ 63) (hi : i < cf.buckets.length) :
    ∃ ok cf1, reinsertRounds metro r cf fp i = some (ok, cf1) ∧ PowerOfTwo cf1
      ∧ cf1.bucketPow ≤ cf.bucketPow + r
      ∧ (CountAccurate cf → nonZeroSlots cf.buckets + 1 < uintSize → fp ≠ 0 →
          (∃ b, cf.buckets[i]? = some b ∧ b.Full) → CountAccurate cf1) := by
  induction r generalizing cf fp i with
  | zero => exact ⟨false, cf, rfl, hpow, le_refl _, fun hc _ _ _ => hc⟩
  | succ r ih =>
    obtain ⟨res, hk, hex⟩ := kicks_total metro maxCuckooCount cf fp i hpow (by omega) hi
    have hs := kicks_shape metro _ _ _ _ _ hk
    rw [reinsertRounds]
    cases res with
    | done cfk =>
      simp only [KickResult.filter] at hs
      refine ⟨true, cfk, by simp only [hk], ?_, by omega, ?_⟩
      · unfold PowerOfTwo at *; rw [hs.1, hs.2]; exact hpow
      · intro hc hroom hfp hfull
        exact (kicks_count metro _ _ _ _ _ hk hc hroom hfp hfull).1
    | exhausted cfk fpk ik =>
      simp only [KickResult.filter] at hs
      have hik := hex cfk fpk ik rfl
      have hpowk : PowerOfTwo cfk := by
        unfold PowerOfTwo at *; rw [hs.1, hs.2]; exact hpow
      have hltk : cfk.bucketPow < 63 := by omega
      have heq := Expand_eq cfk hpowk hltk
      have hpowe := Expand_PowerOfTwo cfk hpowk hltk
      have hpe : (Expand cfk).bucketPow = cfk.bucketPow + 1 := by rw [heq]
      have hbe : (Expand cfk).buckets
          = cfk.buckets ++ List.replicate cfk.buckets.length Bucket.empty := by rw [heq]
      have hce : (Expand cfk).count = cfk.count := by rw [heq]
      obtain ⟨ok, cf1, hr, hpow1, hle1, hcnt1⟩ := ih (Expand cfk) fpk ik hpowe (by omega)
        (by rw [hbe, List.length_append]; omega)
      refine ⟨ok, cf1, by simp only [hk]; exact hr, hpow1, by omega, ?_⟩
      intro hc hroom hfp hfull
      have hkc := kicks_count metro _ _ _ _ _ hk hc hroom hfp hfull
      simp only at hkc
      obtain ⟨hck, hnzk, hfpk, bk, hbk, hbkfull⟩ := hkc
      have hnze : nonZeroSlots (Expand cfk).buckets = nonZeroSlots cfk.buckets := by
        rw [hbe, nonZeroSlots_append, nonZeroSlots_replicate_empty]; rfl
      apply hcnt1
      · unfold CountAccurate at *; rw [hce, hnze]; exact hck
      · rw [hnze, hnzk]; exact hroom
      · exact hfpk
      · refine ⟨bk, ?_, hbkfull⟩
        rw [hbe, List.getElem?_append_left (by omega)]
        exact hbk

/-! ## Insert, InsertUnique and Delete -/

theorem nonZeroSlots_room {cf : Filter} (hpow : PowerOfTwo cf) (hp : cf.bucketPow ≤ 60) :
    nonZeroSlots cf.buckets + 1 < uintSize := by
  have h1 := nonZeroSlots_le cf.buckets
  unfold PowerOfTwo at hpow
  have h2 : 2 ^ cf.bucketPow ≤ 2 ^ 60 := Nat.pow_le_pow_right (by norm_num) hp
  unfold uintSize
  omega

theorem randi_fst (cf : Filter) (i1 i2 : Nat) :
    (randi cf i1 i2).1 = i1 ∨ (randi cf i1 i2).1 = i2 := by
  have e : randi cf i1 i2
      = (if (Intn cf.gen 2).1 = 0 then i1 else i2, { cf with gen := (Intn cf.gen 2).2 }) := rfl
  rw [e]
  generalize Intn cf.gen 2 = r
  by_cases h : r.1 = 0
  · left; exact if_pos h
  · right; exact if_neg h

theorem randi_snd (cf : Filter) (i1 i2 : Nat) :
    (randi cf i1 i2).2.buckets = cf.buckets ∧ (randi cf i1 i2).2.bucketPow = cf.bucketPow
    ∧ (randi cf i1 i2).2.count = cf.count := by
  cases cf
  exact ⟨rfl, rfl, rfl⟩

theorem Insert_mono (metro : List Nat → Nat) (cf : Filter) (data : List Nat) (ok : Bool)
    (cf1 : Filter) (h : Insert metro cf data = some (ok, cf1)) :
    cf.bucketPow ≤ cf1.bucketPow := by
  unfold Insert at h
  split at h
  · exact Option.noConfusion h
  · rename_i i1 i2 fp hg
    have hp := (getIndicesAndFingerprint_spec hg).1
    split at h
    · exact Option.noConfusion h
    · rename_i hins
      simp only [Option.some.injEq, Prod.mk.injEq] at h
      obtain ⟨_, rfl⟩ := h
      rw [(insert_spec hins).2.1]
    · rename_i cfa hins
      have ha := ((insert_spec hins).2.2.2.2.1 rfl).1
      subst ha
      split at h
      · exact Option.noConfusion h
      · rename_i hins2
        simp only [Option.some.injEq, Prod.mk.injEq] at h
        obtain ⟨_, rfl⟩ := h
        rw [(insert_spec hins2).2.1]
      · rename_i cfb hins2
        have hb := ((insert_spec hins2).2.2.2.2.1 rfl).1
        subst hb
        unfold reinsert at h
        dsimp only at h
        have e := (randi_snd cfb i1 i2).2.1
        have hm := reinsertRounds_mono metro 3 (randi cfb i1 i2).2 fp (randi cfb i1 i2).1 ok cf1 h
          (by rw [e]; exact hp)
        rw [e] at hm
        exact hm.1

theorem Insert_spec (metro : List Nat → Nat) (cf : Filter) (data : List Nat)
    (hpow : PowerOfTwo cf) (hp : cf.bucketPow ≤ 60) :
    ∃ ok cf1, Insert metro cf data = some (ok, cf1) ∧ PowerOfTwo cf1
      ∧ cf1.bucketPow ≤ cf.bucketPow + 3
      ∧ (CountAccurate cf → CountAccurate cf1) := by
  have hg := getIndicesAndFingerprint_eq metro data (show cf.bucketPow ≤ 64 by omega)
  obtain ⟨_, hi1, hi2, hfp, _, _⟩ := getIndicesAndFingerprint_spec hg
  have hroom := nonZeroSlots_room hpow hp
  have hlen : cf.buckets.length = 2 ^ cf.bucketPow := hpow
  unfold Insert
  simp only [hg]
  generalize ((metro data % uintSize) >>> 32) % 2 ^ cf.bucketPow = i1 at hi1 hi2 ⊢
  generalize (i1 % 2 ^ cf.bucketPow) ^^^
    (altHash metro (getFingerprint (metro data % uintSize)) % 2 ^ cf.bucketPow) = i2 at hi2 ⊢
  generalize getFingerprint (metro data % uintSize) = fp at hfp ⊢
  obtain ⟨⟨ok1, cfa⟩, hins1⟩ := insert_total cf fp i1 (by omega)
  have hs1 := insert_spec hins1
  simp only [hins1]
  cases ok1 with
  | true =>
    refine ⟨true, cfa, rfl, ?_, by omega, ?_⟩
    · unfold PowerOfTwo; rw [hs1.1, hs1.2.1]; exact hpow
    · intro hc
      obtain ⟨hnz, hcnt⟩ := hs1.2.2.2.2.2 rfl hfp
      unfold CountAccurate at *
      rw [hcnt, hnz, hc, Nat.mod_eq_of_lt (by omega)]
  | false =>
    obtain ⟨hcfa, b1, hb1, hb1full⟩ := hs1.2.2.2.2.1 rfl
    subst hcfa
    obtain ⟨⟨ok2, cfb⟩, hins2⟩ := insert_total cfa fp i2 (by omega)
    have hs2 := insert_spec hins2
    simp only [hins2]
    cases ok2 with
    | true =>
      refine ⟨true, cfb, rfl, ?_, by omega, ?_⟩
      · unfold PowerOfTwo; rw [hs2.1, hs2.2.1]; exact hpow
      · intro hc
        obtain ⟨hnz, hcnt⟩ := hs2.2.2.2.2.2 rfl hfp
        unfold CountAccurate at *
        rw [hcnt, hnz, hc, Nat.mod_eq_of_lt (by omega)]
    | false =>
      obtain ⟨hcfb, b2, hb2, hb2full⟩ := hs2.2.2.2.2.1 rfl
      subst hcfb
      have hrandi := randi_fst cfb i1 i2
      obtain ⟨hr2b, hr2p, hr2c⟩ := randi_snd cfb i1 i2
      obtain ⟨ok, cf1, hr, hpow1, hle1, hcnt1⟩ := reinsertRounds_spec metro 3
        (randi cfb i1 i2).2 fp (randi cfb i1 i2).1
        (by unfold PowerOfTwo; rw [hr2b, hr2p]; exact hpow) (by rw [hr2p]; omega)
        (by rw [hr2b]; rcases hrandi with h | h <;> rw [h] <;> omega)
      unfold reinsert
      dsimp only
      refine ⟨ok, cf1, hr, hpow1, by rw [hr2p] at hle1; exact hle1, ?_⟩
      intro hc
      apply hcnt1
      · unfold CountAccurate at *; rw [hr2c, hr2b]; exact hc
      · rw [hr2b]; exact hroom
      · exact hfp
      · rw [hr2b]
        rcases hrandi with h | h <;> rw [h]
        · exact ⟨b1, hb1, hb1full⟩
        · exact ⟨b2, hb2, hb2full⟩

theorem Lookup_total (metro : List Nat → Nat) (cf : Filter) (data : List Nat)
    (hpow : PowerOfTwo cf) (hp : cf.bucketPow ≤ 64) :
    ∃ found, Lookup metro cf data = some found := by
  have hg := getIndicesAndFingerprint_eq metro data hp
  obtain ⟨_, hi1, hi2, _, _, _⟩ := getIndicesAndFingerprint_spec hg
  have hlen : cf.buckets.length = 2 ^ cf.bucketPow := hpow
  unfold Lookup
  simp only [hg]
  rw [List.getElem?_eq_getElem (by omega), List.getElem?_eq_getElem (by omega)]
  exact ⟨_, rfl⟩

theorem InsertUnique_mono (metro : List Nat → Nat) (cf : Filter) (data : List Nat) (ok : Bool)
    (cf1 : Filter) (h : InsertUnique metro cf data = some (ok, cf1)) :
    cf.bucketPow ≤ cf1.bucketPow := by
  unfold InsertUnique at h
  split at h
  · exact Option.noConfusion h
  · simp only [Option.some.injEq, Prod.mk.injEq] at h
    obtain ⟨_, rfl⟩ := h
    exact le_refl _
  · exact Insert_mono metro cf data ok cf1 h

theorem InsertUnique_spec (metro : List Nat → Nat) (cf : Filter) (data : List Nat)
    (hpow : PowerOfTwo cf) (hp : cf.bucketPow ≤ 60) :
    ∃ ok cf1, InsertUnique metro cf data = some (ok, cf1) ∧ PowerOfTwo cf1
      ∧ cf1.bucketPow ≤ cf.bucketPow + 3
      ∧ (CountAccurate cf → CountAccurate cf1) := by
  obtain ⟨found, hl⟩ := Lookup_total metro cf data hpow (by omega)
  unfold InsertUnique
  simp only [hl]
  cases found with
  | true => exact ⟨false, cf, rfl, hpow, by omega, fun hc => hc⟩
  | false => exact Insert_spec metro cf data hpow hp

theorem Delete_spec (metro : List Nat → Nat) (cf : Filter) (data : List Nat)
    (hpow : PowerOfTwo cf) (hp : cf.bucketPow ≤ 60) :
    ∃ ok cf1, Delete metro cf data = some (ok, cf1) ∧ PowerOfTwo cf1
      ∧ cf1.bucketPow = cf.bucketPow
      ∧ (CountAccurate cf → CountAccurate cf1) := by
  have hg := getIndicesAndFingerprint_eq metro data (show cf.bucketPow ≤ 64 by omega)
  obtain ⟨_, hi1, hi2, hfp, _, _⟩ := getIndicesAndFingerprint_spec hg
  have hroom := nonZeroSlots_room hpow hp
  have hlen : cf.buckets.length = 2 ^ cf.bucketPow := hpow
  unfold Delete
  simp only [hg]
  generalize ((metro data % uintSize) >>> 32) % 2 ^ cf.bucketPow = i1 at hi1 hi2 ⊢
  generalize (i1 % 2 ^ cf.bucketPow) ^^^
    (altHash metro (getFingerprint (metro data % uintSize)) % 2 ^ cf.bucketPow) = i2 at hi2 ⊢
  generalize getFingerprint (metro data % uintSize) = fp at hfp ⊢
  have hcount : ∀ {cfx cfy : Filter} {i : Nat}, cfx = cf → delete cfx fp i = some (true, cfy) →
      CountAccurate cf → CountAccurate cfy := by
    intro cfx cfy i hx hd hc
    subst hx
    obtain ⟨hnz, hcnt⟩ := (delete_spec hd).2.2.2 rfl hfp
    unfold CountAccurate at *
    rw [hcnt, hc]
    unfold uintSize at *
    omega
  obtain ⟨⟨ok1, cfa⟩, hd1⟩ := delete_total cf fp i1 (by omega)
  have hs1 := delete_spec hd1
  simp only [hd1]
  cases ok1 with
  | true =>
    refine ⟨true, cfa, rfl, ?_, hs1.2.1, hcount rfl hd1⟩
    unfold PowerOfTwo; rw [hs1.1, hs1.2.1]; exact hpow
  | false =>
    have hcfa := hs1.2.2.1 rfl
    subst hcfa
    obtain ⟨⟨ok2, cfb⟩, hd2⟩ := delete_total cfa fp i2 (by omega)
    have hs2 := delete_spec hd2
    refine ⟨ok2, cfb, hd2, ?_, hs2.2.1, ?_⟩
    · unfold PowerOfTwo; rw [hs2.1, hs2.2.1]; exact hpow
    · cases ok2 with
      | true => exact hcount rfl hd2
      | false => intro hc; rw [hs2.2.2.1 rfl]; exact hc

theorem Delete_mono (metro : List Nat → Nat) (cf : Filter) (data : List Nat) (ok : Bool)
    (cf1 : Filter) (h : Delete metro cf data = some (ok, cf1)) :
    cf.bucketPow ≤ cf1.bucketPow := by
  unfold Delete at h
  split at h
  · exact Option.noConfusion h
  · split at h
    · exact Option.noConfusion h
    · rename_i hd
      simp only [Option.some.injEq, Prod.mk.injEq] at h
      obtain ⟨_, rfl⟩ := h
      rw [(delete_spec hd).2.1]
    · rename_i cfa hd
      have ha := (delete_spec hd).2.2.1 rfl
      subst ha
      rw [(delete_spec h).2.1]

theorem Reset_PowerOfTwo (cf : Filter) (hpow : PowerOfTwo cf) : PowerOfTwo (Reset cf) := by
  unfold PowerOfTwo Reset at *
  simpa using hpow

/-! ## The invariants along a run -/

/-- C10: the fresh filter `NewFilter` builds has `len(buckets) = 2^bucketPow` for
every requested capacity, and from a filter with that property `Insert`,
`InsertUnique` and `Delete` return and leave a filter with it, as do `Expand`
and `Reset`. The bound on `bucketPow` says the table is below `2^61` buckets
(`2^63` bytes, the range of a Go allocation size), so that the up to three
`Expand` calls of one `Insert` do not shift past 64 bits. -/
theorem PowerOfTwo_invariant (metro : List Nat → Nat) (cf : Filter) (data : List Nat)
    (capacity : Nat) (path : String) (hpow : PowerOfTwo cf) (hsize : cf.bucketPow ≤ 60) :
    PowerOfTwo (NewFilter capacity path none)
    ∧ (∃ ok cf1, Insert metro cf data = some (ok, cf1) ∧ PowerOfTwo cf1)
    ∧ (∃ ok cf1, InsertUnique metro cf data = some (ok, cf1) ∧ PowerOfTwo cf1)
    ∧ (∃ ok cf1, Delete metro cf data = some (ok, cf1) ∧ PowerOfTwo cf1)
    ∧ PowerOfTwo (Expand cf)
    ∧ PowerOfTwo (Reset cf) := by
  refine ⟨NewFilter_PowerOfTwo capacity path none rfl, ?_, ?_, ?_,
    Expand_PowerOfTwo cf hpow (by omega), Reset_PowerOfTwo cf hpow⟩
  · obtain ⟨ok, cf1, h, hp1, _⟩ := Insert_spec metro cf data hpow hsize
    exact ⟨ok, cf1, h, hp1⟩
  · obtain ⟨ok, cf1, h, hp1, _⟩ := InsertUnique_spec metro cf data hpow hsize
    exact ⟨ok, cf1, h, hp1⟩
  · obtain ⟨ok, cf1, h, hp1, _⟩ := Delete_spec metro cf data hpow hsize
    exact ⟨ok, cf1, h, hp1⟩

set_option maxRecDepth 1000000 in
theorem PowerOfTwo_invariant_witness :
    PowerOfTwo sampleFull ∧ sampleFull.bucketPow ≤ 60
    ∧ PowerOfTwo (NewFilter 9 "" none)
    ∧ (∃ ok cf1, Insert sampleHash sampleFull [1, 4] = some (ok, cf1) ∧ PowerOfTwo cf1)
    ∧ (∃ ok cf1, InsertUnique sampleHash sampleFull [1, 4] = some (ok, cf1) ∧ PowerOfTwo cf1)
    ∧ (∃ ok cf1, Delete sampleHash sampleFull [1, 4] = some (ok, cf1) ∧ PowerOfTwo cf1)
    ∧ PowerOfTwo (Expand sampleFull)
    ∧ PowerOfTwo (Reset sampleFull) :=
  ⟨by decide, by decide,
    PowerOfTwo_invariant sampleHash sampleFull [1, 4] 9 "" (by decide) (by decide)⟩

theorem step_mono (metro : List Nat → Nat) (cf : Filter) (op : Op) (r : Bool × Filter)
    (h : step metro cf op = some r) : cf.bucketPow ≤ r.2.bucketPow := by
  obtain ⟨ok, cf1⟩ := r
  cases op with
  | insert data => exact Insert_mono metro cf data ok cf1 h
  | insertUnique data => exact InsertUnique_mono metro cf data ok cf1 h
  | delete data => exact Delete_mono metro cf data ok cf1 h

theorem step_spec (metro : List Nat → Nat) (cf : Filter) (op : Op)
    (hpow : PowerOfTwo cf) (hp : cf.bucketPow ≤ 60) :
    ∃ r, step metro cf op = some r ∧ PowerOfTwo r.2 ∧ r.2.bucketPow ≤ cf.bucketPow + 3
      ∧ (CountAccurate cf → CountAccurate r.2) := by
  cases op with
  | insert data =>
    obtain ⟨ok, cf1, h, h1, h2, h3⟩ := Insert_spec metro cf data hpow hp
    exact ⟨(ok, cf1), h, h1, h2, h3⟩
  | insertUnique data =>
    obtain ⟨ok, cf1, h, h1, h2, h3⟩ := InsertUnique_spec metro cf data hpow hp
    exact ⟨(ok, cf1), h, h1, h2, h3⟩
  | delete data =>
    obtain ⟨ok, cf1, h, h1, h2, h3⟩ := Delete_spec metro cf data hpow hp
    exact ⟨(ok, cf1), h, h1, by show cf1.bucketPow ≤ cf.bucketPow + 3; omega, h3⟩

theorem run_mono (metro : List Nat → Nat) (ops : List Op) (cf cf1 : Filter)
    (h : run metro cf ops = some cf1) : cf.bucketPow ≤ cf1.bucketPow := by
  induction ops generalizing cf with
  | nil =>
    simp only [run, Option.some.injEq] at h
    subst h
    exact le_refl _
  | cons op ops ih =>
    rw [run] at h
    split at h
    · exact Option.noConfusion h
    · rename_i r hstep
      have h1 := step_mono metro cf op r hstep
      have h2 := ih r.2 h
      omega

theorem run_invariant (metro : List Nat → Nat) (ops : List Op) (cf cf1 : Filter)
    (hpow : PowerOfTwo cf) (hcount : CountAccurate cf)
    (h : run metro cf ops = some cf1) (hsize : cf1.bucketPow ≤ 60) :
    PowerOfTwo cf1 ∧ CountAccurate cf1 := by
  induction ops generalizing cf with
  | nil =>
    simp only [run, Option.some.injEq] at h
    subst h
    exact ⟨hpow, hcount⟩
  | cons op ops ih =>
    rw [run] at h
    split at h
    · exact Option.noConfusion h
    · rename_i r hstep
      have hm1 := step_mono metro cf op r hstep
      have hm2 := run_mono metro ops r.2 cf1 h
      obtain ⟨r2, hstep2, hpow2, _, hcount2⟩ := step_spec metro cf op hpow (by omega)
      rw [hstep] at hstep2
      simp only [Option.some.injEq] at hstep2
      subst hstep2
      exact ih r.2 hpow2 (hcount2 hcount) h

theorem run_total (metro : List Nat → Nat) (ops : List Op) (cf : Filter)
    (hpow : PowerOfTwo cf) (hp : cf.bucketPow + 3 * ops.length ≤ 60) :
    ∃ cf1, run metro cf ops = some cf1 := by
  induction ops generalizing cf with
  | nil => exact ⟨cf, rfl⟩
  | cons op ops ih =>
    simp only [List.length_cons] at hp
    obtain ⟨r, hstep, hpow2, hle, _⟩ := step_spec metro cf op hpow (by omega)
    rw [run]
    simp only [hstep]
    exact ih r.2 hpow2 (by omega)

theorem NewFilter_CountAccurate (capacity : Nat) (path : String) (file : Option (List Nat))
    (hfile : ReadFile file = none) : CountAccurate (NewFilter capacity path file) := by
  obtain ⟨t, _, h⟩ := NewFilter_fresh capacity path file hfile
  rw [h]
  unfold CountAccurate
  simp only [nonZeroSlots_replicate_empty]

/-- C3: starting from the fresh filter `NewFilter` builds when no file can be
loaded, after any sequence of `Insert`, `InsertUnique` and `Delete` calls,
whatever they return, `Count()` is the number of non-zero slots of the table.
The bound on the final `bucketPow` says the table never grew to `2^61` buckets
(`2^63` bytes, the range of a Go allocation size); `bucketPow` never decreases
along a run. -/
theorem Count_accurate (metro : List Nat → Nat) (capacity : Nat) (path : String)
    (file : Option (List Nat)) (ops : List Op) (cf : Filter)
    (hfile : ReadFile file = none)
    (hrun : run metro (NewFilter capacity path file) ops = some cf)
    (hsize : cf.bucketPow ≤ 60) :
    Count cf = nonZeroSlots cf.buckets :=
  (run_invariant metro ops _ cf (NewFilter_PowerOfTwo capacity path file hfile)
    (NewFilter_CountAccurate capacity path file hfile) hrun hsize).2

set_option maxRecDepth 1000000 in
theorem Count_accurate_witness :
    ReadFile none = none
    ∧ run sampleHash (NewFilter 4 "" none) sampleOps = some sampleFinal
    ∧ sampleFinal.bucketPow ≤ 60
    ∧ Count sampleFinal = nonZeroSlots sampleFinal.buckets :=
  ⟨rfl, by decide, by decide,
    Count_accurate sampleHash 4 "" none sampleOps sampleFinal rfl (by decide) (by decide)⟩

/-! ## Fingerprints that expansion strands -/

theorem Bucket.getFingerprintIndex_of_not_has {b : Bucket} {fp : Nat} (h : ¬ b.Has fp) :
    b.getFingerprintIndex fp = -1 := by
  unfold Bucket.Has at h
  unfold Bucket.getFingerprintIndex
  simp only [not_or] at h
  simp [h.1, h.2.1, h.2.2.1, h.2.2.2]

theorem Bucket.delete_of_not_has {b : Bucket} {fp : Nat} (h : ¬ b.Has fp) :
    b.delete fp = none := by
  unfold Bucket.Has at h
  unfold Bucket.delete
  simp only [not_or] at h
  simp [h.1, h.2.1, h.2.2.1, h.2.2.2]

theorem Bucket.not_has_set {b : Bucket} {F v : Nat} (j : Nat) (h : ¬ b.Has F) (hv : v ≠ F) :
    ¬ (b.set j v).Has F := by
  unfold Bucket.Has at *
  unfold Bucket.set
  simp only [not_or] at h ⊢
  split <;> simp_all

theorem Bucket.not_has_insert {b b1 : Bucket} {F v : Nat} (hins : b.insert v = some b1)
    (h : ¬ b.Has F) (hv : v ≠ F) : ¬ b1.Has F := by
  unfold Bucket.Has at *
  unfold Bucket.insert at hins
  simp only [not_or] at h ⊢
  split_ifs at hins <;> (simp only [Option.some.injEq] at hins; subst hins; simp_all)

theorem Bucket.has_get {b : Bucket} {F : Nat} (j : Nat) (h : b.get j = F) : b.Has F := by
  unfold Bucket.Has
  unfold Bucket.get at h
  split at h <;> simp_all

theorem Bucket.not_has_empty {F : Nat} (hF : F ≠ 0) : ¬ Bucket.empty.Has F := by
  unfold Bucket.Has Bucket.empty
  simp only [not_or]
  exact ⟨hF.symm, hF.symm, hF.symm, hF.symm⟩

theorem OddFree_set {F : Nat} {bs : List Bucket} (i : Nat) (b1 : Bucket)
    (h : OddFree F bs) (hb1 : i % 2 = 1 → ¬ b1.Has F) : OddFree F (bs.set i b1) := by
  intro k b hk hodd
  rw [List.getElem?_set] at hk
  split_ifs at hk with h1 h2
  · simp only [Option.some.injEq] at hk
    subst hk; subst h1
    exact hb1 hodd
  · exact h k b hk hodd

theorem getAltIndex_parity {metro : List Nat → Nat} {F i p j : Nat}
    (halt : altHash metro F % 2 = 0) (h : getAltIndex metro F i p = some j) :
    j % 2 = (if p = 0 then 0 else i % 2) := by
  have hp : p ≤ 64 := by
    unfold getAltIndex at h
    cases hm : masks p with
    | none => simp [hm] at h
    | some m => exact masks_some hm
  rw [getAltIndex_eq metro F i hp] at h
  simp only [Option.some.injEq] at h
  subst h
  rw [Nat.xor_mod_two_eq]
  by_cases h0 : p = 0
  · subst h0; simp only [pow_zero, Nat.mod_one, if_true]
  · have hdvd : 2 ∣ 2 ^ p := dvd_pow_self 2 h0
    rw [if_neg h0, Nat.add_mod, Nat.mod_mod_of_dvd _ hdvd, Nat.mod_mod_of_dvd _ hdvd, halt]
    omega

theorem insert_oddfree {F v i : Nat} {cf cf1 : Filter} {ok : Bool}
    (h : insert cf v i = some (ok, cf1)) (hodd : OddFree F cf.buckets)
    (hv : v = F → i % 2 = 0) : OddFree F cf1.buckets := by
  unfold insert at h
  cases hb : cf.buckets[i]? with
  | none => simp [hb] at h
  | some b =>
    cases hins : b.insert v with
    | none =>
      simp [hb, hins] at h
      obtain ⟨_, rfl⟩ := h
      exact hodd
    | some b1 =>
      simp [hb, hins] at h
      obtain ⟨_, rfl⟩ := h
      apply OddFree_set i b1 hodd
      intro hi
      exact Bucket.not_has_insert hins (hodd i b hb hi) (fun e => by have := hv e; omega)

theorem kicks_oddfree (metro : List Nat → Nat) (F : Nat) (halt : altHash metro F % 2 = 0)
    (n : Nat) (cf : Filter) (fp i : Nat) (r : KickResult)
    (h : kicks metro n cf fp i = some r) (hodd : OddFree F cf.buckets)
    (hin : fp = F → i % 2 = 0) :
    match r with
    | KickResult.done cf1 => OddFree F cf1.buckets
    | KickResult.exhausted cf1 fp1 i1 => OddFree F cf1.buckets ∧ (fp1 = F → i1 % 2 = 0) := by
  induction n generalizing cf fp i with
  | zero =>
    simp only [kicks, Option.some.injEq] at h
    subst h
    exact ⟨hodd, hin⟩
  | succ n ih =>
    rw [kicks] at h
    split at h
    · exact Option.noConfusion h
    · rename_i b hb
      dsimp only at h
      have hset : OddFree F (cf.buckets.set i (b.set (Intn cf.gen bucketSize).1 fp)) := by
        apply OddFree_set i _ hodd
        intro hi
        exact Bucket.not_has_set _ (hodd i b hb hi) (fun e => by have := hin e; omega)
      split at h
      · exact Option.noConfusion h
      · rename_i i1 ha
        have hvic : b.get (Intn cf.gen bucketSize).1 = F → i1 % 2 = 0 := by
          intro e
          have hhas := Bucket.has_get _ e
          have hi : i % 2 = 0 := by
            by_contra hne
            exact hodd i b hb (by omega) hhas
          rw [e] at ha
          have := getAltIndex_parity halt ha
          split_ifs at this <;> omega
        split at h
        · exact Option.noConfusion h
        · rename_i cf2 hins
          simp only [Option.some.injEq] at h
          subst h
          exact insert_oddfree hins hset hvic
        · rename_i cf2 hins
          have hodd2 := insert_oddfree hins hset hvic
          have hres := ih cf2 (b.get (Intn cf.gen bucketSize).1) i1 h hodd2 hvic
          cases r with
          | done cf1 => exact hres
          | exhausted cf1 fp1 i2 => exact hres

theorem Expand_oddfree {F : Nat} (hF : F ≠ 0) (cf : Filter) (h : OddFree F cf.buckets) :
    OddFree F (Expand cf).buckets := by
  intro i b hb hodd
  unfold Expand at hb
  simp only at hb
  rw [List.getElem?_append] at hb
  split_ifs at hb with hlt
  · rw [List.getElem?_take] at hb
    split_ifs at hb
    exact h i b hb hodd
  · rw [List.getElem?_replicate] at hb
    split_ifs at hb
    simp only [Option.some.injEq] at hb
    subst hb
    exact Bucket.not_has_empty hF

theorem reinsertRounds_oddfree (metro : List Nat → Nat) (F : Nat) (hF : F ≠ 0)
    (halt : altHash metro F % 2 = 0) (r : Nat) (cf : Filter) (fp i : Nat) (ok : Bool)
    (cf1 : Filter) (h : reinsertRounds metro r cf fp i = some (ok, cf1))
    (hodd : OddFree F cf.buckets) (hin : fp = F → i % 2 = 0) : OddFree F cf1.buckets := by
  induction r generalizing cf fp i with
  | zero =>
    simp only [reinsertRounds, Option.some.injEq, Prod.mk.injEq] at h
    obtain ⟨_, rfl⟩ := h
    exact hodd
  | succ r ih =>
    rw [reinsertRounds] at h
    split at h
    · exact Option.noConfusion h
    · rename_i cfk hk
      have hko := kicks_oddfree metro F halt _ _ _ _ _ hk hodd hin
      simp only [Option.some.injEq, Prod.mk.injEq] at h
      obtain ⟨_, rfl⟩ := h
      exact hko
    · rename_i cfk fpk ik hk
      have hko := kicks_oddfree metro F halt _ _ _ _ _ hk hodd hin
      exact ih _ _ _ h (Expand_oddfree hF cfk hko.1) hko.2


theorem insert_of_full (cf : Filter) (fp i : Nat) (b : Bucket) (hb : cf.buckets[i]? = some b)
    (hfull : b.Full) : insert cf fp i = some (false, cf) := by
  have hnone := (Bucket.insert_eq_none_iff b fp).mpr hfull
  unfold insert
  rw [hb]
  dsimp only
  rw [hnone]

theorem kicks_single_full_aux (metro : List Nat → Nat) (n : Nat) (cf : Filter) (fp i : Nat)
    (r : KickResult) (h : kicks metro n cf fp i = some r)
    (b : Bucket) (hb : cf.buckets = [b]) (hfull : b.Full) (hp : cf.bucketPow = 0)
    (hfp : fp ≠ 0) (hi : i = 0) :
    ∃ cf1 fp1 b1, r = KickResult.exhausted cf1 fp1 0
      ∧ cf1.buckets = [b1] ∧ b1.Full ∧ cf1.bucketPow = 0 ∧ fp1 ≠ 0 ∧ cf1.count = cf.count := by
  induction n generalizing cf fp i b with
  | zero =>
    simp only [kicks, Option.some.injEq] at h
    subst h; subst hi
    exact ⟨cf, fp, b, rfl, hb, hfull, hp, hfp, rfl⟩
  | succ n ih =>
    subst hi
    rw [kicks] at h
    have hb0 : cf.buckets[0]? = some b := by rw [hb]; rfl
    simp only [hb0] at h
    obtain ⟨hsetfull, _, hget⟩ := Bucket.full_set hfull (Intn cf.gen bucketSize).1 hfp
    split at h
    · exact Option.noConfusion h
    · rename_i i1 ha
      have hlt := getAltIndex_lt ha
      have hi1 : i1 = 0 := by
        simp only [hp, pow_zero] at hlt
        omega
      subst hi1
      have hins0 := insert_of_full
        { cf with gen := (Intn cf.gen bucketSize).2, buckets := cf.buckets.set 0 (b.set (Intn cf.gen bucketSize).1 fp) }
        (b.get (Intn cf.gen bucketSize).1) 0 (b.set (Intn cf.gen bucketSize).1 fp)
        (by simp only [hb, List.set_cons_zero, List.getElem?_cons_zero]) hsetfull
      split at h
      · exact Option.noConfusion h
      · rename_i cf2 hins
        rw [hins0] at hins
        simp only [Option.some.injEq, Prod.mk.injEq, Bool.false_eq_true, false_and] at hins
      · rename_i cf2 hins
        rw [hins0] at hins
        simp only [Option.some.injEq, Prod.mk.injEq, true_and] at hins
        subst hins
        obtain ⟨cf1, fp1, b1, hr, h1, h2, h3, h4, h5⟩ := ih _ _ _ h (b.set (Intn cf.gen bucketSize).1 fp)
          (by simp only [hb, List.set_cons_zero]) hsetfull hp hget rfl
        exact ⟨cf1, fp1, b1, hr, h1, h2, h3, h4, h5⟩

theorem kicks_single_full (metro : List Nat → Nat) (n : Nat) (cf : Filter) (fp : Nat)
    (b : Bucket) (hb : cf.buckets = [b]) (hfull : b.Full) (hp : cf.bucketPow = 0)
    (hfp : fp ≠ 0) :
    ∃ cf1 fp1 b1, kicks metro n cf fp 0 = some (KickResult.exhausted cf1 fp1 0)
      ∧ cf1.buckets = [b1] ∧ b1.Full ∧ cf1.bucketPow = 0 ∧ fp1 ≠ 0 ∧ cf1.count = cf.count := by
  obtain ⟨r, hr, _⟩ := kicks_total metro n cf fp 0
    (by unfold PowerOfTwo; rw [hb, hp]; rfl) (by omega) (by rw [hb]; simp)
  obtain ⟨cf1, fp1, b1, he, rest⟩ := kicks_single_full_aux metro n cf fp 0 r hr b hb hfull hp hfp rfl
  subst he
  exact ⟨cf1, fp1, b1, hr, rest⟩
/-! ## A second insertion of the stranded key -/

theorem insert_of_room (cf : Filter) (fp i : Nat) (b : Bucket) (hb : cf.buckets[i]? = some b)
    (hroom : ¬ b.Full) :
    ∃ b1, b.insert fp = some b1
      ∧ insert cf fp i
        = some (true, { cf with buckets := cf.buckets.set i b1,
                                count := (cf.count + 1) % uintSize }) := by
  cases hins : b.insert fp with
  | none => exact absurd ((Bucket.insert_eq_none_iff b fp).mp hins) hroom
  | some b1 =>
    refine ⟨b1, rfl, ?_⟩
    unfold insert
    rw [hb]
    dsimp only
    rw [hins]

theorem insert_true_inv {cf cf1 : Filter} {fp i : Nat} (h : insert cf fp i = some (true, cf1)) :
    ∃ b b1, cf.buckets[i]? = some b ∧ b.insert fp = some b1
      ∧ cf1.buckets = cf.buckets.set i b1 ∧ cf1.count = (cf.count + 1) % uintSize := by
  unfold insert at h
  cases hb : cf.buckets[i]? with
  | none => simp [hb] at h
  | some b =>
    cases hins : b.insert fp with
    | none => simp [hb, hins] at h
    | some b1 =>
      simp [hb, hins] at h
      subst h
      exact ⟨b, b1, rfl, hins, rfl, rfl⟩

theorem Bucket.empty_not_full : ¬ Bucket.empty.Full := by
  unfold Bucket.Full Bucket.empty
  simp

theorem Bucket.insert_empty_not_full {v : Nat} {b1 : Bucket}
    (h : Bucket.empty.insert v = some b1) : ¬ b1.Full := by
  unfold Bucket.insert Bucket.empty at h
  simp only [if_true, Option.some.injEq] at h
  subst h
  unfold Bucket.Full
  simp

theorem RestEmpty_set_zero {bs : List Bucket} (b : Bucket) (h : RestEmpty bs) :
    RestEmpty (bs.set 0 b) := by
  intro i x hx hi
  rw [List.getElem?_set_ne (by omega)] at hx
  exact h i x hx hi

theorem kicks_rest_empty (metro : List Nat → Nat) (n : Nat) (cf : Filter) (fp i : Nat)
    (r : KickResult) (h : kicks metro n cf fp i = some r) (hi : i = 0)
    (hfull : ∃ b, cf.buckets[0]? = some b ∧ b.Full) (hrest : RestEmpty cf.buckets)
    (hfp : fp ≠ 0) :
    match r with
    | KickResult.done cf1 =>
      cf1.count = (cf.count + 1) % uintSize ∧ RestRoom cf1.buckets
    | KickResult.exhausted cf1 fp1 i1 =>
      i1 = 0 ∧ (∃ b, cf1.buckets[0]? = some b ∧ b.Full) ∧ RestEmpty cf1.buckets ∧ fp1 ≠ 0
        ∧ cf1.count = cf.count := by
  induction n generalizing cf fp i with
  | zero =>
    simp only [kicks, Option.some.injEq] at h
    subst h
    exact ⟨hi, hfull, hrest, hfp, rfl⟩
  | succ n ih =>
    subst hi
    obtain ⟨b, hb, hbfull⟩ := hfull
    rw [kicks] at h
    simp only [hb] at h
    obtain ⟨hsetfull, _, hget⟩ := Bucket.full_set hbfull (Intn cf.gen bucketSize).1 hfp
    have hlen0 : 0 < cf.buckets.length := by
      by_contra hc
      rw [List.getElem?_eq_none (by omega)] at hb
      exact Option.noConfusion hb
    have hrest1 := RestEmpty_set_zero (b.set (Intn cf.gen bucketSize).1 fp) hrest
    have hb0 : (cf.buckets.set 0 (b.set (Intn cf.gen bucketSize).1 fp))[0]?
        = some (b.set (Intn cf.gen bucketSize).1 fp) := by
      rw [List.getElem?_set_self hlen0]
    split at h
    · exact Option.noConfusion h
    · rename_i i1 ha
      split at h
      · exact Option.noConfusion h
      · rename_i cf2 hins
        simp only [Option.some.injEq] at h
        subst h
        obtain ⟨bb, b1, hbb, hbins, hbk, hcnt⟩ := insert_true_inv hins
        simp only at hbb hbk hcnt
        have hi1 : 1 ≤ i1 := by
          by_contra hc
          have : i1 = 0 := by omega
          subst this
          rw [hb0] at hbb
          simp only [Option.some.injEq] at hbb
          subst hbb
          rw [(Bucket.insert_eq_none_iff _ _).mpr hsetfull] at hbins
          exact Option.noConfusion hbins
        have hbbe := hrest1 i1 bb hbb hi1
        subst hbbe
        refine ⟨hcnt, ?_⟩
        intro j x hx hj
        rw [hbk, List.getElem?_set] at hx
        split_ifs at hx
        · simp only [Option.some.injEq] at hx
          subst hx
          exact Bucket.insert_empty_not_full hbins
        · rw [hrest1 j x hx hj]
          exact Bucket.empty_not_full
      · rename_i cf2 hins
        obtain ⟨hcf2, bf, hbf, hbffull⟩ := (insert_spec hins).2.2.2.2.1 rfl
        subst hcf2
        simp only at hbf
        have hi1 : i1 = 0 := by
          by_contra hc
          have := hrest1 i1 bf hbf (by omega)
          subst this
          exact Bucket.empty_not_full hbffull
        subst hi1
        have hres := ih _ _ _ h rfl ⟨_, hb0, hsetfull⟩ hrest1 hget
        cases r with
        | done cf1 => exact hres
        | exhausted cf1 fp1 i2 => exact hres


theorem reinsertRounds_rest (metro : List Nat → Nat) (r : Nat) (cf : Filter) (fp : Nat)
    (cf1 : Filter) (h : reinsertRounds metro r cf fp 0 = some (true, cf1))
    (hpow : PowerOfTwo cf) (hp : cf.bucketPow + r ≤ 63)
    (hfull : ∃ b, cf.buckets[0]? = some b ∧ b.Full) (hrest : RestEmpty cf.buckets)
    (hfp : fp ≠ 0) :
    cf1.count = (cf.count + 1) % uintSize ∧ RestRoom cf1.buckets := by
  induction r generalizing cf fp with
  | zero =>
    simp only [reinsertRounds, Option.some.injEq, Prod.mk.injEq, Bool.false_eq_true,
      false_and] at h
  | succ r ih =>
    rw [reinsertRounds] at h
    split at h
    · exact Option.noConfusion h
    · rename_i cfk hk
      simp only [Option.some.injEq, Prod.mk.injEq, true_and] at h
      subst h
      exact kicks_rest_empty metro _ _ _ _ _ hk rfl hfull hrest hfp
    · rename_i cfk fpk ik hk
      have hs := kicks_shape metro _ _ _ _ _ hk
      simp only [KickResult.filter] at hs
      obtain ⟨hik, ⟨bk, hbk, hbkfull⟩, hrestk, hfpk, hck⟩ :=
        kicks_rest_empty metro _ _ _ _ _ hk rfl hfull hrest hfp
      subst hik
      have hpowk : PowerOfTwo cfk := by
        unfold PowerOfTwo at *; rw [hs.1, hs.2]; exact hpow
      have heq := Expand_eq cfk hpowk (by omega)
      have hbe : (Expand cfk).buckets
          = cfk.buckets ++ List.replicate cfk.buckets.length Bucket.empty := by rw [heq]
      have hpe : (Expand cfk).bucketPow = cfk.bucketPow + 1 := by rw [heq]
      have hce : (Expand cfk).count = cfk.count := by rw [heq]
      have hlen0 : 0 < cfk.buckets.length := by
        by_contra hc
        rw [List.getElem?_eq_none (by omega)] at hbk
        exact Option.noConfusion hbk
      have hres := ih (Expand cfk) fpk h (Expand_PowerOfTwo cfk hpowk (by omega)) (by omega)
        ⟨bk, by rw [hbe, List.getElem?_append_left hlen0]; exact hbk, hbkfull⟩
        (by
          rw [hbe]
          intro i x hx hi
          rw [List.getElem?_append] at hx
          split_ifs at hx
          · exact hrestk i x hx hi
          · rw [List.getElem?_replicate] at hx
            split_ifs at hx
            simp only [Option.some.injEq] at hx
            exact hx.symm)
        hfpk
      rw [hce, hck] at hres
      exact hres

/-- What `Insert` of a key whose fingerprint has an even `altHash` entry leaves,
on a filter of one full bucket: the table has been expanded and no bucket at an
odd index holds the fingerprint. -/
theorem Insert_single_full (metro : List Nat → Nat) (b : Bucket) (count gen : Nat)
    (path : String) (data : List Nat) (hfull : b.Full)
    (halt : altHash metro (getFingerprint (metro data % uintSize)) % 2 = 0)
    (ok : Bool) (cf1 : Filter)
    (hins : Insert metro ⟨[b], count, 0, path, gen⟩ data = some (ok, cf1)) :
    PowerOfTwo cf1 ∧ 1 ≤ cf1.bucketPow ∧ cf1.bucketPow ≤ 3
      ∧ OddFree (getFingerprint (metro data % uintSize)) cf1.buckets
      ∧ (ok = true → cf1.count = (count + 1) % uintSize ∧ RestRoom cf1.buckets) := by
  have hfp : getFingerprint (metro data % uintSize) ≠ 0 := by
    have := getFingerprint_pos (metro data % uintSize); omega
  have hg := getIndicesAndFingerprint_eq metro data (show (0 : Nat) ≤ 64 by omega)
  simp only [pow_zero, Nat.mod_one, Nat.xor_self] at hg
  generalize getFingerprint (metro data % uintSize) = F at *
  have hdirect := insert_of_full ⟨[b], count, 0, path, gen⟩ F 0 b rfl hfull
  unfold Insert at hins
  split at hins
  · exact Option.noConfusion hins
  · rename_i i1 i2 fp hg2
    rw [show (Filter.mk [b] count 0 path gen).bucketPow = 0 from rfl, hg] at hg2
    simp only [Option.some.injEq, Prod.mk.injEq] at hg2
    obtain ⟨rfl, rfl, rfl⟩ := hg2
    split at hins
    · exact Option.noConfusion hins
    · rename_i cfa ha
      rw [hdirect] at ha
      simp only [Option.some.injEq, Prod.mk.injEq, Bool.false_eq_true, false_and] at ha
    · rename_i cfa ha
      rw [hdirect] at ha
      simp only [Option.some.injEq, Prod.mk.injEq, true_and] at ha
      subst ha
      split at hins
      · exact Option.noConfusion hins
      · rename_i cfb hb2
        rw [hdirect] at hb2
        simp only [Option.some.injEq, Prod.mk.injEq, Bool.false_eq_true, false_and] at hb2
      · rename_i cfb hb2
        rw [hdirect] at hb2
        simp only [Option.some.injEq, Prod.mk.injEq, true_and] at hb2
        subst hb2
        unfold reinsert at hins
        dsimp only at hins
        have hr1 : (randi ⟨[b], count, 0, path, gen⟩ 0 0).1 = 0 := by
          rcases randi_fst ⟨[b], count, 0, path, gen⟩ 0 0 with h | h <;> exact h
        obtain ⟨hrb, hrp, hrc⟩ := randi_snd ⟨[b], count, 0, path, gen⟩ 0 0
        rw [hr1] at hins
        obtain ⟨cfk, fpk, bk, hk, hbk, hbkfull, hpk, hfpk, hck⟩ :=
          kicks_single_full metro maxCuckooCount (randi ⟨[b], count, 0, path, gen⟩ 0 0).2 F b
            hrb hfull hrp hfp
        rw [reinsertRounds] at hins
        split at hins
        · rename_i hk2
          rw [hk] at hk2
          exact Option.noConfusion hk2
        · rename_i cfd hk2
          rw [hk] at hk2
          simp only [Option.some.injEq] at hk2
          exact KickResult.noConfusion hk2
        · rename_i cfd fpd id hk2
          rw [hk] at hk2
          simp only [Option.some.injEq, KickResult.exhausted.injEq] at hk2
          obtain ⟨rfl, rfl, rfl⟩ := hk2
          have hpowk : PowerOfTwo cfk := by unfold PowerOfTwo; rw [hbk, hpk]; rfl
          have heq := Expand_eq cfk hpowk (by omega)
          have hpe : (Expand cfk).bucketPow = 1 := by rw [heq]; simp only [hpk]
          have hbe : (Expand cfk).buckets = [bk, Bucket.empty] := by
            rw [heq]; simp only [hbk]; rfl
          have hodde : OddFree F (Expand cfk).buckets := by
            rw [hbe]
            intro i x hx hodd
            match i, hx with
            | 0, _ => omega
            | 1, hx =>
              simp only [List.getElem?_cons_succ, List.getElem?_cons_zero,
                Option.some.injEq] at hx
              subst hx
              exact Bucket.not_has_empty hfp
            | i + 2, hx => simp at hx
          have hpowe := Expand_PowerOfTwo cfk hpowk (by omega)
          obtain ⟨ok2, cf2, hr, hpow2, hle2, _⟩ :=
            reinsertRounds_spec metro 2 (Expand cfk) fpk 0 hpowe (by omega) (by rw [hbe]; simp)
          rw [hr] at hins
          simp only [Option.some.injEq, Prod.mk.injEq] at hins
          obtain ⟨rfl, rfl⟩ := hins
          have hmono := reinsertRounds_mono metro 2 (Expand cfk) fpk 0 _ _ hr (by omega)
          have hodd2 := reinsertRounds_oddfree metro F hfp halt 2 (Expand cfk) fpk 0 _ _
            hr hodde (fun _ => rfl)
          refine ⟨hpow2, by omega, by omega, hodd2, ?_⟩
          intro hok
          subst hok
          have hce : (Expand cfk).count = count := by rw [heq]; simp only [hck, hrc]
          have hrest := reinsertRounds_rest metro 2 (Expand cfk) fpk _ hr hpowe (by omega)
            ⟨bk, by rw [hbe]; rfl, hbkfull⟩
            (by
              rw [hbe]
              intro i x hx hi
              match i, hx with
              | 0, _ => omega
              | 1, hx =>
                simp only [List.getElem?_cons_succ, List.getElem?_cons_zero,
                  Option.some.injEq] at hx
                exact hx.symm
              | i + 2, hx => simp at hx)
            hfpk
          rw [hce] at hrest
          exact hrest


theorem candidates_oddfree (metro : List Nat → Nat) (cf : Filter) (data : List Nat)
    (hpow : PowerOfTwo cf) (hp1 : 1 ≤ cf.bucketPow) (hp : cf.bucketPow ≤ 64)
    (hbit : ((metro data % uintSize) >>> 32) % 2 = 1)
    (halt : altHash metro (getFingerprint (metro data % uintSize)) % 2 = 0)
    (hodd : OddFree (getFingerprint (metro data % uintSize)) cf.buckets) :
    ∃ i1 i2 b1 b2,
      getIndicesAndFingerprint metro data cf.bucketPow
        = some (i1, i2, getFingerprint (metro data % uintSize))
      ∧ i1 % 2 = 1 ∧ i2 % 2 = 1
      ∧ cf.buckets[i1]? = some b1 ∧ cf.buckets[i2]? = some b2
      ∧ ¬ b1.Has (getFingerprint (metro data % uintSize))
      ∧ ¬ b2.Has (getFingerprint (metro data % uintSize)) := by
  have hg := getIndicesAndFingerprint_eq metro data hp
  obtain ⟨_, hi1, hi2, _, _, _⟩ := getIndicesAndFingerprint_spec hg
  have hlen : cf.buckets.length = 2 ^ cf.bucketPow := hpow
  have hdvd : 2 ∣ 2 ^ cf.bucketPow := dvd_pow_self 2 (by omega)
  have ho1 : (((metro data % uintSize) >>> 32) % 2 ^ cf.bucketPow) % 2 = 1 := by
    rw [Nat.mod_mod_of_dvd _ hdvd]; exact hbit
  have ho2 : (((((metro data % uintSize) >>> 32) % 2 ^ cf.bucketPow) % 2 ^ cf.bucketPow)
      ^^^ (altHash metro (getFingerprint (metro data % uintSize)) % 2 ^ cf.bucketPow)) % 2
      = 1 := by
    rw [Nat.xor_mod_two_eq, Nat.add_mod, Nat.mod_mod_of_dvd _ hdvd, Nat.mod_mod_of_dvd _ hdvd,
      Nat.mod_mod_of_dvd _ hdvd, hbit, halt]
  have hb1 := List.getElem?_eq_getElem (show _ < cf.buckets.length by rw [hlen]; exact hi1)
  have hb2 := List.getElem?_eq_getElem (show _ < cf.buckets.length by rw [hlen]; exact hi2)
  exact ⟨_, _, _, _, hg, ho1, ho2, hb1, hb2, hodd _ _ hb1 ho1, hodd _ _ hb2 ho2⟩

theorem Lookup_of_oddfree (metro : List Nat → Nat) (cf : Filter) (data : List Nat)
    (hpow : PowerOfTwo cf) (hp1 : 1 ≤ cf.bucketPow) (hp : cf.bucketPow ≤ 64)
    (hbit : ((metro data % uintSize) >>> 32) % 2 = 1)
    (halt : altHash metro (getFingerprint (metro data % uintSize)) % 2 = 0)
    (hodd : OddFree (getFingerprint (metro data % uintSize)) cf.buckets) :
    Lookup metro cf data = some false := by
  obtain ⟨i1, i2, b1, b2, hg, _, _, hb1, hb2, hn1, hn2⟩ :=
    candidates_oddfree metro cf data hpow hp1 hp hbit halt hodd
  unfold Lookup
  simp only [hg, hb1, hb2, Bucket.getFingerprintIndex_of_not_has hn1,
    Bucket.getFingerprintIndex_of_not_has hn2]
  rfl

theorem Insert_direct (metro : List Nat → Nat) (cf : Filter) (data : List Nat)
    (i1 i2 fp : Nat) (b1 : Bucket) (hpow : PowerOfTwo cf) (hp : cf.bucketPow ≤ 60)
    (hg : getIndicesAndFingerprint metro data cf.bucketPow = some (i1, i2, fp))
    (hb1 : cf.buckets[i1]? = some b1) (hroom : ¬ b1.Full) :
    ∃ cf2, Insert metro cf data = some (true, cf2)
      ∧ cf2.count = (cf.count + 1) % uintSize := by
  obtain ⟨b2, _, hins⟩ := insert_of_room cf fp i1 b1 hb1 hroom
  obtain ⟨ok, cf2, hI, _⟩ := Insert_spec metro cf data hpow hp
  have hI2 := hI
  unfold Insert at hI2
  split at hI2
  · exact Option.noConfusion hI2
  · rename_i j1 j2 fq hg2
    rw [hg] at hg2
    simp only [Option.some.injEq, Prod.mk.injEq] at hg2
    obtain ⟨rfl, rfl, rfl⟩ := hg2
    split at hI2
    · exact Option.noConfusion hI2
    · rename_i cfa ha
      rw [hins] at ha
      simp only [Option.some.injEq, Prod.mk.injEq, true_and] at ha
      simp only [Option.some.injEq, Prod.mk.injEq] at hI2
      obtain ⟨rfl, rfl⟩ := hI2
      subst ha
      exact ⟨_, hI, rfl⟩
    · rename_i cfa ha
      rw [hins] at ha
      simp only [Option.some.injEq, Prod.mk.injEq, Bool.true_eq_false, false_and] at ha

theorem sample_insertUnique_fifth :
    InsertUnique sampleHash sampleFull [1, 4] = some (true, sampleExpanded) := by
  simp only [InsertUnique, sample_lookup_before, sample_insert_fifth]

/-- C1 (the code loses the key), for every hash function: on a filter of one
full bucket (what `NewFilter(4, path)` holds after four inserts), if `Insert`
of a key whose hash has bit 32 set and whose fingerprint has an even `altHash`
entry returns true, then `Lookup` of that key right afterwards returns false:
the insert has expanded the table, the fingerprint sits at an even index and
both candidate indices are odd. -/
theorem Insert_true_then_Lookup_false (metro : List Nat → Nat) (b : Bucket) (count gen : Nat)
    (path : String) (data : List Nat) (cf1 : Filter) (hfull : b.Full)
    (hbit : ((metro data % uintSize) >>> 32) % 2 = 1)
    (halt : altHash metro (getFingerprint (metro data % uintSize)) % 2 = 0)
    (hins : Insert metro ⟨[b], count, 0, path, gen⟩ data = some (true, cf1)) :
    Lookup metro cf1 data = some false := by
  obtain ⟨hpow, hp1, hp3, hodd, _⟩ :=
    Insert_single_full metro b count gen path data hfull halt true cf1 hins
  exact Lookup_of_oddfree metro cf1 data hpow hp1 (by omega) hbit halt hodd

/-- C2 (the code loses the key), for every hash function: on a filter of one
full bucket where the key is not found, if `Insert` of a key whose hash has
bit 32 set and whose fingerprint has an even `altHash` entry returns true, then
the first `Delete` of that key returns false and leaves the filter as it is. -/
theorem Insert_true_then_Delete_false (metro : List Nat → Nat) (b : Bucket) (count gen : Nat)
    (path : String) (data : List Nat) (cf1 : Filter) (hfull : b.Full)
    (hbit : ((metro data % uintSize) >>> 32) % 2 = 1)
    (halt : altHash metro (getFingerprint (metro data % uintSize)) % 2 = 0)
    (_hlookup : Lookup metro ⟨[b], count, 0, path, gen⟩ data = some false)
    (hins : Insert metro ⟨[b], count, 0, path, gen⟩ data = some (true, cf1)) :
    Delete metro cf1 data = some (false, cf1) := by
  obtain ⟨hpow, hp1, hp3, hodd, _⟩ :=
    Insert_single_full metro b count gen path data hfull halt true cf1 hins
  obtain ⟨i1, i2, b1, b2, hg, _, _, hb1, hb2, hn1, hn2⟩ :=
    candidates_oddfree metro cf1 data hpow hp1 (by omega) hbit halt hodd
  have hd1 : delete cf1 (getFingerprint (metro data % uintSize)) i1 = some (false, cf1) := by
    unfold delete
    simp only [hb1, Bucket.delete_of_not_has hn1]
  have hd2 : delete cf1 (getFingerprint (metro data % uintSize)) i2 = some (false, cf1) := by
    unfold delete
    simp only [hb2, Bucket.delete_of_not_has hn2]
  unfold Delete
  simp only [hg, hd1, hd2]

set_option maxRecDepth 1000000 in
theorem Insert_true_then_Lookup_false_witness :
    run sampleHash (NewFilter 4 "" none)
        [Op.insert [0, 0], Op.insert [0, 1], Op.insert [0, 2], Op.insert [0, 3]]
      = some ⟨[⟨1, 2, 3, 4⟩], 4, 0, "", 0⟩
    ∧ Bucket.Full ⟨1, 2, 3, 4⟩
    ∧ ((sampleHash [1, 4] % uintSize) >>> 32) % 2 = 1
    ∧ altHash sampleHash (getFingerprint (sampleHash [1, 4] % uintSize)) % 2 = 0
    ∧ Insert sampleHash ⟨[⟨1, 2, 3, 4⟩], 4, 0, "", 0⟩ [1, 4] = some (true, sampleExpanded)
    ∧ Lookup sampleHash sampleExpanded [1, 4] = some false :=
  ⟨sample_fill, by decide, by decide, by decide, sample_insert_fifth,
    Insert_true_then_Lookup_false sampleHash ⟨1, 2, 3, 4⟩ 4 0 "" [1, 4] sampleExpanded
      (by decide) (by decide) (by decide) sample_insert_fifth⟩

set_option maxRecDepth 1000000 in
theorem Insert_true_then_Delete_false_witness :
    run sampleHash (NewFilter 4 "" none)
        [Op.insert [0, 0], Op.insert [0, 1], Op.insert [0, 2], Op.insert [0, 3]]
      = some ⟨[⟨1, 2, 3, 4⟩], 4, 0, "", 0⟩
    ∧ Bucket.Full ⟨1, 2, 3, 4⟩
    ∧ ((sampleHash [1, 4] % uintSize) >>> 32) % 2 = 1
    ∧ altHash sampleHash (getFingerprint (sampleHash [1, 4] % uintSize)) % 2 = 0
    ∧ Lookup sampleHash ⟨[⟨1, 2, 3, 4⟩], 4, 0, "", 0⟩ [1, 4] = some false
    ∧ Insert sampleHash ⟨[⟨1, 2, 3, 4⟩], 4, 0, "", 0⟩ [1, 4] = some (true, sampleExpanded)
    ∧ Delete sampleHash sampleExpanded [1, 4] = some (false, sampleExpanded) :=
  ⟨sample_fill, by decide, by decide, by decide, sample_lookup_before, sample_insert_fifth,
    Insert_true_then_Delete_false sampleHash ⟨1, 2, 3, 4⟩ 4 0 "" [1, 4] sampleExpanded
      (by decide) (by decide) (by decide) sample_lookup_before sample_insert_fifth⟩



/-- C6 (the code inserts the key twice), for every hash function: on a filter
of one full bucket, if `InsertUnique` of a key whose hash has bit 32 set and
whose fingerprint has an even `altHash` entry returns true, then the
`InsertUnique` of the same key right afterwards returns true as well, and
`Count()` ends 2 above its value before the first call. -/
theorem InsertUnique_twice_true (metro : List Nat → Nat) (b : Bucket) (count gen : Nat)
    (path : String) (data : List Nat) (cf1 : Filter) (hfull : b.Full)
    (hbit : ((metro data % uintSize) >>> 32) % 2 = 1)
    (halt : altHash metro (getFingerprint (metro data % uintSize)) % 2 = 0)
    (hcount : count + 2 < uintSize)
    (h1 : InsertUnique metro ⟨[b], count, 0, path, gen⟩ data = some (true, cf1)) :
    ∃ cf2, InsertUnique metro cf1 data = some (true, cf2)
      ∧ Count cf2 = Count ⟨[b], count, 0, path, gen⟩ + 2 := by
  have hins : Insert metro ⟨[b], count, 0, path, gen⟩ data = some (true, cf1) := by
    unfold InsertUnique at h1
    split at h1
    · exact Option.noConfusion h1
    · simp only [Option.some.injEq, Prod.mk.injEq, Bool.false_eq_true, false_and] at h1
    · exact h1
  obtain ⟨hpow, hp1, hp3, hodd, hrest⟩ :=
    Insert_single_full metro b count gen path data hfull halt true cf1 hins
  obtain ⟨hc1, hroom⟩ := hrest rfl
  have hlook := Lookup_of_oddfree metro cf1 data hpow hp1 (by omega) hbit halt hodd
  obtain ⟨i1, i2, b1, b2, hg, ho1, _, hb1, _, _, _⟩ :=
    candidates_oddfree metro cf1 data hpow hp1 (by omega) hbit halt hodd
  obtain ⟨cf2, hI, hc2⟩ := Insert_direct metro cf1 data i1 i2 _ b1 hpow (by omega) hg hb1
    (hroom i1 b1 hb1 (by omega))
  refine ⟨cf2, ?_, ?_⟩
  · unfold InsertUnique
    simp only [hlook]
    exact hI
  · show cf2.count = count + 2
    rw [hc2, hc1]
    unfold uintSize at *
    omega

set_option maxRecDepth 1000000 in
theorem InsertUnique_twice_true_witness :
    run sampleHash (NewFilter 4 "" none)
        [Op.insert [0, 0], Op.insert [0, 1], Op.insert [0, 2], Op.insert [0, 3]]
      = some ⟨[⟨1, 2, 3, 4⟩], 4, 0, "", 0⟩
    ∧ Bucket.Full ⟨1, 2, 3, 4⟩
    ∧ ((sampleHash [1, 4] % uintSize) >>> 32) % 2 = 1
    ∧ altHash sampleHash (getFingerprint (sampleHash [1, 4] % uintSize)) % 2 = 0
    ∧ 4 + 2 < uintSize
    ∧ InsertUnique sampleHash ⟨[⟨1, 2, 3, 4⟩], 4, 0, "", 0⟩ [1, 4] = some (true, sampleExpanded)
    ∧ InsertUnique sampleHash sampleExpanded [1, 4] = some (true, sampleTwice)
    ∧ Count sampleTwice = Count ⟨[⟨1, 2, 3, 4⟩], 4, 0, "", 0⟩ + 2
    ∧ ∃ cf2, InsertUnique sampleHash sampleExpanded [1, 4] = some (true, cf2)
      ∧ Count cf2 = Count ⟨[⟨1, 2, 3, 4⟩], 4, 0, "", 0⟩ + 2 :=
  ⟨sample_fill, by decide, by decide, by decide, by decide, sample_insertUnique_fifth,
    by decide, by decide,
    InsertUnique_twice_true sampleHash ⟨1, 2, 3, 4⟩ 4 0 "" [1, 4] sampleExpanded
      (by decide) (by decide) (by decide) (by decide) sample_insertUnique_fifth⟩

/-! ## Fingerprint, random source, byte order -/

/-- C18: for every hash value `h`, `getFingerprint(h)` is `(h mod 255) + 1`, the
conversion to a byte truncates nothing, and the value lies in `1..255`: it is
never the empty-slot value 0. -/
theorem getFingerprint_range (h : Nat) :
    getFingerprint h = h % 255 + 1 ∧ 1 ≤ getFingerprint h ∧ getFingerprint h ≤ 255
    ∧ getFingerprint h ≠ 0 := by
  unfold getFingerprint
  omega

/-- C19: for every state `s` and every `n ≥ 1`, a single-threaded `Intn(n)` sets
the state to `(a*s + b) mod 2^64` and returns that new state modulo `n`, a
value in `[0, n)`; the slot index drawn in the eviction loop, `Intn(bucketSize)`,
is below 4. -/
theorem Intn_range (s n : Nat) (hn : 1 ≤ n) :
    (Intn s n).2 = (2862933555777941757 * s + 3037000493) % 2 ^ 64
    ∧ (Intn s n).1 = (Intn s n).2 % n
    ∧ (Intn s n).1 < n
    ∧ (Intn s bucketSize).1 < 4 := by
  have e : Intn s n = (((lcgA * s + lcgB) % uintSize) % n, (lcgA * s + lcgB) % uintSize) := rfl
  have e4 : Intn s bucketSize
      = (((lcgA * s + lcgB) % uintSize) % 4, (lcgA * s + lcgB) % uintSize) := rfl
  rw [e, e4]
  generalize hx : (lcgA * s + lcgB) % uintSize = x
  refine ⟨?_, rfl, Nat.mod_lt _ hn, Nat.mod_lt _ (by norm_num)⟩
  rw [← hx]
  rfl

theorem Intn_range_witness :
    1 ≤ 4
    ∧ (Intn 0 4).2 = (2862933555777941757 * 0 + 3037000493) % 2 ^ 64
    ∧ (Intn 0 4).1 = (Intn 0 4).2 % 4
    ∧ (Intn 0 4).1 < 4
    ∧ (Intn 0 bucketSize).1 < 4 :=
  ⟨by decide, Intn_range 0 4 (by decide)⟩

/-- C20: for every unsigned 64-bit `n`, `UintIn(n)` is the 8-byte big-endian
encoding of `n` (8 bytes, each below 256, whose big-endian value is `n`) and
`UintOut(UintIn(n)) == n`. -/
theorem UintOut_UintIn (n : Nat) (hn : n < 2 ^ 64) :
    (UintIn n).length = 8 ∧ (∀ b ∈ UintIn n, b < 256) ∧ bigEndian (UintIn n) = n
    ∧ UintOut (UintIn n) = n := by
  have hmod : n % uintSize = n := Nat.mod_eq_of_lt hn
  unfold UintIn
  simp only [hmod, Nat.shiftRight_eq_div_pow]
  refine ⟨rfl, ?_, ?_, ?_⟩
  · intro b hb
    simp only [List.mem_cons, List.mem_singleton, List.not_mem_nil, or_false] at hb
    rcases hb with h | h | h | h | h | h | h | h <;> (rw [h]; exact Nat.mod_lt _ (by norm_num))
  · simp only [bigEndian, List.foldl_cons, List.foldl_nil]
    norm_num
    omega
  · simp only [UintOut, uintSize]
    norm_num
    omega

theorem UintOut_UintIn_witness :
    258 < 2 ^ 64
    ∧ (UintIn 258).length = 8 ∧ (∀ b ∈ UintIn 258, b < 256) ∧ bigEndian (UintIn 258) = 258
    ∧ UintOut (UintIn 258) = 258 :=
  ⟨by decide, UintOut_UintIn 258 (by decide)⟩

/-! ## Alternate index and byte layout -/

/-- C12: for every fingerprint `fp`, every `bucketPow` `p` in `[0, 64]` and every
index `i < 2^p`, `getAltIndex(fp, i, p)` is below `2^p` and applying it again
with the same fingerprint gives `i` back. -/
theorem getAltIndex_involution (metro : List Nat → Nat) (fp i p : Nat) (hp : p ≤ 64)
    (hi : i < 2 ^ p) :
    ∃ j, getAltIndex metro fp i p = some j ∧ j < 2 ^ p
      ∧ getAltIndex metro fp j p = some i := by
  have h1 := getAltIndex_eq metro fp i hp
  have hlt := getAltIndex_lt h1
  refine ⟨_, h1, hlt, ?_⟩
  rw [getAltIndex_eq metro fp _ hp, Nat.mod_eq_of_lt hlt, Nat.xor_assoc, Nat.xor_self,
    Nat.xor_zero, Nat.mod_eq_of_lt hi]

theorem getAltIndex_involution_witness :
    1 ≤ 64 ∧ 1 < 2 ^ 1
    ∧ ∃ j, getAltIndex sampleHash 3 1 1 = some j ∧ j < 2 ^ 1
      ∧ getAltIndex sampleHash 3 j 1 = some 1 :=
  ⟨by decide, by decide, getAltIndex_involution sampleHash 3 1 1 (by decide) (by decide)⟩

/-- C14: for every filter, `Encode()` returns a buffer of length
`4 * len(buckets)` whose byte `4*i + j` is slot `j` of bucket `i`, for every
bucket index `i` and slot `j` in `0..3`. `Encode` only reads the filter: it
returns the buffer and nothing else. -/
theorem Encode_layout (cf : Filter) :
    (Encode cf).length = 4 * cf.buckets.length
    ∧ ∀ i j b, j < 4 → cf.buckets[i]? = some b → (Encode cf)[4 * i + j]? = some (b.get j) := by
  rw [Encode_eq_slotsOf]
  refine ⟨by rw [slotsOf_length]; omega, ?_⟩
  intro i j b hj hb
  exact slotsOf_getElem? cf.buckets i j b hj hb

theorem Encode_layout_witness :
    2 < 4 ∧ sampleExpanded.buckets[0]? = some ⟨1, 2, 6, 4⟩
    ∧ (Encode sampleExpanded).length = 4 * sampleExpanded.buckets.length
    ∧ (Encode sampleExpanded)[4 * 0 + 2]? = some (Bucket.get ⟨1, 2, 6, 4⟩ 2) :=
  ⟨by decide, by decide, (Encode_layout sampleExpanded).1,
    (Encode_layout sampleExpanded).2 0 2 ⟨1, 2, 6, 4⟩ (by decide) (by decide)⟩

/-! ## The size of a fresh filter -/

theorem getNextPow2_least (c : Nat) (h1 : 1 ≤ c) (h2 : c ≤ 2 ^ 63) :
    ∃ s, s ≤ 63 ∧ getNextPow2 c = 2 ^ s ∧ c ≤ 2 ^ s ∧ (1 ≤ s → 2 ^ (s - 1) < c) := by
  have hlt : c < uintSize := by unfold uintSize; omega
  have hpre : (c % uintSize + (uintSize - 1)) % uintSize = c - 1 := by
    rw [Nat.mod_eq_of_lt hlt]
    have e : c + (uintSize - 1) = (c - 1) + uintSize := by unfold uintSize at *; omega
    rw [e, Nat.add_mod_right, Nat.mod_eq_of_lt (by omega)]
  have hs : Nat.size (c - 1) ≤ 63 := Nat.size_le.mpr (by omega)
  refine ⟨Nat.size (c - 1), hs, ?_, ?_, ?_⟩
  · rw [getNextPow2_eq, hpre, Nat.mod_eq_of_lt (two_pow_lt_uintSize (by omega))]
  · have := Nat.lt_size_self (c - 1)
    omega
  · intro hpos
    have : 2 ^ (Nat.size (c - 1) - 1) ≤ c - 1 := Nat.lt_size.mp (by omega)
    omega

theorem NewFilter_size (c : Nat) (hc : c ≤ 2 ^ 63) :
    ∃ t, t ≤ 61
      ∧ (if getNextPow2 c / bucketSize = 0 then 1 else getNextPow2 c / bucketSize) = 2 ^ t
      ∧ LeastPowerOfTwoGe ((c + 3) / 4) (2 ^ t) := by
  unfold bucketSize
  by_cases h0 : c = 0
  · subst h0
    refine ⟨0, by omega, by decide, ⟨0, rfl⟩, by norm_num, ?_⟩
    intro k _
    exact Nat.one_le_two_pow
  · obtain ⟨s, hs, hnp, hle, hgt⟩ := getNextPow2_least c (by omega) hc
    rw [hnp]
    by_cases h2 : s < 2
    · have hsmall : 2 ^ s / 4 = 0 := by interval_cases s <;> simp
      have hc2 : c ≤ 2 := by
        have : 2 ^ s ≤ 2 ^ 1 := Nat.pow_le_pow_right (by norm_num) (by omega)
        omega
      refine ⟨0, by omega, by simp [hsmall], ⟨0, rfl⟩, by omega, ?_⟩
      intro k _
      exact Nat.one_le_two_pow
    · have e : 2 ^ s = 2 ^ (s - 2) * 4 := by
        rw [show (4 : Nat) = 2 ^ 2 from rfl, ← pow_add]
        congr 1; omega
      have hdiv : 2 ^ s / 4 = 2 ^ (s - 2) := by rw [e]; simp
      have hpos : 0 < 2 ^ (s - 2) := Nat.two_pow_pos _
      refine ⟨s - 2, by omega, by rw [hdiv, if_neg (by omega)], ⟨s - 2, rfl⟩, by omega, ?_⟩
      intro k hk
      by_contra hlt
      have hks : k + 1 ≤ s - 2 := by
        by_contra hge
        exact hlt (Nat.pow_le_pow_right (by norm_num) (by omega))
      have h3 : 2 ^ (k + 1) ≤ 2 ^ (s - 2) := Nat.pow_le_pow_right (by norm_num) hks
      have e1 : 2 ^ (s - 1) = 2 ^ (s - 2) * 2 := by
        rw [← pow_succ]; congr 1; omega
      have h4 := hgt (by omega)
      rw [pow_succ] at h3
      omega

/-- Up to the capacity `2^63` the size is the specified one: when loading from
the path fails, the filter `NewFilter` asks `make` for is empty (all slots
zero, `count` 0) and its number of buckets is the smallest power of two at
least `ceil(c / 4)`. -/
theorem NewFilter_fresh_size (c : Nat) (path : String) (file : Option (List Nat))
    (hc : c ≤ 2 ^ 63) (hfile : ReadFile file = none) :
    ∃ t, NewFilter c path file = ⟨List.replicate (2 ^ t) Bucket.empty, 0, t, path, 0⟩
      ∧ LeastPowerOfTwoGe ((c + 3) / 4) (2 ^ t) := by
  obtain ⟨t, ht, hcap, hleast⟩ := NewFilter_size c hc
  refine ⟨t, ?_, hleast⟩
  unfold NewFilter
  simp only [hfile, hcap]
  rw [TrailingZeros_two_pow t (by omega)]

theorem NewFilter_fresh_size_witness :
    9 ≤ 2 ^ 63 ∧ ReadFile none = none
    ∧ ∃ t, NewFilter 9 "" none = ⟨List.replicate (2 ^ t) Bucket.empty, 0, t, "", 0⟩
      ∧ LeastPowerOfTwoGe ((9 + 3) / 4) (2 ^ t) :=
  ⟨by decide, rfl, NewFilter_fresh_size 9 "" none (by decide) rfl⟩

theorem getNextPow2_wrap (c : Nat) (h1 : 2 ^ 63 < c) (h2 : c < 2 ^ 64) : getNextPow2 c = 0 := by
  have hlt : c < uintSize := h2
  have hpre : (c % uintSize + (uintSize - 1)) % uintSize = c - 1 := by
    rw [Nat.mod_eq_of_lt hlt]
    have e : c + (uintSize - 1) = (c - 1) + uintSize := by unfold uintSize at *; omega
    rw [e, Nat.add_mod_right, Nat.mod_eq_of_lt (by omega)]
  have hs1 : Nat.size (c - 1) ≤ 64 := Nat.size_le.mpr (by omega)
  have hs2 : 63 < Nat.size (c - 1) := Nat.lt_size.mpr (by omega)
  have hs : Nat.size (c - 1) = 64 := by omega
  rw [getNextPow2_eq, hpre, hs]
  rfl

/-- C11: for every capacity `c` with `2^63 < c < 2^64`, the increment in
`getNextPow2` wraps to 0, and when loading from the path fails `NewFilter`
returns, without any error, an empty filter with a single bucket (4 slots):
fewer buckets than `ceil(c / 4)`, which is above `2^61`, so the bucket count is
not the smallest power of two at least `ceil(c / 4)`. -/
theorem NewFilter_size_overflow (c : Nat) (path : String) (file : Option (List Nat))
    (h1 : 2 ^ 63 < c) (h2 : c < 2 ^ 64) (hfile : ReadFile file = none) :
    getNextPow2 c = 0
    ∧ NewFilter c path file = ⟨[Bucket.empty], 0, 0, path, 0⟩
    ∧ (NewFilter c path file).buckets.length = 1
    ∧ 2 ^ 61 < (c + 3) / 4
    ∧ (NewFilter c path file).buckets.length < (c + 3) / 4
    ∧ ¬ LeastPowerOfTwoGe ((c + 3) / 4) (NewFilter c path file).buckets.length := by
  have hw := getNextPow2_wrap c h1 h2
  have hnew : NewFilter c path file = ⟨[Bucket.empty], 0, 0, path, 0⟩ := by
    unfold NewFilter
    simp only [hfile, hw]
    rfl
  have hceil : 2 ^ 61 < (c + 3) / 4 := by omega
  rw [hnew]
  refine ⟨hw, rfl, rfl, hceil, ?_, ?_⟩
  · show 1 < (c + 3) / 4
    omega
  · rintro ⟨_, hle, _⟩
    have : (c + 3) / 4 ≤ 1 := hle
    omega

theorem NewFilter_size_overflow_witness :
    2 ^ 63 < 2 ^ 63 + 1 ∧ 2 ^ 63 + 1 < 2 ^ 64 ∧ ReadFile none = none
    ∧ getNextPow2 (2 ^ 63 + 1) = 0
    ∧ NewFilter (2 ^ 63 + 1) "" none = ⟨[Bucket.empty], 0, 0, "", 0⟩
    ∧ (NewFilter (2 ^ 63 + 1) "" none).buckets.length = 1
    ∧ 2 ^ 61 < (2 ^ 63 + 1 + 3) / 4
    ∧ (NewFilter (2 ^ 63 + 1) "" none).buckets.length < (2 ^ 63 + 1 + 3) / 4
    ∧ ¬ LeastPowerOfTwoGe ((2 ^ 63 + 1 + 3) / 4)
        (NewFilter (2 ^ 63 + 1) "" none).buckets.length :=
  ⟨by decide, by decide, rfl,
    NewFilter_size_overflow (2 ^ 63 + 1) "" none (by decide) (by decide) rfl⟩

/-! ## Deletion -/

theorem Bucket.delete_cases (b : Bucket) (fp : Nat) :
    (b.delete fp = none ∧ ¬ b.Has fp ∧ b.getFingerprintIndex fp = -1)
    ∨ (∃ j, j < 4 ∧ b.get j = fp ∧ (∀ k, k < j → b.get k ≠ fp)
        ∧ b.delete fp = some (b.set j 0) ∧ b.Has fp ∧ b.getFingerprintIndex fp = (j : Int)) := by
  unfold Bucket.delete Bucket.getFingerprintIndex Bucket.Has
  by_cases h0 : b.s0 = fp
  · refine Or.inr ⟨0, by omega, h0, ?_, by simp [h0, Bucket.set], Or.inl h0, by simp [h0]⟩
    intro k hk; omega
  by_cases h1 : b.s1 = fp
  · refine Or.inr ⟨1, by omega, h1, ?_, by simp [h0, h1, Bucket.set], Or.inr (Or.inl h1),
      by simp [h0, h1]⟩
    intro k hk
    interval_cases k
    exact h0
  by_cases h2 : b.s2 = fp
  · refine Or.inr ⟨2, by omega, h2, ?_, by simp [h0, h1, h2, Bucket.set],
      Or.inr (Or.inr (Or.inl h2)), by simp [h0, h1, h2]⟩
    intro k hk
    interval_cases k
    · exact h0
    · exact h1
  by_cases h3 : b.s3 = fp
  · refine Or.inr ⟨3, by omega, h3, ?_, by simp [h0, h1, h2, h3, Bucket.set],
      Or.inr (Or.inr (Or.inr h3)), by simp [h0, h1, h2, h3]⟩
    intro k hk
    interval_cases k
    · exact h0
    · exact h1
    · exact h2
  · exact Or.inl ⟨by simp [h0, h1, h2, h3], by simp [h0, h1, h2, h3], by simp [h0, h1, h2, h3]⟩

/-- C15: for every filter with `len(buckets) = 2^bucketPow` (`bucketPow` at most
64, the width of the mask table) and every key, `Lookup` and `Delete` both
return, and `Delete` returns what `Lookup` returned immediately before. When
`Delete` returns false the filter is unchanged. When it returns true, the only
change to the table is that one slot is set to 0: the first slot equal to the
fingerprint, in bucket `i1` if that bucket holds the fingerprint and in bucket
`i2` otherwise; and `count` is decremented by 1 (in `uint` arithmetic, so it is
exactly one less whenever it was positive). -/
theorem Delete_reports_presence (metro : List Nat → Nat) (cf : Filter) (data : List Nat)
    (hpow : PowerOfTwo cf) (hp : cf.bucketPow ≤ 64) (hcount : cf.count < uintSize) :
    ∃ i1 i2 fp b1 b2 found ok cf1,
      getIndicesAndFingerprint metro data cf.bucketPow = some (i1, i2, fp)
      ∧ cf.buckets[i1]? = some b1 ∧ cf.buckets[i2]? = some b2
      ∧ Lookup metro cf data = some found
      ∧ Delete metro cf data = some (ok, cf1)
      ∧ ok = found
      ∧ (ok = false → cf1 = cf)
      ∧ (ok = true → ∃ i b j,
          (b1.Has fp → i = i1) ∧ (¬ b1.Has fp → i = i2)
          ∧ cf.buckets[i]? = some b ∧ j < 4 ∧ b.get j = fp ∧ (∀ k, k < j → b.get k ≠ fp)
          ∧ cf1.buckets = cf.buckets.set i (b.set j 0)
          ∧ cf1.bucketPow = cf.bucketPow ∧ cf1.FilePath = cf.FilePath ∧ cf1.gen = cf.gen
          ∧ (cf1.count + 1) % uintSize = cf.count
          ∧ (0 < cf.count → cf1.count + 1 = cf.count)) := by
  have hg := getIndicesAndFingerprint_eq metro data hp
  obtain ⟨_, hi1, hi2, hfp, _, _⟩ := getIndicesAndFingerprint_spec hg
  have hlen : cf.buckets.length = 2 ^ cf.bucketPow := hpow
  generalize ((metro data % uintSize) >>> 32) % 2 ^ cf.bucketPow = i1 at hg hi1 hi2
  generalize (i1 % 2 ^ cf.bucketPow) ^^^
    (altHash metro (getFingerprint (metro data % uintSize)) % 2 ^ cf.bucketPow) = i2 at hg hi2
  generalize getFingerprint (metro data % uintSize) = fp at hg hfp
  have hb1 : cf.buckets[i1]? = some (cf.buckets[i1]) := List.getElem?_eq_getElem (by omega)
  have hb2 : cf.buckets[i2]? = some (cf.buckets[i2]) := List.getElem?_eq_getElem (by omega)
  generalize cf.buckets[i1] = b1 at hb1
  generalize cf.buckets[i2] = b2 at hb2
  have hcnt : ((cf.count + (uintSize - 1)) % uintSize + 1) % uintSize = cf.count
      ∧ (0 < cf.count → (cf.count + (uintSize - 1)) % uintSize + 1 = cf.count) := by
    unfold uintSize at *
    omega
  have hl : Lookup metro cf data
      = some (decide (b1.getFingerprintIndex fp > -1) || decide (b2.getFingerprintIndex fp > -1)) := by
    unfold Lookup
    simp only [hg, hb1, hb2]
  rcases Bucket.delete_cases b1 fp with ⟨hd1, hn1, hx1⟩ | ⟨j, hj, hget, hfirst, hd1, hh1, hx1⟩
  · have hdel1 : delete cf fp i1 = some (false, cf) := by
      unfold delete
      simp only [hb1, hd1]
    rcases Bucket.delete_cases b2 fp with ⟨hd2, hn2, hx2⟩ | ⟨j, hj, hget, hfirst, hd2, hh2, hx2⟩
    · refine ⟨i1, i2, fp, b1, b2, false, false, cf, hg, hb1, hb2, ?_, ?_, rfl, fun _ => rfl, ?_⟩
      · rw [hl, hx1, hx2]; rfl
      · unfold Delete
        simp only [hg, hdel1]
        unfold delete
        simp only [hb2, hd2]
      · intro h; exact Bool.noConfusion h
    · refine ⟨i1, i2, fp, b1, b2, true, true,
        ⟨cf.buckets.set i2 (b2.set j 0), (cf.count + (uintSize - 1)) % uintSize, cf.bucketPow,
          cf.FilePath, cf.gen⟩, hg, hb1, hb2, ?_, ?_, rfl, fun h => Bool.noConfusion h, ?_⟩
      · rw [hl, hx1, hx2]
        simp
        omega
      · unfold Delete
        simp only [hg, hdel1]
        unfold delete
        simp only [hb2, hd2]
      · intro _
        exact ⟨i2, b2, j, fun h => absurd h hn1, fun _ => rfl, hb2, hj, hget, hfirst, rfl, rfl,
          rfl, rfl, hcnt.1, hcnt.2⟩
  · refine ⟨i1, i2, fp, b1, b2, true, true,
      ⟨cf.buckets.set i1 (b1.set j 0), (cf.count + (uintSize - 1)) % uintSize, cf.bucketPow,
        cf.FilePath, cf.gen⟩, hg, hb1, hb2, ?_, ?_, rfl, fun h => Bool.noConfusion h, ?_⟩
    · rw [hl, hx1]
      simp
      omega
    · unfold Delete
      simp only [hg]
      unfold delete
      simp only [hb1, hd1]
    · intro _
      exact ⟨i1, b1, j, fun _ => rfl, fun h => absurd hh1 h, hb1, hj, hget, hfirst, rfl, rfl,
        rfl, rfl, hcnt.1, hcnt.2⟩

theorem Delete_reports_presence_witness :
    PowerOfTwo sampleExpanded ∧ sampleExpanded.bucketPow ≤ 64 ∧ sampleExpanded.count < uintSize
    ∧ ∃ i1 i2 fp b1 b2 found ok cf1,
      getIndicesAndFingerprint sampleHash [0, 1] sampleExpanded.bucketPow = some (i1, i2, fp)
      ∧ sampleExpanded.buckets[i1]? = some b1 ∧ sampleExpanded.buckets[i2]? = some b2
      ∧ Lookup sampleHash sampleExpanded [0, 1] = some found
      ∧ Delete sampleHash sampleExpanded [0, 1] = some (ok, cf1)
      ∧ ok = found
      ∧ (ok = false → cf1 = sampleExpanded)
      ∧ (ok = true → ∃ i b j,
          (b1.Has fp → i = i1) ∧ (¬ b1.Has fp → i = i2)
          ∧ sampleExpanded.buckets[i]? = some b ∧ j < 4 ∧ b.get j = fp
          ∧ (∀ k, k < j → b.get k ≠ fp)
          ∧ cf1.buckets = sampleExpanded.buckets.set i (b.set j 0)
          ∧ cf1.bucketPow = sampleExpanded.bucketPow
          ∧ cf1.FilePath = sampleExpanded.FilePath ∧ cf1.gen = sampleExpanded.gen
          ∧ (cf1.count + 1) % uintSize = sampleExpanded.count
          ∧ (0 < sampleExpanded.count → cf1.count + 1 = sampleExpanded.count)) :=
  ⟨by decide, by decide, by decide,
    Delete_reports_presence sampleHash sampleExpanded [0, 1] (by decide) (by decide) (by decide)⟩

/-! ## Stored fingerprints through an insertion -/

theorem Bucket.stored_eq (b : Bucket) :
    b.stored = (if b.s0 = 0 then 0 else {b.s0}) + ((if b.s1 = 0 then 0 else {b.s1})
      + ((if b.s2 = 0 then 0 else {b.s2}) + (if b.s3 = 0 then 0 else {b.s3}))) := by
  simp only [Bucket.stored, Multiset.filter_cons, Multiset.filter_zero, ite_not, add_zero]

theorem Bucket.stored_set (b : Bucket) (j : Nat) {fp : Nat} (hfp : fp ≠ 0)
    (hget : b.get j ≠ 0) : (b.set j fp).stored + {b.get j} = b.stored + {fp} := by
  rw [Bucket.stored_eq, Bucket.stored_eq]
  rcases j with _ | _ | _ | j
  all_goals
    simp only [Bucket.get, Bucket.set] at hget ⊢
    simp only [hfp, hget, if_false]
    abel

theorem Bucket.stored_insert {b b1 : Bucket} {fp : Nat} (h : b.insert fp = some b1)
    (hfp : fp ≠ 0) : b1.stored = b.stored + {fp} := by
  rw [Bucket.stored_eq, Bucket.stored_eq]
  unfold Bucket.insert at h
  split_ifs at h <;> (simp only [Option.some.injEq] at h; subst h; simp only [*, if_true, if_false]) <;> abel

theorem Bucket.stored_empty : Bucket.empty.stored = 0 := by
  rfl

theorem storedFingerprints_cons (b : Bucket) (bs : List Bucket) :
    storedFingerprints (b :: bs) = b.stored + storedFingerprints bs := by
  simp [storedFingerprints]

theorem storedFingerprints_append (xs ys : List Bucket) :
    storedFingerprints (xs ++ ys) = storedFingerprints xs + storedFingerprints ys := by
  simp [storedFingerprints]

theorem storedFingerprints_replicate_empty (n : Nat) :
    storedFingerprints (List.replicate n Bucket.empty) = 0 := by
  induction n with
  | zero => rfl
  | succ n ih => rw [List.replicate_succ, storedFingerprints_cons, ih]; rfl

theorem storedFingerprints_set (bs : List Bucket) (i : Nat) (b b1 : Bucket)
    (h : bs[i]? = some b) :
    storedFingerprints (bs.set i b1) + b.stored = storedFingerprints bs + b1.stored := by
  induction bs generalizing i with
  | nil => simp at h
  | cons x xs ih =>
    cases i with
    | zero =>
      simp at h
      subst h
      simp only [List.set_cons_zero, storedFingerprints_cons]
      abel
    | succ i =>
      simp at h
      have := ih i h
      simp only [List.set_cons_succ, storedFingerprints_cons]
      rw [add_assoc, this]
      abel

theorem insert_stored {cf cf1 : Filter} {fp i : Nat} (h : insert cf fp i = some (true, cf1))
    (hfp : fp ≠ 0) :
    storedFingerprints cf1.buckets = storedFingerprints cf.buckets + {fp} := by
  obtain ⟨b, b1, hb, hins, hbs, _⟩ := insert_true_inv h
  have h1 := storedFingerprints_set cf.buckets i b b1 hb
  rw [Bucket.stored_insert hins hfp, ← add_assoc, add_right_comm] at h1
  rw [hbs]
  exact add_right_cancel h1

theorem kicks_stored (metro : List Nat → Nat) (n : Nat) (cf : Filter) (fp i : Nat)
    (r : KickResult) (h : kicks metro n cf fp i = some r)
    (hfp : fp ≠ 0) (hfull : ∃ b, cf.buckets[i]? = some b ∧ b.Full) :
    match r with
    | KickResult.done cf1 =>
      storedFingerprints cf1.buckets = storedFingerprints cf.buckets + {fp}
    | KickResult.exhausted cf1 fp1 i1 =>
      storedFingerprints cf1.buckets + {fp1} = storedFingerprints cf.buckets + {fp}
        ∧ fp1 ≠ 0 ∧ ∃ b, cf1.buckets[i1]? = some b ∧ b.Full := by
  induction n generalizing cf fp i with
  | zero =>
    simp only [kicks, Option.some.injEq] at h
    subst h
    exact ⟨rfl, hfp, hfull⟩
  | succ n ih =>
    rw [kicks] at h
    obtain ⟨b, hb, hbfull⟩ := hfull
    simp only [hb] at h
    obtain ⟨_, _, hget⟩ := Bucket.full_set hbfull (Intn cf.gen bucketSize).1 hfp
    have hset := storedFingerprints_set cf.buckets i b (b.set (Intn cf.gen bucketSize).1 fp) hb
    have hswap := Bucket.stored_set b (Intn cf.gen bucketSize).1 hfp hget
    have hkick : storedFingerprints (cf.buckets.set i (b.set (Intn cf.gen bucketSize).1 fp))
        + {b.get (Intn cf.gen bucketSize).1} = storedFingerprints cf.buckets + {fp} := by
      have e : storedFingerprints (cf.buckets.set i (b.set (Intn cf.gen bucketSize).1 fp))
          + {b.get (Intn cf.gen bucketSize).1} + b.stored
          = storedFingerprints cf.buckets + {fp} + b.stored := by
        rw [add_right_comm, hset, add_assoc, hswap]
        abel
      exact add_right_cancel e
    split at h
    · exact Option.noConfusion h
    · split at h
      · exact Option.noConfusion h
      · rename_i hins
        have hs := insert_stored hins hget
        simp only [Option.some.injEq] at h
        subst h
        simp only at hs ⊢
        rw [hs, hkick]
      · rename_i hins
        obtain ⟨hcf2, b2, hb2, hb2full⟩ := (insert_spec hins).2.2.2.2.1 rfl
        subst hcf2
        have hres := ih _ _ _ h hget ⟨b2, hb2, hb2full⟩
        cases r with
        | done cf1 =>
          simp only at hres ⊢
          rw [hres, hkick]
        | exhausted cf1 fp1 i1 =>
          simp only at hres ⊢
          exact ⟨by rw [hres.1, hkick], hres.2⟩


/-! ## A stored key stays in its pair of buckets -/

theorem Bucket.has_set_self (b : Bucket) (j fp : Nat) : (b.set j fp).Has fp := by
  unfold Bucket.Has Bucket.set
  split <;> simp

theorem Bucket.has_set_of_has {b : Bucket} {F : Nat} (j v : Nat) (h : b.Has F) :
    (b.set j v).Has F ∨ b.get j = F := by
  unfold Bucket.Has at *
  unfold Bucket.set Bucket.get
  split <;> simp only <;> tauto

theorem Bucket.has_insert_self {b b1 : Bucket} {v : Nat} (hins : b.insert v = some b1) :
    b1.Has v := by
  unfold Bucket.Has
  unfold Bucket.insert at hins
  split_ifs at hins <;> (simp only [Option.some.injEq] at hins; subst hins; simp)

theorem Bucket.has_insert_of_has {b b1 : Bucket} {F v : Nat} (hins : b.insert v = some b1)
    (hF : F ≠ 0) (h : b.Has F) : b1.Has F := by
  unfold Bucket.Has at *
  unfold Bucket.insert at hins
  split_ifs at hins <;> (simp only [Option.some.injEq] at hins; subst hins; simp only) <;>
    rcases h with h | h | h | h <;> omega

theorem Bucket.getFingerprintIndex_gt_iff (b : Bucket) (fp : Nat) :
    b.getFingerprintIndex fp > -1 ↔ b.Has fp := by
  unfold Bucket.getFingerprintIndex Bucket.Has
  split_ifs <;> simp_all

theorem Held_set {F a b : Nat} {bs : List Bucket} (i : Nat) (x x1 : Bucket)
    (hx : bs[i]? = some x) (hmono : x.Has F → x1.Has F) (h : Held F a b bs) :
    Held F a b (bs.set i x1) := by
  have key : ∀ c : Nat, (∃ y : Bucket, bs[c]? = some y ∧ y.Has F) →
      ∃ y : Bucket, (bs.set i x1)[c]? = some y ∧ y.Has F := by
    rintro c ⟨y, hy, hyF⟩
    rw [List.getElem?_set]
    by_cases hic : i = c
    · subst hic
      rw [hx] at hy
      simp only [Option.some.injEq] at hy
      subst hy
      have hlt : i < bs.length := by
        by_contra hge
        rw [List.getElem?_eq_none (by omega)] at hx
        exact Option.noConfusion hx
      exact ⟨x1, by simp [hlt], hmono hyF⟩
    · exact ⟨y, by simp [hic, hy], hyF⟩
  rcases h with h | h
  · exact Or.inl (key a h)
  · exact Or.inr (key b h)

theorem Held_set_self {F a b : Nat} {bs : List Bucket} (i : Nat) (x x1 : Bucket)
    (hx : bs[i]? = some x) (hi : i = a ∨ i = b) (h1 : x1.Has F) :
    Held F a b (bs.set i x1) := by
  have hlt : i < bs.length := by
    by_contra hge
    rw [List.getElem?_eq_none (by omega)] at hx
    exact Option.noConfusion hx
  have hget : (bs.set i x1)[i]? = some x1 := by
    rw [List.getElem?_set]
    simp [hlt]
  rcases hi with hi | hi
  · exact Or.inl ⟨x1, hi ▸ hget, h1⟩
  · exact Or.inr ⟨x1, hi ▸ hget, h1⟩

theorem insert_held {cf cf1 : Filter} {v i F a b : Nat} (h : insert cf v i = some (true, cf1))
    (hF : F ≠ 0) (hinv : Held F a b cf.buckets ∨ (v = F ∧ (i = a ∨ i = b))) :
    Held F a b cf1.buckets := by
  obtain ⟨x, x1, hx, hins, hbs, _⟩ := insert_true_inv h
  rw [hbs]
  rcases hinv with hh | ⟨hv, hi⟩
  · exact Held_set i x x1 hx (Bucket.has_insert_of_has hins hF) hh
  · subst hv
    exact Held_set_self i x x1 hx hi (Bucket.has_insert_self hins)

theorem getAltIndex_pair {metro : List Nat → Nat} {F a b p : Nat} (hp : p ≤ 64)
    (ha : a < 2 ^ p) (hab : getAltIndex metro F a p = some b) {i j : Nat}
    (hi : i = a ∨ i = b) (hij : getAltIndex metro F i p = some j) : j = a ∨ j = b := by
  have hb : getAltIndex metro F b p = some a := by
    rw [getAltIndex_eq metro F a hp] at hab
    simp only [Option.some.injEq] at hab
    rw [getAltIndex_eq metro F b hp, ← hab, Nat.mod_eq_of_lt ha]
    have hlt : (a ^^^ (altHash metro F % 2 ^ p)) < 2 ^ p :=
      Nat.xor_lt_two_pow ha (Nat.mod_lt _ (Nat.two_pow_pos p))
    rw [Nat.mod_eq_of_lt hlt, Nat.xor_assoc, Nat.xor_self, Nat.xor_zero]
  rcases hi with hi | hi
  · subst hi
    rw [hab] at hij
    simp only [Option.some.injEq] at hij
    exact Or.inr hij.symm
  · subst hi
    rw [hb] at hij
    simp only [Option.some.injEq] at hij
    exact Or.inl hij.symm

theorem kicks_held (metro : List Nat → Nat) (F a b : Nat) (hF : F ≠ 0) (n : Nat) (cf : Filter)
    (fp i : Nat) (r : KickResult) (h : kicks metro n cf fp i = some r)
    (hp : cf.bucketPow ≤ 64) (ha : a < 2 ^ cf.bucketPow)
    (hab : getAltIndex metro F a cf.bucketPow = some b)
    (hinv : Held F a b cf.buckets ∨ (fp = F ∧ (i = a ∨ i = b))) :
    match r with
    | KickResult.done cf1 => Held F a b cf1.buckets
    | KickResult.exhausted cf1 fp1 i1 =>
      Held F a b cf1.buckets ∨ (fp1 = F ∧ (i1 = a ∨ i1 = b)) := by
  induction n generalizing cf fp i with
  | zero =>
    simp only [kicks, Option.some.injEq] at h
    subst h
    exact hinv
  | succ n ih =>
    rw [kicks] at h
    split at h
    · exact Option.noConfusion h
    · rename_i x hx
      dsimp only at h
      split at h
      · exact Option.noConfusion h
      · rename_i i1 halt
        have hinv1 : Held F a b (cf.buckets.set i (x.set (Intn cf.gen bucketSize).1 fp))
            ∨ (x.get (Intn cf.gen bucketSize).1 = F ∧ (i1 = a ∨ i1 = b)) := by
          rcases hinv with hh | ⟨hv, hi⟩
          · by_cases hvic : x.get (Intn cf.gen bucketSize).1 = F ∧ (i = a ∨ i = b)
            · refine Or.inr ⟨hvic.1, ?_⟩
              rw [hvic.1] at halt
              exact getAltIndex_pair hp ha hab hvic.2 halt
            · refine Or.inl ?_
              have key : ∀ c : Nat, (∃ y : Bucket, cf.buckets[c]? = some y ∧ y.Has F) →
                  (c = a ∨ c = b) →
                  ∃ y : Bucket,
                    (cf.buckets.set i (x.set (Intn cf.gen bucketSize).1 fp))[c]? = some y
                    ∧ y.Has F := by
                rintro c ⟨y, hy, hyF⟩ hc
                rw [List.getElem?_set]
                by_cases hic : i = c
                · subst hic
                  rw [hx] at hy
                  simp only [Option.some.injEq] at hy
                  subst hy
                  have hlt : i < cf.buckets.length := by
                    by_contra hge
                    rw [List.getElem?_eq_none (by omega)] at hx
                    exact Option.noConfusion hx
                  rcases Bucket.has_set_of_has (Intn cf.gen bucketSize).1 fp hyF with h1 | h1
                  · exact ⟨_, by simp [hlt], h1⟩
                  · exact absurd ⟨h1, hc⟩ hvic
                · exact ⟨y, by simp [hic, hy], hyF⟩
              rcases hh with hh | hh
              · exact Or.inl (key a hh (Or.inl rfl))
              · exact Or.inr (key b hh (Or.inr rfl))
          · subst hv
            exact Or.inl (Held_set_self i x _ hx hi (Bucket.has_set_self _ _ _))
        split at h
        · exact Option.noConfusion h
        · rename_i cf2 hins
          simp only [Option.some.injEq] at h
          subst h
          exact insert_held hins hF hinv1
        · rename_i cf2 hins
          have hcf2 := ((insert_spec hins).2.2.2.2.1 rfl).1
          subst hcf2
          have hres := ih _ (x.get (Intn cf.gen bucketSize).1) i1 h hp ha hab hinv1
          cases r with
          | done cf1 => exact hres
          | exhausted cf1 fp1 i2 => exact hres


theorem reinsertRounds_same (metro : List Nat → Nat) (r : Nat) (cf : Filter) (fp i : Nat)
    (cf1 : Filter) (h : reinsertRounds metro (r + 1) cf fp i = some (true, cf1))
    (hpow : PowerOfTwo cf) (hp : cf.bucketPow ≤ 62) (hsame : cf1.bucketPow = cf.bucketPow) :
    kicks metro maxCuckooCount cf fp i = some (KickResult.done cf1) := by
  rw [reinsertRounds] at h
  split at h
  · exact Option.noConfusion h
  · rename_i cfk hk
    simp only [Option.some.injEq, Prod.mk.injEq, true_and] at h
    rw [hk, h]
  · rename_i cfk fpk ik hk
    exfalso
    have hs := kicks_shape metro _ _ _ _ _ hk
    simp only [KickResult.filter] at hs
    have hpowk : PowerOfTwo cfk := by
      unfold PowerOfTwo at *
      rw [hs.1, hs.2]
      exact hpow
    have he := Expand_eq cfk hpowk (by omega)
    have hm := reinsertRounds_mono metro r (Expand cfk) fpk ik true cf1 h
      (by rw [he]; simp only; omega)
    rw [he] at hm
    simp only at hm
    omega

theorem Lookup_held {metro : List Nat → Nat} {cf : Filter} {data : List Nat} {i1 i2 fp : Nat}
    (hg : getIndicesAndFingerprint metro data cf.bucketPow = some (i1, i2, fp))
    (h : Lookup metro cf data = some true) : Held fp i1 i2 cf.buckets := by
  unfold Lookup at h
  simp only [hg] at h
  split at h
  · rename_i b1 b2 hb1 hb2
    simp only [Option.some.injEq, Bool.or_eq_true, decide_eq_true_eq] at h
    rcases h with h | h
    · exact Or.inl ⟨b1, hb1, (Bucket.getFingerprintIndex_gt_iff b1 fp).mp h⟩
    · exact Or.inr ⟨b2, hb2, (Bucket.getFingerprintIndex_gt_iff b2 fp).mp h⟩
  · exact Option.noConfusion h

theorem Lookup_of_held {metro : List Nat → Nat} {cf : Filter} {data : List Nat}
    {i1 i2 fp : Nat}
    (hg : getIndicesAndFingerprint metro data cf.bucketPow = some (i1, i2, fp))
    (h1 : i1 < cf.buckets.length) (h2 : i2 < cf.buckets.length)
    (h : Held fp i1 i2 cf.buckets) : Lookup metro cf data = some true := by
  unfold Lookup
  simp only [hg]
  rw [List.getElem?_eq_getElem h1, List.getElem?_eq_getElem h2]
  simp only [Option.some.injEq, Bool.or_eq_true, decide_eq_true_eq]
  rcases h with ⟨x, hx, hF⟩ | ⟨x, hx, hF⟩
  · rw [List.getElem?_eq_getElem h1] at hx
    simp only [Option.some.injEq] at hx
    subst hx
    exact Or.inl ((Bucket.getFingerprintIndex_gt_iff _ fp).mpr hF)
  · rw [List.getElem?_eq_getElem h2] at hx
    simp only [Option.some.injEq] at hx
    subst hx
    exact Or.inr ((Bucket.getFingerprintIndex_gt_iff _ fp).mpr hF)

theorem Insert_true_same (metro : List Nat → Nat) (cf : Filter) (data : List Nat)
    (cf1 : Filter) (hpow : PowerOfTwo cf) (hp : cf.bucketPow ≤ 62)
    (hins : Insert metro cf data = some (true, cf1)) (hsame : cf1.bucketPow = cf.bucketPow) :
    cf1.buckets.length = cf.buckets.length
    ∧ storedFingerprints cf1.buckets
        = storedFingerprints cf.buckets + {getFingerprint (metro data % uintSize)}
    ∧ ∀ F a b, F ≠ 0 → a < 2 ^ cf.bucketPow → getAltIndex metro F a cf.bucketPow = some b →
        Held F a b cf.buckets → Held F a b cf1.buckets := by
  unfold Insert at hins
  split at hins
  · exact Option.noConfusion hins
  · rename_i i1 i2 fp hg
    obtain ⟨_, _, _, hfp, hfpeq, _⟩ := getIndicesAndFingerprint_spec hg
    rw [← hfpeq]
    split at hins
    · exact Option.noConfusion hins
    · rename_i cfa h1
      simp only [Option.some.injEq, Prod.mk.injEq, true_and] at hins
      subst hins
      exact ⟨(insert_spec h1).1, insert_stored h1 hfp,
        fun F a b hF _ _ hh => insert_held h1 hF (Or.inl hh)⟩
    · rename_i cfa h1
      obtain ⟨hcfa, x1, hx1, hfull1⟩ := (insert_spec h1).2.2.2.2.1 rfl
      subst hcfa
      split at hins
      · exact Option.noConfusion hins
      · rename_i cfb h2
        simp only [Option.some.injEq, Prod.mk.injEq, true_and] at hins
        subst hins
        exact ⟨(insert_spec h2).1, insert_stored h2 hfp,
          fun F a b hF _ _ hh => insert_held h2 hF (Or.inl hh)⟩
      · rename_i cfb h2
        obtain ⟨hcfb, x2, hx2, hfull2⟩ := (insert_spec h2).2.2.2.2.1 rfl
        subst hcfb
        unfold reinsert at hins
        dsimp only at hins
        obtain ⟨eb, ep, _⟩ := randi_snd cfb i1 i2
        have ei := randi_fst cfb i1 i2
        generalize (randi cfb i1 i2).2 = cfr at hins eb ep
        generalize (randi cfb i1 i2).1 = ir at hins ei
        have hpowr : PowerOfTwo cfr := by
          unfold PowerOfTwo at *
          rw [eb, ep]
          exact hpow
        have hk := reinsertRounds_same metro 2 cfr fp ir cf1 hins hpowr (by omega)
          (by rw [hsame, ep])
        have hfullr : ∃ x, cfr.buckets[ir]? = some x ∧ x.Full := by
          rw [eb]
          rcases ei with e | e
          · exact ⟨x1, e ▸ hx1, hfull1⟩
          · exact ⟨x2, e ▸ hx2, hfull2⟩
        have hs := kicks_shape metro _ _ _ _ _ hk
        have hst := kicks_stored metro _ _ _ _ _ hk hfp hfullr
        simp only [KickResult.filter] at hs
        simp only at hst
        refine ⟨by rw [hs.1, eb], by rw [hst, eb], ?_⟩
        intro F a b hF ha hab hh
        have hres := kicks_held metro F a b hF _ cfr fp ir _ hk (by omega) (by rw [ep]; exact ha)
          (by rw [ep]; exact hab) (Or.inl (by rw [eb]; exact hh))
        exact hres

/-- C16: for every filter with `len(buckets) = 2^bucketPow` (at most `2^62`
buckets), every key `k` with `Lookup(k)` true and every key `k2`: if
`Insert(k2)` returns true and `bucketPow` is the same after the call, then
`Lookup(k)` is true afterwards and the multiset of stored fingerprints is the
old multiset plus the fingerprint of `k2`. -/
theorem Insert_keeps_lookup (metro : List Nat → Nat) (cf : Filter) (k k2 : List Nat)
    (cf1 : Filter) (hpow : PowerOfTwo cf) (hp : cf.bucketPow ≤ 62)
    (hlook : Lookup metro cf k = some true)
    (hins : Insert metro cf k2 = some (true, cf1)) (hsame : cf1.bucketPow = cf.bucketPow) :
    Lookup metro cf1 k = some true
    ∧ storedFingerprints cf1.buckets
        = storedFingerprints cf.buckets + {getFingerprint (metro k2 % uintSize)} := by
  obtain ⟨hlen, hstored, hheld⟩ := Insert_true_same metro cf k2 cf1 hpow hp hins hsame
  refine ⟨?_, hstored⟩
  obtain ⟨a, b, F, hg⟩ : ∃ a b F,
      getIndicesAndFingerprint metro k cf.bucketPow = some (a, b, F) :=
    ⟨_, _, _, getIndicesAndFingerprint_eq metro k (show cf.bucketPow ≤ 64 by omega)⟩
  obtain ⟨_, hi1, hi2, hfp, _, halt⟩ := getIndicesAndFingerprint_spec hg
  have hl : cf.buckets.length = 2 ^ cf.bucketPow := hpow
  have hh := hheld F a b hfp hi1 halt (Lookup_held hg hlook)
  rw [← hsame] at hg
  exact Lookup_of_held hg (by omega) (by omega) hh

set_option maxRecDepth 1000000 in
theorem Insert_keeps_lookup_witness :
    PowerOfTwo sampleSeven ∧ sampleSeven.bucketPow ≤ 62
    ∧ Lookup parityHash sampleSeven [0, 0] = some true
    ∧ Insert parityHash sampleSeven [0, 7] = some (true, sampleCrowded)
    ∧ sampleCrowded.bucketPow = sampleSeven.bucketPow
    ∧ Lookup parityHash sampleCrowded [0, 0] = some true
    ∧ storedFingerprints sampleCrowded.buckets
        = storedFingerprints sampleSeven.buckets + {getFingerprint (parityHash [0, 7] % uintSize)} :=
  ⟨by decide, by decide, by decide, by decide, by decide,
    Insert_keeps_lookup parityHash sampleSeven [0, 0] [0, 7] sampleCrowded (by decide)
      (by decide) (by decide) (by decide) (by decide)⟩

/-! ## What a failed insertion leaves behind -/

theorem kicks_exhausted_count (metro : List Nat → Nat) (n : Nat) (cf : Filter) (fp i : Nat)
    (cf1 : Filter) (fp1 i1 : Nat)
    (h : kicks metro n cf fp i = some (KickResult.exhausted cf1 fp1 i1)) :
    cf1.count = cf.count := by
  induction n generalizing cf fp i with
  | zero =>
    simp only [kicks, Option.some.injEq, KickResult.exhausted.injEq] at h
    rw [← h.1]
  | succ n ih =>
    rw [kicks] at h
    split at h
    · exact Option.noConfusion h
    · dsimp only at h
      split at h
      · exact Option.noConfusion h
      · split at h
        · exact Option.noConfusion h
        · simp only [Option.some.injEq] at h
          exact KickResult.noConfusion h
        · rename_i cf2 hins
          have hcf2 := ((insert_spec hins).2.2.2.2.1 rfl).1
          subst hcf2
          have hres := ih _ _ _ h
          exact hres

theorem reinsertRounds_false (metro : List Nat → Nat) (r : Nat) (cf : Filter) (fp i : Nat)
    (cf1 : Filter) (h : reinsertRounds metro r cf fp i = some (false, cf1))
    (hpow : PowerOfTwo cf) (hp : cf.bucketPow + r ≤ 63) (hfp : fp ≠ 0)
    (hfull : ∃ b, cf.buckets[i]? = some b ∧ b.Full) :
    cf1.count = cf.count
    ∧ ∃ lost, lost ≠ 0
      ∧ storedFingerprints cf1.buckets + {lost} = storedFingerprints cf.buckets + {fp} := by
  induction r generalizing cf fp i with
  | zero =>
    simp only [reinsertRounds, Option.some.injEq, Prod.mk.injEq, true_and] at h
    subst h
    exact ⟨rfl, fp, hfp, rfl⟩
  | succ r ih =>
    rw [reinsertRounds] at h
    split at h
    · exact Option.noConfusion h
    · simp only [Option.some.injEq, Prod.mk.injEq] at h
      exact Bool.noConfusion h.1
    · rename_i cfk fpk ik hk
      have hs := kicks_shape metro _ _ _ _ _ hk
      simp only [KickResult.filter] at hs
      have hcount := kicks_exhausted_count metro _ _ _ _ _ _ _ hk
      have hst := kicks_stored metro _ _ _ _ _ hk hfp hfull
      simp only at hst
      obtain ⟨hstored, hfpk, bk, hbk, hbkfull⟩ := hst
      have hpowk : PowerOfTwo cfk := by
        unfold PowerOfTwo at *
        rw [hs.1, hs.2]
        exact hpow
      have he := Expand_eq cfk hpowk (by omega)
      have hik : ik < cfk.buckets.length := by
        by_contra hge
        rw [List.getElem?_eq_none (by omega)] at hbk
        exact Option.noConfusion hbk
      have hres := ih (Expand cfk) fpk ik h (Expand_PowerOfTwo cfk hpowk (by omega))
        (by rw [he]; simp only; omega) hfpk
        (by rw [he]; simp only; exact ⟨bk, by rw [List.getElem?_append_left hik]; exact hbk, hbkfull⟩)
      rw [he] at hres
      simp only [storedFingerprints_append, storedFingerprints_replicate_empty, add_zero] at hres
      obtain ⟨hc, lost, hlost, hl⟩ := hres
      exact ⟨by rw [hc, hcount], lost, hlost, by rw [hl, hstored]⟩

theorem Insert_false_stored (metro : List Nat → Nat) (cf : Filter) (data : List Nat)
    (cf1 : Filter) (hpow : PowerOfTwo cf) (hp : cf.bucketPow ≤ 60)
    (h : Insert metro cf data = some (false, cf1)) :
    cf1.count = cf.count
    ∧ ∃ lost, lost ≠ 0
      ∧ storedFingerprints cf1.buckets + {lost}
        = storedFingerprints cf.buckets + {getFingerprint (metro data % uintSize)} := by
  unfold Insert at h
  split at h
  · exact Option.noConfusion h
  · rename_i i1 i2 fp hg
    obtain ⟨_, _, _, hfp, hfpeq, _⟩ := getIndicesAndFingerprint_spec hg
    rw [← hfpeq]
    split at h
    · exact Option.noConfusion h
    · simp only [Option.some.injEq, Prod.mk.injEq] at h
      exact Bool.noConfusion h.1
    · rename_i cfa h1
      obtain ⟨hcfa, x1, hx1, hfull1⟩ := (insert_spec h1).2.2.2.2.1 rfl
      subst hcfa
      split at h
      · exact Option.noConfusion h
      · simp only [Option.some.injEq, Prod.mk.injEq] at h
        exact Bool.noConfusion h.1
      · rename_i cfb h2
        obtain ⟨hcfb, x2, hx2, hfull2⟩ := (insert_spec h2).2.2.2.2.1 rfl
        subst hcfb
        unfold reinsert at h
        dsimp only at h
        obtain ⟨eb, ep, ec⟩ := randi_snd cfb i1 i2
        have ei := randi_fst cfb i1 i2
        generalize (randi cfb i1 i2).2 = cfr at h eb ep ec
        generalize (randi cfb i1 i2).1 = ir at h ei
        have hpowr : PowerOfTwo cfr := by
          unfold PowerOfTwo at *
          rw [eb, ep]
          exact hpow
        have hfullr : ∃ x, cfr.buckets[ir]? = some x ∧ x.Full := by
          rw [eb]
          rcases ei with e | e
          · exact ⟨x1, e ▸ hx1, hfull1⟩
          · exact ⟨x2, e ▸ hx2, hfull2⟩
        have hres := reinsertRounds_false metro 3 cfr fp ir cf1 h hpowr (by omega) hfp hfullr
        rw [eb, ec] at hres
        exact hres

/-! ## The effort of an insertion -/

theorem kicksCounted_fst (metro : List Nat → Nat) (n : Nat) (cf : Filter) (fp i : Nat) :
    (kicksCounted metro n cf fp i).map Prod.fst = kicks metro n cf fp i := by
  induction n generalizing cf fp i with
  | zero => rfl
  | succ n ih =>
    rw [kicks, kicksCounted]
    dsimp only
    cases cf.buckets[i]? with
    | none => rfl
    | some b =>
      dsimp only
      cases getAltIndex metro (b.get (Intn cf.gen bucketSize).1) i cf.bucketPow with
      | none => rfl
      | some i1 =>
        dsimp only
        cases insert ⟨cf.buckets.set i (b.set (Intn cf.gen bucketSize).1 fp), cf.count,
            cf.bucketPow, cf.FilePath, (Intn cf.gen bucketSize).2⟩
            (b.get (Intn cf.gen bucketSize).1) i1 with
        | none => rfl
        | some p =>
          obtain ⟨ok, cf2⟩ := p
          cases ok with
          | true => rfl
          | false =>
            dsimp only
            rw [← ih]
            cases kicksCounted metro n cf2 (b.get (Intn cf.gen bucketSize).1) i1 with
            | none => rfl
            | some q => rfl

theorem kicksCounted_le (metro : List Nat → Nat) (n : Nat) (cf : Filter) (fp i : Nat)
    (res : KickResult) (k : Nat) (h : kicksCounted metro n cf fp i = some (res, k)) :
    k ≤ n ∧ (∀ cf1 fp1 i1, res = KickResult.exhausted cf1 fp1 i1 → k = n)
      ∧ (∀ cf1, res = KickResult.done cf1 → 1 ≤ k) := by
  induction n generalizing cf fp i res k with
  | zero =>
    simp only [kicksCounted, Option.some.injEq, Prod.mk.injEq] at h
    obtain ⟨h1, h2⟩ := h
    subst h1; subst h2
    exact ⟨le_refl _, fun _ _ _ _ => rfl, fun _ hd => KickResult.noConfusion hd⟩
  | succ n ih =>
    rw [kicksCounted] at h
    dsimp only at h
    split at h
    · exact Option.noConfusion h
    · split at h
      · exact Option.noConfusion h
      · split at h
        · exact Option.noConfusion h
        · simp only [Option.some.injEq, Prod.mk.injEq] at h
          obtain ⟨h1, h2⟩ := h
          subst h1; subst h2
          exact ⟨by omega, fun _ _ _ he => KickResult.noConfusion he, fun _ _ => le_refl _⟩
        · split at h
          · exact Option.noConfusion h
          · rename_i res1 k1 hk
            simp only [Option.some.injEq, Prod.mk.injEq] at h
            obtain ⟨h1, h2⟩ := h
            subst h1; subst h2
            have hres := ih _ _ _ _ _ hk
            exact ⟨by omega, fun a b c he => by have := hres.2.1 a b c he; omega,
              fun _ _ => by omega⟩


theorem reinsertRoundsCounted_fst (metro : List Nat → Nat) (r : Nat) (cf : Filter)
    (fp i : Nat) :
    (reinsertRoundsCounted metro r cf fp i).map Prod.fst = reinsertRounds metro r cf fp i := by
  induction r generalizing cf fp i with
  | zero => rfl
  | succ r ih =>
    rw [reinsertRounds, reinsertRoundsCounted, ← kicksCounted_fst]
    cases kicksCounted metro maxCuckooCount cf fp i with
    | none => rfl
    | some p =>
      obtain ⟨res, k⟩ := p
      cases res with
      | done cf1 => rfl
      | exhausted cf1 fp1 i1 =>
        dsimp only [Option.map]
        rw [← ih]
        cases reinsertRoundsCounted metro r (Expand cf1) fp1 i1 with
        | none => rfl
        | some q => rfl

theorem InsertCounted_fst (metro : List Nat → Nat) (cf : Filter) (data : List Nat) :
    (InsertCounted metro cf data).map Prod.fst = Insert metro cf data := by
  unfold Insert InsertCounted
  cases getIndicesAndFingerprint metro data cf.bucketPow with
  | none => rfl
  | some t =>
    obtain ⟨i1, i2, fp⟩ := t
    dsimp only
    cases insert cf fp i1 with
    | none => rfl
    | some p =>
      obtain ⟨ok, cfa⟩ := p
      cases ok with
      | true => rfl
      | false =>
        dsimp only
        cases insert cfa fp i2 with
        | none => rfl
        | some q =>
          obtain ⟨ok2, cfb⟩ := q
          cases ok2 with
          | true => rfl
          | false =>
            dsimp only
            generalize randi cfb i1 i2 = rr
            unfold reinsert
            exact reinsertRoundsCounted_fst metro 3 rr.2 fp rr.1

theorem reinsertRoundsCounted_spec (metro : List Nat → Nat) (r : Nat) (cf : Filter)
    (fp i : Nat) (ok : Bool) (cf1 : Filter) (e : Effort)
    (h : reinsertRoundsCounted metro r cf fp i = some ((ok, cf1), e))
    (hpow : PowerOfTwo cf) (hp : cf.bucketPow + r ≤ 63) :
    e.kicks.length ≤ r ∧ (∀ k ∈ e.kicks, 1 ≤ k ∧ k ≤ maxCuckooCount) ∧ e.expands ≤ r
    ∧ cf1.bucketPow = cf.bucketPow + e.expands
    ∧ (ok = true → e.kicks.length = e.expands + 1 ∧ e.expands < r)
    ∧ (ok = false → e.kicks = List.replicate r maxCuckooCount ∧ e.expands = r) := by
  induction r generalizing cf fp i e with
  | zero =>
    simp only [reinsertRoundsCounted, Option.some.injEq, Prod.mk.injEq] at h
    obtain ⟨⟨h1, h2⟩, h3⟩ := h
    subst h1; subst h2; subst h3
    refine ⟨le_refl _, ?_, le_refl _, rfl, fun hk => Bool.noConfusion hk, fun _ => ⟨rfl, rfl⟩⟩
    intro k hk
    exact absurd hk (List.not_mem_nil k)
  | succ r ih =>
    rw [reinsertRoundsCounted] at h
    split at h
    · exact Option.noConfusion h
    · rename_i cfk k hk
      simp only [Option.some.injEq, Prod.mk.injEq] at h
      obtain ⟨⟨h1, h2⟩, h3⟩ := h
      subst h1; subst h2; subst h3
      have hle := kicksCounted_le metro _ _ _ _ _ _ hk
      have hkk : kicks metro maxCuckooCount cf fp i = some (KickResult.done cfk) := by
        rw [← kicksCounted_fst, hk]
        rfl
      have hs := kicks_shape metro _ _ _ _ _ hkk
      simp only [KickResult.filter] at hs
      refine ⟨by simp, ?_, by simp, by simp [hs.2], fun _ => ⟨by simp, by simp⟩,
        fun hf => Bool.noConfusion hf⟩
      intro k1 hk1
      simp only [List.mem_singleton] at hk1
      subst hk1
      exact ⟨hle.2.2 _ rfl, hle.1⟩
    · rename_i cfk fpk ik k hk
      split at h
      · exact Option.noConfusion h
      · rename_i res e1 hr
        simp only [Option.some.injEq, Prod.mk.injEq] at h
        obtain ⟨h1, h2⟩ := h
        subst h1; subst h2
        have hle := kicksCounted_le metro _ _ _ _ _ _ hk
        have hkn : k = maxCuckooCount := hle.2.1 _ _ _ rfl
        have hkk : kicks metro maxCuckooCount cf fp i
            = some (KickResult.exhausted cfk fpk ik) := by
          rw [← kicksCounted_fst, hk]
          rfl
        have hs := kicks_shape metro _ _ _ _ _ hkk
        simp only [KickResult.filter] at hs
        have hpowk : PowerOfTwo cfk := by
          unfold PowerOfTwo at *
          rw [hs.1, hs.2]
          exact hpow
        have he := Expand_eq cfk hpowk (by omega)
        have hres := ih (Expand cfk) fpk ik e1 hr (Expand_PowerOfTwo cfk hpowk (by omega))
          (by rw [he]; simp only; omega)
        rw [he] at hres
        simp only at hres
        obtain ⟨hlen, hall, hexp, hbp, htrue, hfalse⟩ := hres
        refine ⟨by simp only [List.length_cons]; omega, ?_, by simp only; omega,
          by simp only; omega, ?_, ?_⟩
        · intro k1 hk1
          simp only [List.mem_cons] at hk1
          rcases hk1 with hk1 | hk1
          · subst hk1
            rw [hkn]
            exact ⟨by decide, le_refl _⟩
          · exact hall k1 hk1
        · intro ht
          have := htrue ht
          simp only [List.length_cons]
          omega
        · intro hf
          have := hfalse hf
          simp only
          rw [this.1, this.2, hkn, List.replicate_succ]
          exact ⟨rfl, rfl⟩

theorem InsertCounted_spec (metro : List Nat → Nat) (cf : Filter) (data : List Nat)
    (ok : Bool) (cf1 : Filter) (e : Effort)
    (h : InsertCounted metro cf data = some ((ok, cf1), e))
    (hpow : PowerOfTwo cf) (hp : cf.bucketPow ≤ 60) :
    e.kicks.length ≤ 3 ∧ (∀ k ∈ e.kicks, 1 ≤ k ∧ k ≤ maxCuckooCount) ∧ e.expands ≤ 3
    ∧ cf1.bucketPow = cf.bucketPow + e.expands
    ∧ (ok = true → e.expands ≤ 2
        ∧ (e.kicks = [] ∧ e.expands = 0 ∨ e.kicks.length = e.expands + 1))
    ∧ (ok = false → e.kicks = [maxCuckooCount, maxCuckooCount, maxCuckooCount]
        ∧ e.expands = 3) := by
  have hdirect : ∀ (cfx cfy : Filter) (j : Nat) (fp : Nat), cfx = cf →
      insert cfx fp j = some (true, cfy) →
      ((true, cfy), (⟨[], 0⟩ : Effort)) = ((ok, cf1), e) →
      e.kicks.length ≤ 3 ∧ (∀ k ∈ e.kicks, 1 ≤ k ∧ k ≤ maxCuckooCount) ∧ e.expands ≤ 3
      ∧ cf1.bucketPow = cf.bucketPow + e.expands
      ∧ (ok = true → e.expands ≤ 2
          ∧ (e.kicks = [] ∧ e.expands = 0 ∨ e.kicks.length = e.expands + 1))
      ∧ (ok = false → e.kicks = [maxCuckooCount, maxCuckooCount, maxCuckooCount]
          ∧ e.expands = 3) := by
    intro cfx cfy j fp hx hins heq
    subst hx
    simp only [Prod.mk.injEq] at heq
    obtain ⟨⟨h1, h2⟩, h3⟩ := heq
    subst h1; subst h2; subst h3
    refine ⟨by simp, ?_, by simp, by simp [(insert_spec hins).2.1],
      fun _ => ⟨by simp, Or.inl ⟨rfl, rfl⟩⟩, fun hf => Bool.noConfusion hf⟩
    intro k hk
    exact absurd hk (List.not_mem_nil k)
  unfold InsertCounted at h
  split at h
  · exact Option.noConfusion h
  · rename_i i1 i2 fp hg
    split at h
    · exact Option.noConfusion h
    · rename_i cfa h1
      simp only [Option.some.injEq] at h
      exact hdirect cf cfa i1 fp rfl h1 h
    · rename_i cfa h1
      have hcfa := ((insert_spec h1).2.2.2.2.1 rfl).1
      subst hcfa
      split at h
      · exact Option.noConfusion h
      · rename_i cfb h2
        simp only [Option.some.injEq] at h
        exact hdirect cfa cfb i2 fp rfl h2 h
      · rename_i cfb h2
        have hcfb := ((insert_spec h2).2.2.2.2.1 rfl).1
        subst hcfb
        dsimp only at h
        obtain ⟨eb, ep, _⟩ := randi_snd cfb i1 i2
        generalize (randi cfb i1 i2).2 = cfr at h eb ep
        generalize (randi cfb i1 i2).1 = ir at h
        have hpowr : PowerOfTwo cfr := by
          unfold PowerOfTwo at *
          rw [eb, ep]
          exact hpow
        have hres := reinsertRoundsCounted_spec metro 3 cfr fp ir ok cf1 e h hpowr (by omega)
        rw [ep] at hres
        obtain ⟨hlen, hall, hexp, hbp, htrue, hfalse⟩ := hres
        refine ⟨hlen, hall, hexp, hbp, ?_, ?_⟩
        · intro ht
          have := htrue ht
          exact ⟨by omega, Or.inr this.1⟩
        · intro hf
          exact hfalse hf

/-! ## An insertion that fails -/

set_option maxRecDepth 1000000 in
theorem crowd_fill : run parityHash (NewFilter 8 "" none) crowdOps = some sampleCrowded := by
  decide

set_option maxRecDepth 1000000 in
theorem crowd_insert_ninth :
    Insert parityHash sampleCrowded [0, 8] = some (false, sampleOverflowed) := by
  decide

set_option maxRecDepth 1000000 in
theorem crowd_insert_ninth_counted :
    InsertCounted parityHash sampleCrowded [0, 8]
      = some ((false, sampleOverflowed), ⟨[500, 500, 500], 3⟩) := by
  decide

set_option maxRecDepth 1000000 in
theorem seven_insert_counted :
    InsertCounted parityHash sampleSeven [0, 7] = some ((true, sampleCrowded), ⟨[1], 0⟩) := by
  decide

/-- C13: a failed `Insert` drops a stored fingerprint. On the filter
`NewFilter(8, "")` filled with the eight keys of `crowdOps` (run under
`parityHash`), `Lookup` of the key `[0,6]` (fingerprint 7) is true; `Insert` of
the key `[0,8]` (fingerprint 9) returns false and leaves `count` at 8, but the
table has lost the fingerprint 7 and holds the fingerprint 9 of the rejected
key instead, and `Lookup` of the key `[0,6]` is false afterwards. -/
theorem Insert_false_drops_fingerprint :
    run parityHash (NewFilter 8 "" none) crowdOps = some sampleCrowded
    ∧ Lookup parityHash sampleCrowded [0, 6] = some true
    ∧ Insert parityHash sampleCrowded [0, 8] = some (false, sampleOverflowed)
    ∧ sampleOverflowed.count = sampleCrowded.count
    ∧ storedFingerprints sampleOverflowed.buckets ≠ storedFingerprints sampleCrowded.buckets
    ∧ 7 ∈ storedFingerprints sampleCrowded.buckets
    ∧ 7 ∉ storedFingerprints sampleOverflowed.buckets
    ∧ 9 ∉ storedFingerprints sampleCrowded.buckets
    ∧ 9 ∈ storedFingerprints sampleOverflowed.buckets
    ∧ Lookup parityHash sampleOverflowed [0, 6] = some false :=
  ⟨crowd_fill, by decide, crowd_insert_ninth, by decide, by decide, by decide, by decide,
    by decide, by decide, by decide⟩

/-- C17 as stated fails: the failed `Insert` of the key `[0,8]` on the full
two-bucket filter `sampleCrowded` runs three rounds of 500 kicks and calls
`Expand` after each of them, three times in all, so `bucketPow` goes from 1 to
4 and the table from 2 to 16 buckets. -/
theorem Insert_three_expands :
    run parityHash (NewFilter 8 "" none) crowdOps = some sampleCrowded
    ∧ Insert parityHash sampleCrowded [0, 8] = some (false, sampleOverflowed)
    ∧ sampleOverflowed.bucketPow = sampleCrowded.bucketPow + 3
    ∧ ¬ sampleOverflowed.bucketPow ≤ sampleCrowded.bucketPow + 2
    ∧ sampleCrowded.buckets.length = 2 ∧ sampleOverflowed.buckets.length = 16
    ∧ InsertCounted parityHash sampleCrowded [0, 8]
        = some ((false, sampleOverflowed), ⟨[500, 500, 500], 3⟩) :=
  ⟨crowd_fill, crowd_insert_ninth, by decide, by decide, by decide, by decide,
    crowd_insert_ninth_counted⟩

/-- C17, amended: for every filter with `len(buckets) = 2^bucketPow` and
`bucketPow ≤ 60`, every call to `Insert` returns. It runs at most 3 rounds of
kicks, each of at least 1 and at most 500 kicks, and calls `Expand` at most 3
times; `bucketPow` after the call is the prior `bucketPow` plus the number of
`Expand` calls, and the table has `2^bucketPow` buckets again. A call that
returns true has called `Expand` at most twice (never after its last round);
a call that returns false has run 3 rounds of 500 kicks and called `Expand` 3
times, once after each round. -/
theorem Insert_bounded (metro : List Nat → Nat) (cf : Filter) (data : List Nat)
    (hpow : PowerOfTwo cf) (hp : cf.bucketPow ≤ 60) :
    ∃ ok cf1 e, InsertCounted metro cf data = some ((ok, cf1), e)
      ∧ Insert metro cf data = some (ok, cf1)
      ∧ e.kicks.length ≤ 3 ∧ (∀ k ∈ e.kicks, 1 ≤ k ∧ k ≤ 500) ∧ e.expands ≤ 3
      ∧ cf1.bucketPow = cf.bucketPow + e.expands
      ∧ cf1.buckets.length = 2 ^ cf1.bucketPow
      ∧ (ok = true → e.expands ≤ 2
          ∧ (e.kicks = [] ∧ e.expands = 0 ∨ e.kicks.length = e.expands + 1))
      ∧ (ok = false → e.kicks = [500, 500, 500] ∧ e.expands = 3) := by
  obtain ⟨ok, cf1, h, hpow1, _, _⟩ := Insert_spec metro cf data hpow hp
  have hfst := InsertCounted_fst metro cf data
  rw [h] at hfst
  cases hc : InsertCounted metro cf data with
  | none =>
    rw [hc] at hfst
    exact Option.noConfusion hfst
  | some p =>
    obtain ⟨res, e⟩ := p
    rw [hc] at hfst
    simp only [Option.map, Option.some.injEq] at hfst
    subst hfst
    obtain ⟨hlen, hall, hexp, hbp, htrue, hfalse⟩ :=
      InsertCounted_spec metro cf data ok cf1 e hc hpow hp
    exact ⟨ok, cf1, e, rfl, h, hlen, hall, hexp, hbp, hpow1, htrue, hfalse⟩

theorem Insert_bounded_witness :
    PowerOfTwo sampleCrowded ∧ sampleCrowded.bucketPow ≤ 60
    ∧ ∃ ok cf1 e, InsertCounted parityHash sampleCrowded [0, 8] = some ((ok, cf1), e)
      ∧ Insert parityHash sampleCrowded [0, 8] = some (ok, cf1)
      ∧ e.kicks.length ≤ 3 ∧ (∀ k ∈ e.kicks, 1 ≤ k ∧ k ≤ 500) ∧ e.expands ≤ 3
      ∧ cf1.bucketPow = sampleCrowded.bucketPow + e.expands
      ∧ cf1.buckets.length = 2 ^ cf1.bucketPow
      ∧ (ok = true → e.expands ≤ 2
          ∧ (e.kicks = [] ∧ e.expands = 0 ∨ e.kicks.length = e.expands + 1))
      ∧ (ok = false → e.kicks = [500, 500, 500] ∧ e.expands = 3) :=
  ⟨by decide, by decide, Insert_bounded parityHash sampleCrowded [0, 8] (by decide) (by decide)⟩

end Cuckoo
